import Mathlib

/-!
# Shared, weak and unique ownership handles: a shallow embedding

The development embeds `sw_fwd.h`, `shared.h`, `weak.h`, `unique.h` and
`compressed_pair.h`.

* A raw pointer `T*` is an `Option Nat`: `none` is `nullptr`, `some a` an address.
* A `ControlBlock*` is an `Option Nat`: an index into the list of control blocks that
  have been allocated so far.  `delete` marks a block as freed; touching a freed
  block is a fault.
* The two `int` counters are integers.  Signed overflow is undefined in the source and
  lies outside the embedding, so the counters are not wrapped.
* The only member of a managed object that the library knows about is the
  back-reference `weak_this_` of `EnableSharedFromThis`; an object whose type does not
  derive from it is an object whose back-reference is never bound.
* Every operation threads the heap explicitly and returns `Except Fault _`:
  `Fault.badWeakPtr` is the exception `BadWeakPtr`, the other faults are undefined
  behaviour of the source (null dereference, use after free).
* A `UniquePtr` is a `CompressedPair` of a pointer and a deleter; the operations of the
  deleter type are a parameter, and every invocation of a deleter is appended to a log.
-/

namespace SmartPointers

/-- Ways in which an operation can fail to return normally. -/
inductive Fault where
  | badWeakPtr
  | nullDeref
  | useAfterFree
  | wildPointer
deriving DecidableEq, Repr

/-- Raw object pointer `T*`. -/
abbrev Ptr := Option Nat

/-- Pointer to a control block, `ControlBlock*`. -/
abbrev BlockPtr := Option Nat

/-- State of a control block (`PointerControlBlock<T>` or `ObjectControlBlock<T>`).
`ptr_` is the managed object (for the in-place variant the address of `buf_`),
`inPlace` tells the two variants apart, `objectDeletes` counts the calls of
`ObjectDelete`, `freed` records that `delete` has been applied to the block. -/
structure ControlBlock where
  counter_ : Int
  weak_counter_ : Int
  ptr_ : Ptr
  inPlace : Bool
  objectDeletes : Nat
  freed : Bool
deriving DecidableEq, Repr

/-- The constructor `PointerControlBlock(T* ptr)`. -/
def PointerControlBlock (ptr : Ptr) : ControlBlock :=
  { counter_ := 1, weak_counter_ := 0, ptr_ := ptr, inPlace := false,
    objectDeletes := 0, freed := false }

/-- The constructor `ObjectControlBlock(Args&&...)`; `buf` is the address of `buf_`. -/
def ObjectControlBlock (buf : Nat) : ControlBlock :=
  { counter_ := 1, weak_counter_ := 0, ptr_ := some buf, inPlace := true,
    objectDeletes := 0, freed := false }

/-- The handle `SharedPtr<T>`. -/
structure SharedPtr where
  stored_ptr_ : Ptr
  control_block_ : BlockPtr
deriving DecidableEq, Repr

/-- The handle `WeakPtr<T>`. -/
structure WeakPtr where
  stored_ptr_ : Ptr
  control_block_ : BlockPtr
deriving DecidableEq, Repr

/-- A managed object, reduced to the member `weak_this_` of `EnableSharedFromThis`. -/
structure Object where
  weak_this_ : WeakPtr
deriving DecidableEq, Repr

/-- The heap: every control block and every object allocated so far. -/
structure Heap where
  blocks : List ControlBlock
  objects : List Object
deriving DecidableEq, Repr

/-- Conversion `int → size_t` (the return type of `UseCount`): a non-negative count
keeps its value, a negative count `c` becomes `2^64 + c`. -/
def toSizeT (c : Int) : Nat :=
  if 0 ≤ c then c.toNat else (c + 2 ^ 64).toNat

/-! ## Control blocks in the heap -/

/-- Dereference a control block pointer. -/
def Heap.deref (h : Heap) (cb : BlockPtr) : Except Fault ControlBlock :=
  match cb with
  | none => .error .nullDeref
  | some i =>
    match h.blocks[i]? with
    | none => .error .wildPointer
    | some b => if b.freed then .error .useAfterFree else .ok b

/-- Apply a member function that mutates the block behind `cb`. -/
def Heap.modify (h : Heap) (cb : BlockPtr) (f : ControlBlock → ControlBlock) :
    Except Fault Heap :=
  match cb with
  | none => .error .nullDeref
  | some i =>
    match h.blocks[i]? with
    | none => .error .wildPointer
    | some b =>
      if b.freed then .error .useAfterFree
      else .ok { h with blocks := h.blocks.set i (f b) }

/-- Virtual `GetCount()`. -/
def Heap.GetCount (h : Heap) (cb : BlockPtr) : Except Fault Int := do
  let b ← h.deref cb
  pure b.counter_

/-- Virtual `GetWeakCount()`. -/
def Heap.GetWeakCount (h : Heap) (cb : BlockPtr) : Except Fault Int := do
  let b ← h.deref cb
  pure b.weak_counter_

/-- Virtual `operator++()`. -/
def Heap.increment (h : Heap) (cb : BlockPtr) : Except Fault Heap :=
  h.modify cb (fun b => { b with counter_ := b.counter_ + 1 })

/-- Virtual `operator--()`. -/
def Heap.decrement (h : Heap) (cb : BlockPtr) : Except Fault Heap :=
  h.modify cb (fun b => { b with counter_ := b.counter_ - 1 })

/-- Virtual `WeakIncrement()`. -/
def Heap.WeakIncrement (h : Heap) (cb : BlockPtr) : Except Fault Heap :=
  h.modify cb (fun b => { b with weak_counter_ := b.weak_counter_ + 1 })

/-- Virtual `WeakDecrement()`. -/
def Heap.WeakDecrement (h : Heap) (cb : BlockPtr) : Except Fault Heap :=
  h.modify cb (fun b => { b with weak_counter_ := b.weak_counter_ - 1 })

/-- The expression `delete cb` on a control block pointer (`delete nullptr` does
nothing; the destructor of a block is defaulted and does not touch the object). -/
def Heap.deleteBlock (h : Heap) (cb : BlockPtr) : Except Fault Heap :=
  match cb with
  | none => .ok h
  | some i => h.modify (some i) (fun b => { b with freed := true })

/-! ## `WeakPtr` (weak.h) -/

/-- `WeakPtr()`. -/
def WeakPtr.null : WeakPtr := { stored_ptr_ := none, control_block_ := none }

/-- `WeakPtr::operator bool`. -/
def WeakPtr.toBool (w : WeakPtr) : Bool := w.control_block_ != none

/-- `WeakPtr::UseCount`. -/
def WeakPtr.UseCount (w : WeakPtr) (h : Heap) : Except Fault Nat :=
  if !w.toBool then pure 0
  else do
    let c ← h.GetCount w.control_block_
    pure (toSizeT c)

/-- `WeakPtr::Expired`. -/
def WeakPtr.Expired (w : WeakPtr) (h : Heap) : Except Fault Bool :=
  if !w.toBool then pure true
  else do
    let c ← h.GetCount w.control_block_
    pure (c == 0)

/-- `WeakPtr(const WeakPtr& other)` (and its converting form). -/
def WeakPtr.copy (h : Heap) (other : WeakPtr) : Except Fault (Heap × WeakPtr) :=
  let self : WeakPtr :=
    { stored_ptr_ := other.stored_ptr_, control_block_ := other.control_block_ }
  if self.toBool then do
    let h1 ← h.WeakIncrement self.control_block_
    pure (h1, self)
  else pure (h, self)

/-- `WeakPtr(WeakPtr&& other)`: the new handle and the state left in `other`. -/
def WeakPtr.move (other : WeakPtr) : WeakPtr × WeakPtr :=
  ({ stored_ptr_ := other.stored_ptr_, control_block_ := other.control_block_ },
   { stored_ptr_ := none, control_block_ := none })

/-- `WeakPtr(const SharedPtr<Y>& other)`. -/
def WeakPtr.ofShared (h : Heap) (other : SharedPtr) : Except Fault (Heap × WeakPtr) :=
  let self : WeakPtr :=
    { stored_ptr_ := other.stored_ptr_, control_block_ := other.control_block_ }
  if self.toBool then do
    let h1 ← h.WeakIncrement self.control_block_
    pure (h1, self)
  else pure (h, self)

/-- `WeakPtr::~WeakPtr`. -/
def WeakPtr.destroy (w : WeakPtr) (h : Heap) : Except Fault Heap :=
  if w.toBool then do
    let uc ← w.UseCount h
    let wc ← h.GetWeakCount w.control_block_
    if uc == 0 && wc == 1 then do
      let h1 ← h.WeakDecrement w.control_block_
      let control_block_address := w.control_block_
      h1.deleteBlock control_block_address
    else
      h.WeakDecrement w.control_block_
  else pure h

/-- `WeakPtr::Reset`. -/
def WeakPtr.Reset (w : WeakPtr) (h : Heap) : Except Fault (Heap × WeakPtr) := do
  let h1 ←
    if w.toBool then do
      let uc ← w.UseCount h
      let wc ← h.GetWeakCount w.control_block_
      if uc == 0 && wc == 1 then do
        let h1 ← h.WeakDecrement w.control_block_
        h1.deleteBlock w.control_block_
      else
        h.WeakDecrement w.control_block_
    else pure h
  pure (h1, { stored_ptr_ := none, control_block_ := none })

/-- `WeakPtr::Swap`: the new states of `*this` and of `other`. -/
def WeakPtr.Swap (self other : WeakPtr) : WeakPtr × WeakPtr :=
  ({ stored_ptr_ := other.stored_ptr_, control_block_ := other.control_block_ },
   { stored_ptr_ := self.stored_ptr_, control_block_ := self.control_block_ })

/-- `WeakPtr::operator=(const WeakPtr& other)` for `this != &other`: a temporary copy
is swapped with `*this` and destroyed. Returns the new `*this`. -/
def WeakPtr.assign (h : Heap) (self other : WeakPtr) : Except Fault (Heap × WeakPtr) := do
  let (h1, tmp) ← WeakPtr.copy h other
  let (tmp1, self1) := tmp.Swap self
  let h2 ← tmp1.destroy h1
  pure (h2, self1)

/-- `WeakPtr::operator=(WeakPtr&& other)` for `this != &other`.
Returns the new `*this` and the new `other`. -/
def WeakPtr.moveAssign (h : Heap) (self other : WeakPtr) :
    Except Fault (Heap × WeakPtr × WeakPtr) := do
  let (tmp, other1) := WeakPtr.move other
  let (tmp1, self1) := tmp.Swap self
  let h1 ← tmp1.destroy h
  pure (h1, self1, other1)

/-- `weak = shared`: the converting constructor builds a temporary `WeakPtr`, which is
move-assigned and then destroyed. -/
def WeakPtr.assignShared (h : Heap) (self : WeakPtr) (other : SharedPtr) :
    Except Fault (Heap × WeakPtr) := do
  let (h1, tmp) ← WeakPtr.ofShared h other
  let (h2, self1, tmp1) ← WeakPtr.moveAssign h1 self tmp
  let h3 ← tmp1.destroy h2
  pure (h3, self1)

/-! ## Destruction of the managed object -/

/-- Virtual `ObjectDelete()`: `delete ptr_` for a `PointerControlBlock`, `Get()->~T()`
for an `ObjectControlBlock`.  Destroying the object destroys its member `weak_this_`. -/
def Heap.ObjectDelete (h : Heap) (cb : BlockPtr) : Except Fault Heap := do
  let b ← h.deref cb
  let h1 ← h.modify cb (fun b => { b with objectDeletes := b.objectDeletes + 1 })
  match b.ptr_ with
  | none => pure h1
  | some a =>
    match h1.objects[a]? with
    | none => pure h1
    | some o => o.weak_this_.destroy h1

/-! ## `SharedPtr` (shared.h) -/

/-- `SharedPtr()` and `SharedPtr(std::nullptr_t)`. -/
def SharedPtr.null : SharedPtr := { stored_ptr_ := none, control_block_ := none }

/-- `SharedPtr::Get`. -/
def SharedPtr.Get (s : SharedPtr) : Ptr := s.stored_ptr_

/-- `SharedPtr::operator bool`. -/
def SharedPtr.toBool (s : SharedPtr) : Bool := s.Get != none

/-- `SharedPtr::UseCount`. -/
def SharedPtr.UseCount (s : SharedPtr) (h : Heap) : Except Fault Nat :=
  if !s.toBool then pure 0
  else do
    let c ← h.GetCount s.control_block_
    pure (toSizeT c)

/-- `SharedPtr::WeakCount` (private). -/
def SharedPtr.WeakCount (s : SharedPtr) (h : Heap) : Except Fault Nat :=
  if !s.toBool then pure 0
  else do
    let c ← h.GetWeakCount s.control_block_
    pure (toSizeT c)

/-- `operator==(const SharedPtr<T>&, const SharedPtr<U>&)`. -/
def SharedPtr.eq (left right : SharedPtr) : Bool := left.Get == right.Get

/-- `SharedPtr::InitWeakThis(e)`: the statement `e->weak_this_ = WeakPtr<Z>(*this)`. -/
def SharedPtr.InitWeakThis (s : SharedPtr) (h : Heap) (e : Ptr) : Except Fault Heap :=
  match e with
  | none => .error .nullDeref
  | some a =>
    match h.objects[a]? with
    | none => .error .wildPointer
    | some o => do
      let (h1, tmp) ← WeakPtr.ofShared h s
      let (h2, wt, tmp1) ← WeakPtr.moveAssign h1 o.weak_this_ tmp
      let h3 ← tmp1.destroy h2
      pure { h3 with objects := h3.objects.set a { weak_this_ := wt } }

/-- `SharedPtr(T* ptr)` and `SharedPtr(Y* ptr)`; `esft` is the compile-time test
`std::is_convertible_v<T*, ESFTBase*>`. -/
def SharedPtr.ofPtr (esft : Bool) (h : Heap) (ptr : Ptr) :
    Except Fault (Heap × SharedPtr) :=
  let self : SharedPtr := { stored_ptr_ := ptr, control_block_ := some h.blocks.length }
  let h1 : Heap := { h with blocks := h.blocks ++ [PointerControlBlock ptr] }
  if esft then do
    let h2 ← self.InitWeakThis h1 ptr
    pure (h2, self)
  else pure (h1, self)

/-- `SharedPtr(const SharedPtr& other)` and `SharedPtr(const SharedPtr<Y>& other)`. -/
def SharedPtr.copy (h : Heap) (other : SharedPtr) : Except Fault (Heap × SharedPtr) :=
  let self : SharedPtr :=
    { stored_ptr_ := other.Get, control_block_ := other.control_block_ }
  if self.toBool then do
    let h1 ← h.increment self.control_block_
    pure (h1, self)
  else pure (h, self)

/-- `SharedPtr(SharedPtr&& other)`: the new handle and the state left in `other`. -/
def SharedPtr.move (other : SharedPtr) : SharedPtr × SharedPtr :=
  ({ stored_ptr_ := other.Get, control_block_ := other.control_block_ },
   { stored_ptr_ := none, control_block_ := none })

/-- Aliasing constructor `SharedPtr(const SharedPtr<Y>& other, T* ptr)`. -/
def SharedPtr.alias (h : Heap) (other : SharedPtr) (ptr : Ptr) :
    Except Fault (Heap × SharedPtr) :=
  let self : SharedPtr := { stored_ptr_ := ptr, control_block_ := other.control_block_ }
  if self.toBool then do
    let h1 ← h.increment self.control_block_
    pure (h1, self)
  else pure (h, self)

/-- Aliasing constructor `SharedPtr(SharedPtr<Y>&& other, T* ptr)`. -/
def SharedPtr.aliasMove (other : SharedPtr) (ptr : Ptr) : SharedPtr × SharedPtr :=
  ({ stored_ptr_ := ptr, control_block_ := other.control_block_ },
   { stored_ptr_ := none, control_block_ := none })

/-- Promotion `SharedPtr(const WeakPtr<T>& other)`; throws `BadWeakPtr`. -/
def SharedPtr.ofWeak (h : Heap) (other : WeakPtr) : Except Fault (Heap × SharedPtr) := do
  let self : SharedPtr :=
    { stored_ptr_ := other.stored_ptr_, control_block_ := other.control_block_ }
  let expired ← other.Expired h
  if expired then throw Fault.badWeakPtr
  if self.toBool then do
    let h1 ← h.increment self.control_block_
    pure (h1, self)
  else pure (h, self)

/-- `SharedPtr::~SharedPtr`. -/
def SharedPtr.destroy (s : SharedPtr) (h : Heap) : Except Fault Heap :=
  if s.toBool then do
    let uc ← s.UseCount h
    let wc ← s.WeakCount h
    if uc == 1 && wc == 0 then do
      let h1 ← h.ObjectDelete s.control_block_
      h1.deleteBlock s.control_block_
    else do
      let h1 ← h.decrement s.control_block_
      let uc1 ← s.UseCount h1
      if uc1 == 0 then h1.ObjectDelete s.control_block_
      else pure h1
  else pure h

/-- `SharedPtr::Swap`: the new states of `*this` and of `other`. -/
def SharedPtr.Swap (self other : SharedPtr) : SharedPtr × SharedPtr :=
  ({ stored_ptr_ := other.stored_ptr_, control_block_ := other.control_block_ },
   { stored_ptr_ := self.stored_ptr_, control_block_ := self.control_block_ })

/-- `SharedPtr::operator=(const SharedPtr& other)` for `this != &other`. -/
def SharedPtr.assign (h : Heap) (self other : SharedPtr) :
    Except Fault (Heap × SharedPtr) := do
  let (h1, tmp) ← SharedPtr.copy h other
  let (tmp1, self1) := tmp.Swap self
  let h2 ← tmp1.destroy h1
  pure (h2, self1)

/-- `SharedPtr::operator=(SharedPtr&& other)` for `this != &other`.
Returns the new `*this` and the new `other`. -/
def SharedPtr.moveAssign (h : Heap) (self other : SharedPtr) :
    Except Fault (Heap × SharedPtr × SharedPtr) := do
  let (tmp, other1) := SharedPtr.move other
  let (tmp1, self1) := tmp.Swap self
  let h1 ← tmp1.destroy h
  pure (h1, self1, other1)

/-- `SharedPtr::Reset()`. -/
def SharedPtr.Reset (s : SharedPtr) (h : Heap) : Except Fault (Heap × SharedPtr) := do
  let (tmp1, self1) := SharedPtr.null.Swap s
  let h1 ← tmp1.destroy h
  pure (h1, self1)

/-- `SharedPtr::Reset(T* ptr)` and `Reset(Y* ptr)`. -/
def SharedPtr.ResetPtr (esft : Bool) (s : SharedPtr) (h : Heap) (ptr : Ptr) :
    Except Fault (Heap × SharedPtr) := do
  let (h1, tmp) ← SharedPtr.ofPtr esft h ptr
  let (tmp1, self1) := tmp.Swap s
  let h2 ← tmp1.destroy h1
  pure (h2, self1)

/-- `MakeShared<T>(args...)`: one `ObjectControlBlock` holding the object in `buf_`. -/
def MakeShared (esft : Bool) (h : Heap) : Except Fault (Heap × SharedPtr) :=
  let buf := h.objects.length
  let h1 : Heap :=
    { blocks := h.blocks ++ [ObjectControlBlock buf],
      objects := h.objects ++ [{ weak_this_ := WeakPtr.null }] }
  let res : SharedPtr := { stored_ptr_ := some buf, control_block_ := some h.blocks.length }
  if esft then do
    let h2 ← res.InitWeakThis h1 res.stored_ptr_
    pure (h2, res)
  else pure (h1, res)

/-- `WeakPtr::Lock`. -/
def WeakPtr.Lock (w : WeakPtr) (h : Heap) : Except Fault (Heap × SharedPtr) := do
  let expired ← w.Expired h
  if expired then pure (h, SharedPtr.null)
  else SharedPtr.ofWeak h w

/-! ## `EnableSharedFromThis` -/

/-- The member `weak_this_` of the object at `this`. -/
def Heap.weak_this_ (h : Heap) (this : Ptr) : Except Fault WeakPtr :=
  match this with
  | none => .error .nullDeref
  | some a =>
    match h.objects[a]? with
    | none => .error .wildPointer
    | some o => .ok o.weak_this_

/-- `EnableSharedFromThis::SharedFromThis` (const and non-const). -/
def SharedFromThis (h : Heap) (this : Ptr) : Except Fault (Heap × SharedPtr) := do
  let wt ← h.weak_this_ this
  SharedPtr.ofWeak h wt

/-- `EnableSharedFromThis::WeakFromThis` (const and non-const). -/
def WeakFromThis (h : Heap) (this : Ptr) : Except Fault (Heap × WeakPtr) := do
  let wt ← h.weak_this_ this
  WeakPtr.copy h wt

/-! ## Programs over a family of handles

A world is a heap together with the handle variables of a program.  A variable slot
holds `some` handle while the variable is alive and `none` once it has been destroyed.
An operation that names a dead variable is not an operation of any program and is
skipped. -/

/-- The heap and the handle variables of a program. -/
structure World where
  heap : Heap
  shared : List (Option SharedPtr)
  weak : List (Option WeakPtr)
deriving DecidableEq, Repr

/-- The live `SharedPtr` in slot `i`. -/
def World.getShared (w : World) (i : Nat) : Option SharedPtr := (w.shared[i]?).join

/-- The live `WeakPtr` in slot `j`. -/
def World.getWeak (w : World) (j : Nat) : Option WeakPtr := (w.weak[j]?).join

/-- Operations of a program on its handle variables.  A constructor adds a new variable
at the end of the slot list.  The aliasing constructors take a non-null pointer
(address `r`) and are applied to non-empty handles only. -/
inductive Op where
  | sharedDefault
  | sharedCopy (i : Nat)
  | sharedMove (i : Nat)
  | sharedAlias (i r : Nat)
  | sharedAliasMove (i r : Nat)
  | sharedOfWeak (j : Nat)
  | sharedAssign (i k : Nat)
  | sharedMoveAssign (i k : Nat)
  | sharedReset (i : Nat)
  | sharedSwap (i k : Nat)
  | sharedDestroy (i : Nat)
  | weakDefault
  | weakOfShared (i : Nat)
  | weakCopy (j : Nat)
  | weakMove (j : Nat)
  | weakAssign (j k : Nat)
  | weakMoveAssign (j k : Nat)
  | weakAssignShared (j i : Nat)
  | weakReset (j : Nat)
  | weakSwap (j k : Nat)
  | weakDestroy (j : Nat)
  | weakLock (j : Nat)
deriving DecidableEq, Repr

/-- One operation of a program.  An operation on a dead variable, and an aliasing
constructor whose source handle is empty, is skipped.  `sharedOfWeak` is the throwing
promotion inside a `try` block: when `BadWeakPtr` is thrown no variable is created.
Assignment of a variable to itself returns at once (`this == &other`). -/
def step (w : World) : Op → Except Fault World
  | .sharedDefault => pure { w with shared := w.shared ++ [some SharedPtr.null] }
  | .sharedCopy i =>
    match w.getShared i with
    | none => pure w
    | some s => do
      let (h, x) ← SharedPtr.copy w.heap s
      pure { w with heap := h, shared := w.shared ++ [some x] }
  | .sharedMove i =>
    match w.getShared i with
    | none => pure w
    | some s =>
      let (x, s1) := SharedPtr.move s
      pure { w with shared := w.shared.set i (some s1) ++ [some x] }
  | .sharedAlias i r =>
    match w.getShared i with
    | none => pure w
    | some s =>
      if s.toBool then do
        let (h, x) ← SharedPtr.alias w.heap s (some r)
        pure { w with heap := h, shared := w.shared ++ [some x] }
      else pure w
  | .sharedAliasMove i r =>
    match w.getShared i with
    | none => pure w
    | some s =>
      if s.toBool then
        let (x, s1) := SharedPtr.aliasMove s (some r)
        pure { w with shared := w.shared.set i (some s1) ++ [some x] }
      else pure w
  | .sharedOfWeak j =>
    match w.getWeak j with
    | none => pure w
    | some wk =>
      match SharedPtr.ofWeak w.heap wk with
      | .ok (h, x) => pure { w with heap := h, shared := w.shared ++ [some x] }
      | .error .badWeakPtr => pure w
      | .error f => .error f
  | .sharedAssign i k =>
    if i = k then pure w
    else
      match w.getShared i, w.getShared k with
      | some s, some o => do
        let (h, s1) ← SharedPtr.assign w.heap s o
        pure { w with heap := h, shared := w.shared.set i (some s1) }
      | _, _ => pure w
  | .sharedMoveAssign i k =>
    if i = k then pure w
    else
      match w.getShared i, w.getShared k with
      | some s, some o => do
        let (h, s1, o1) ← SharedPtr.moveAssign w.heap s o
        pure { w with heap := h, shared := (w.shared.set i (some s1)).set k (some o1) }
      | _, _ => pure w
  | .sharedReset i =>
    match w.getShared i with
    | none => pure w
    | some s => do
      let (h, s1) ← s.Reset w.heap
      pure { w with heap := h, shared := w.shared.set i (some s1) }
  | .sharedSwap i k =>
    match w.getShared i, w.getShared k with
    | some s, some o =>
      let (s1, o1) := s.Swap o
      pure { w with shared := (w.shared.set i (some s1)).set k (some o1) }
    | _, _ => pure w
  | .sharedDestroy i =>
    match w.getShared i with
    | none => pure w
    | some s => do
      let h ← s.destroy w.heap
      pure { w with heap := h, shared := w.shared.set i none }
  | .weakDefault => pure { w with weak := w.weak ++ [some WeakPtr.null] }
  | .weakOfShared i =>
    match w.getShared i with
    | none => pure w
    | some s => do
      let (h, x) ← WeakPtr.ofShared w.heap s
      pure { w with heap := h, weak := w.weak ++ [some x] }
  | .weakCopy j =>
    match w.getWeak j with
    | none => pure w
    | some wk => do
      let (h, x) ← WeakPtr.copy w.heap wk
      pure { w with heap := h, weak := w.weak ++ [some x] }
  | .weakMove j =>
    match w.getWeak j with
    | none => pure w
    | some wk =>
      let (x, wk1) := WeakPtr.move wk
      pure { w with weak := w.weak.set j (some wk1) ++ [some x] }
  | .weakAssign j k =>
    if j = k then pure w
    else
      match w.getWeak j, w.getWeak k with
      | some wk, some o => do
        let (h, wk1) ← WeakPtr.assign w.heap wk o
        pure { w with heap := h, weak := w.weak.set j (some wk1) }
      | _, _ => pure w
  | .weakMoveAssign j k =>
    if j = k then pure w
    else
      match w.getWeak j, w.getWeak k with
      | some wk, some o => do
        let (h, wk1, o1) ← WeakPtr.moveAssign w.heap wk o
        pure { w with heap := h, weak := (w.weak.set j (some wk1)).set k (some o1) }
      | _, _ => pure w
  | .weakAssignShared j i =>
    match w.getWeak j, w.getShared i with
    | some wk, some s => do
      let (h, wk1) ← WeakPtr.assignShared w.heap wk s
      pure { w with heap := h, weak := w.weak.set j (some wk1) }
    | _, _ => pure w
  | .weakReset j =>
    match w.getWeak j with
    | none => pure w
    | some wk => do
      let (h, wk1) ← wk.Reset w.heap
      pure { w with heap := h, weak := w.weak.set j (some wk1) }
  | .weakSwap j k =>
    match w.getWeak j, w.getWeak k with
    | some wk, some o =>
      let (wk1, o1) := wk.Swap o
      pure { w with weak := (w.weak.set j (some wk1)).set k (some o1) }
    | _, _ => pure w
  | .weakDestroy j =>
    match w.getWeak j with
    | none => pure w
    | some wk => do
      let h ← wk.destroy w.heap
      pure { w with heap := h, weak := w.weak.set j none }
  | .weakLock j =>
    match w.getWeak j with
    | none => pure w
    | some wk => do
      let (h, x) ← wk.Lock w.heap
      pure { w with heap := h, shared := w.shared ++ [some x] }

/-- Run a program: the operations in order, stopping at the first fault. -/
def run (w : World) : List Op → Except Fault World
  | [] => pure w
  | op :: ops => do
    let w1 ← step w op
    run w1 ops

/-- A heap of `n` freshly allocated objects (results of `new T`), none of them wrapped
by a handle yet, and no control block. -/
def Heap.fresh (n : Nat) : Heap :=
  { blocks := [], objects := List.replicate n { weak_this_ := WeakPtr.null } }

/-- The program state after `SharedPtr<T> s(ptr)` with `ptr` the object at address `a`. -/
def World.ofPtr (esft : Bool) (n a : Nat) : Except Fault World := do
  let (h, s) ← SharedPtr.ofPtr esft (Heap.fresh n) (some a)
  pure { heap := h, shared := [some s], weak := [] }

/-- The program state after `SharedPtr<T> s = MakeShared<T>()`. -/
def World.ofMakeShared (esft : Bool) (n : Nat) : Except Fault World := do
  let (h, s) ← MakeShared esft (Heap.fresh n)
  pure { heap := h, shared := [some s], weak := [] }

/-! ## Invariant of a family of handles that share one control block

The block of the family is the first block of the heap (index `0`). -/

/-- A `SharedPtr` variable holds a reference to block `b`. -/
def SharedPtr.refs (b : Nat) (s : SharedPtr) : Nat :=
  if s.control_block_ = some b then 1 else 0

/-- A `WeakPtr` variable holds a reference to block `b`. -/
def WeakPtr.refs (b : Nat) (x : WeakPtr) : Nat :=
  if x.control_block_ = some b then 1 else 0

/-- Value of `f` at a variable slot; a dead variable counts for nothing. -/
def slotVal {α : Type} (f : α → Nat) : Option α → Nat
  | none => 0
  | some x => f x

/-- Sum of `f` over the live slots of a list of variable slots. -/
def slotSum {α : Type} (f : α → Nat) : List (Option α) → Nat
  | [] => 0
  | x :: l => slotVal f x + slotSum f l

/-- Number of live `SharedPtr` variables that reference block `b`. -/
def strongRefs (b : Nat) (l : List (Option SharedPtr)) : Nat := slotSum (SharedPtr.refs b) l

/-- Number of live `WeakPtr` variables that reference block `b`. -/
def weakRefs (b : Nat) (l : List (Option WeakPtr)) : Nat := slotSum (WeakPtr.refs b) l

/-- A handle of the family: empty, or a non-null pointer together with block `0`. -/
def SharedPtr.inFamily (s : SharedPtr) : Prop :=
  s = SharedPtr.null ∨ (s.stored_ptr_ ≠ none ∧ s.control_block_ = some 0)

/-- A weak handle of the family: null, or a non-null pointer together with block `0`. -/
def WeakPtr.inFamily (x : WeakPtr) : Prop :=
  x = WeakPtr.null ∨ (x.stored_ptr_ ≠ none ∧ x.control_block_ = some 0)

/-- The back-reference `weak_this_` of the managed object at address `a`: bound to the
family's block, or never bound. -/
def selfWeak (a : Nat) (bound : Bool) : WeakPtr :=
  if bound then { stored_ptr_ := some a, control_block_ := some 0 } else WeakPtr.null

/-- The control block agrees with `S` live strong and `W` live weak handle variables.
The object has been destroyed once when `S = 0` and not at all otherwise
(`objectDeletes + min S 1 = 1`).  The back-reference of the managed object is one more
weak reference for as long as the object is alive. -/
structure Good (objs : List Object) (a : Nat) (bound : Bool) (S W : Nat)
    (blk : ControlBlock) : Prop where
  obj : objs[a]? = some { weak_this_ := selfWeak a bound }
  ptr : blk.ptr_ = some a
  deletes : blk.objectDeletes + min S 1 = 1
  freed : blk.freed = true ↔ S = 0 ∧ W = 0
  strong : blk.freed = false → blk.counter_ = S
  weak : blk.freed = false →
    blk.weak_counter_ = W + (if bound then min S 1 else 0 : Nat)

/-- The block `b1` is a later state of the block `b`: destructions of the object are
never forgotten, a freed block stays freed, and the kind of the block (object held in
place or behind a pointer) does not change. -/
structure Later (b b1 : ControlBlock) : Prop where
  deletes : b.objectDeletes ≤ b1.objectDeletes
  freed : b.freed = true → b1.freed = true
  inPlace : b1.inPlace = b.inPlace

/-- The invariant of a program state whose handles form one family. -/
structure Inv (objs : List Object) (a : Nat) (bound : Bool) (w : World) : Prop where
  heap : ∃ blk, w.heap = { blocks := [blk], objects := objs } ∧
    Good objs a bound (strongRefs 0 w.shared) (weakRefs 0 w.weak) blk
  sfam : ∀ s, some s ∈ w.shared → s.inFamily
  wfam : ∀ x, some x ∈ w.weak → x.inFamily

/-- The blocks of two program states, the second a later state of the first. -/
def World.Later (w w1 : World) : Prop :=
  ∀ b b1, w.heap.blocks = [b] → w1.heap.blocks = [b1] → SmartPointers.Later b b1

/-- How the first handle of a family comes into being: `SharedPtr<T> s(ptr)` with `ptr`
one of `n` allocated objects, or `MakeShared<T>()`; `esft` tells whether `T` derives
from `EnableSharedFromThis`. -/
inductive Origin where
  | ofPtr (esft : Bool) (n : Nat) (a : Fin n)
  | makeShared (esft : Bool) (n : Nat)
deriving DecidableEq, Repr

/-- The program state right after the first handle has been created. -/
def Origin.world : Origin → Except Fault World
  | .ofPtr esft n a => World.ofPtr esft n a
  | .makeShared esft n => World.ofMakeShared esft n

/-- The compile-time test `std::is_convertible_v<T*, ESFTBase*>` of the first handle. -/
def Origin.esft : Origin → Bool
  | .ofPtr esft _ _ => esft
  | .makeShared esft _ => esft

/-- The address of the object managed by the family. -/
def Origin.addr : Origin → Nat
  | .ofPtr _ _ a => a
  | .makeShared _ n => n

/-- The state reached by a program: the first handle is created, then the operations
run in order. -/
def program (o : Origin) (ops : List Op) : Except Fault World := do
  let w0 ← o.world
  run w0 ops

/-! ## Programs with several families of handles -/

/-- Statements of a program that creates any number of owners: `SharedPtr<T> s(new T)`,
`auto s = MakeShared<T>()`, `s.Reset(new T)`, and the operations on the variables. -/
inductive Stmt where
  | wrapNew (esft : Bool)
  | makeShared (esft : Bool)
  | resetNew (esft : Bool) (i : Nat)
  | op (o : Op)
deriving DecidableEq, Repr

/-- The statement uses one of the two aliasing constructors. -/
def Stmt.aliasing : Stmt → Bool
  | .op (.sharedAlias _ _) => true
  | .op (.sharedAliasMove _ _) => true
  | _ => false

/-- One statement.  `new T` adds an object with an unbound `weak_this_` at the end of
the heap. -/
def exec (w : World) : Stmt → Except Fault World
  | .wrapNew esft => do
    let ptr := w.heap.objects.length
    let h0 : Heap := { w.heap with objects := w.heap.objects ++ [{ weak_this_ := WeakPtr.null }] }
    let (h, s) ← SharedPtr.ofPtr esft h0 (some ptr)
    pure { w with heap := h, shared := w.shared ++ [some s] }
  | .makeShared esft => do
    let (h, s) ← MakeShared esft w.heap
    pure { w with heap := h, shared := w.shared ++ [some s] }
  | .resetNew esft i =>
    match w.getShared i with
    | none => pure w
    | some s => do
      let ptr := w.heap.objects.length
      let h0 : Heap :=
        { w.heap with objects := w.heap.objects ++ [{ weak_this_ := WeakPtr.null }] }
      let (h, s1) ← SharedPtr.ResetPtr esft s h0 (some ptr)
      pure { w with heap := h, shared := w.shared.set i (some s1) }
  | .op o => step w o

/-- Run a list of statements, stopping at the first fault. -/
def execAll (w : World) : List Stmt → Except Fault World
  | [] => pure w
  | st :: sts => do
    let w1 ← exec w st
    execAll w1 sts

/-- The state of a program before its first statement. -/
def World.empty : World := { heap := { blocks := [], objects := [] }, shared := [], weak := [] }

/-- The pointer managed by block `b`, when there is such a block. -/
def Heap.ptrOf (h : Heap) (b : Nat) : Option Ptr := (h.blocks[b]?).map (fun blk => blk.ptr_)

/-- A handle that stores a non-null pointer references a block that manages this
pointer. -/
def Heap.manages (h : Heap) (p : Ptr) (cb : BlockPtr) : Prop :=
  ∀ a, p = some a → ∃ b, cb = some b ∧ h.ptrOf b = some (some a)

/-- The heap `h1` has the blocks of `h` with the same managed pointers, and as many
objects. -/
def Heap.Same (h h1 : Heap) : Prop :=
  (∀ b, h1.ptrOf b = h.ptrOf b) ∧ h1.objects.length = h.objects.length

/-- The heap `h1` is the heap `h` with one more block, which manages the new object
`a`. -/
def Heap.Grown (h h1 : Heap) (a : Nat) : Prop :=
  (∀ b, h1.ptrOf b = if b = h.blocks.length then some (some a) else h.ptrOf b) ∧
  h.objects.length ≤ a ∧ a < h1.objects.length

/-- In a program without aliasing constructors every handle references the block that
manages the pointer it stores, and no two blocks manage the same object. -/
structure Tidy (w : World) : Prop where
  shared : ∀ s, some s ∈ w.shared → w.heap.manages s.stored_ptr_ s.control_block_
  weak : ∀ x, some x ∈ w.weak → w.heap.manages x.stored_ptr_ x.control_block_
  inj : ∀ b1 b2 a, w.heap.ptrOf b1 = some (some a) → w.heap.ptrOf b2 = some (some a) → b1 = b2
  bound : ∀ b a, w.heap.ptrOf b = some (some a) → a < w.heap.objects.length

/-- Number of `new` expressions that produced the control blocks and the objects of the
heap: one for every control block and one for every object that does not live in the
buffer `buf_` of an `ObjectControlBlock`. -/
def Heap.allocations (h : Heap) : Nat :=
  h.blocks.length + (h.objects.length - h.blocks.countP (fun b => b.inPlace))

/-- Number of deallocations recorded in a control block: `delete control_block_` frees
the block, and `ObjectDelete` of a `PointerControlBlock` is `delete ptr_`, which frees
the object when `ptr_` is not null; `ObjectDelete` of an `ObjectControlBlock` only runs
the destructor of the object in `buf_`. -/
def ControlBlock.deallocations (b : ControlBlock) : Nat :=
  (if b.freed then 1 else 0) +
    (if b.inPlace then 0 else if b.ptr_ = none then 0 else b.objectDeletes)

/-- Number of deallocations performed so far. -/
def Heap.deallocations (h : Heap) : Nat := (h.blocks.map ControlBlock.deallocations).sum

/-- An example state: `T* ptr = new T; SharedPtr<T> s(ptr); WeakPtr<T> w(s);` for a type
`T` that derives from `EnableSharedFromThis`. -/
def exampleWorld : World :=
  { heap :=
      { blocks := [{ counter_ := 1, weak_counter_ := 2, ptr_ := some 0, inPlace := false,
                     objectDeletes := 0, freed := false }],
        objects := [{ weak_this_ := { stored_ptr_ := some 0, control_block_ := some 0 } }] },
    shared := [some { stored_ptr_ := some 0, control_block_ := some 0 }],
    weak := [some { stored_ptr_ := some 0, control_block_ := some 0 }] }

/-- An example state: `T* ptr = new T; SharedPtr<T> s(ptr); SharedPtr<T> t;` for a type
`T` that does not derive from `EnableSharedFromThis`. -/
def exampleWorldTwo : World :=
  { heap :=
      { blocks := [{ counter_ := 1, weak_counter_ := 0, ptr_ := some 0, inPlace := false,
                     objectDeletes := 0, freed := false }],
        objects := [{ weak_this_ := { stored_ptr_ := none, control_block_ := none } }] },
    shared := [some { stored_ptr_ := some 0, control_block_ := some 0 },
               some { stored_ptr_ := none, control_block_ := none }],
    weak := [] }

/-- An example state: `T* p = new T; T* q = new T; SharedPtr<T> s(p);` for a type `T`
that derives from `EnableSharedFromThis`. -/
def exampleWorldEsft : World :=
  { heap :=
      { blocks := [{ counter_ := 1, weak_counter_ := 1, ptr_ := some 0, inPlace := false,
                     objectDeletes := 0, freed := false }],
        objects := [{ weak_this_ := { stored_ptr_ := some 0, control_block_ := some 0 } },
                    { weak_this_ := { stored_ptr_ := none, control_block_ := none } }] },
    shared := [some { stored_ptr_ := some 0, control_block_ := some 0 }],
    weak := [] }

/-- An example state with two owners: `SharedPtr<T> s(new T); SharedPtr<T> t(new T);
SharedPtr<T> u(s);`. -/
def exampleWorldOwners : World :=
  { heap :=
      { blocks := [{ counter_ := 2, weak_counter_ := 0, ptr_ := some 0, inPlace := false,
                     objectDeletes := 0, freed := false },
                   { counter_ := 1, weak_counter_ := 0, ptr_ := some 1, inPlace := false,
                     objectDeletes := 0, freed := false }],
        objects := [{ weak_this_ := { stored_ptr_ := none, control_block_ := none } },
                    { weak_this_ := { stored_ptr_ := none, control_block_ := none } }] },
    shared := [some { stored_ptr_ := some 0, control_block_ := some 0 },
               some { stored_ptr_ := some 1, control_block_ := some 1 },
               some { stored_ptr_ := some 0, control_block_ := some 0 }],
    weak := [] }

/-! ## `CompressedPair` (compressed_pair.h)

A member function that returns a mutable reference (`F& GetFirst()`) is a getter
together with the write through the reference (`setFirst`). A base class subobject is
a field of the structure. -/

/-- Primary template `CompressedPair<F, S, false, false>`: two fields. -/
structure CompressedPair (F S : Type) where
  first_ : F
  second_ : S
deriving DecidableEq, Repr

/-- The constructor `CompressedPair(FF&& first, SS&& second)` of the primary template. -/
def CompressedPair.ctor {F S : Type} (first : F) (second : S) : CompressedPair F S :=
  { first_ := first, second_ := second }

/-- `GetFirst()` of the primary template. -/
def CompressedPair.GetFirst {F S : Type} (p : CompressedPair F S) : F := p.first_

/-- `GetSecond()` of the primary template. -/
def CompressedPair.GetSecond {F S : Type} (p : CompressedPair F S) : S := p.second_

/-- The write `p.GetFirst() = v` of the primary template. -/
def CompressedPair.setFirst {F S : Type} (p : CompressedPair F S) (v : F) :
    CompressedPair F S := { p with first_ := v }

/-- The write `p.GetSecond() = v` of the primary template. -/
def CompressedPair.setSecond {F S : Type} (p : CompressedPair F S) (v : S) :
    CompressedPair F S := { p with second_ := v }

/-- Specialization `CompressedPair<F, S, true, false> : S`: the second element is a base
class, the first a field. -/
structure CompressedPairTF (F S : Type) where
  base_S : S
  first_ : F
deriving DecidableEq, Repr

/-- The constructor of `CompressedPair<F, S, true, false>`. -/
def CompressedPairTF.ctor {F S : Type} (first : F) (second : S) : CompressedPairTF F S :=
  { base_S := second, first_ := first }

/-- `GetFirst()` of `CompressedPair<F, S, true, false>`. -/
def CompressedPairTF.GetFirst {F S : Type} (p : CompressedPairTF F S) : F := p.first_

/-- `GetSecond()` of `CompressedPair<F, S, true, false>`: `*static_cast<S*>(this)`. -/
def CompressedPairTF.GetSecond {F S : Type} (p : CompressedPairTF F S) : S := p.base_S

/-- The write `p.GetFirst() = v` of `CompressedPair<F, S, true, false>`. -/
def CompressedPairTF.setFirst {F S : Type} (p : CompressedPairTF F S) (v : F) :
    CompressedPairTF F S := { p with first_ := v }

/-- The write `p.GetSecond() = v` of `CompressedPair<F, S, true, false>`. -/
def CompressedPairTF.setSecond {F S : Type} (p : CompressedPairTF F S) (v : S) :
    CompressedPairTF F S := { p with base_S := v }

/-- Specialization `CompressedPair<F, S, true, true> : F, S`: both elements are base
classes. -/
structure CompressedPairTT (F S : Type) where
  base_F : F
  base_S : S
deriving DecidableEq, Repr

/-- The constructor of `CompressedPair<F, S, true, true>`. -/
def CompressedPairTT.ctor {F S : Type} (first : F) (second : S) : CompressedPairTT F S :=
  { base_F := first, base_S := second }

/-- `GetFirst()` of `CompressedPair<F, S, true, true>`: `*static_cast<F*>(this)`. -/
def CompressedPairTT.GetFirst {F S : Type} (p : CompressedPairTT F S) : F := p.base_F

/-- `GetSecond()` of `CompressedPair<F, S, true, true>`: `*static_cast<S*>(this)`. -/
def CompressedPairTT.GetSecond {F S : Type} (p : CompressedPairTT F S) : S := p.base_S

/-- The write `p.GetFirst() = v` of `CompressedPair<F, S, true, true>`. -/
def CompressedPairTT.setFirst {F S : Type} (p : CompressedPairTT F S) (v : F) :
    CompressedPairTT F S := { p with base_F := v }

/-- The write `p.GetSecond() = v` of `CompressedPair<F, S, true, true>`. -/
def CompressedPairTT.setSecond {F S : Type} (p : CompressedPairTT F S) (v : S) :
    CompressedPairTT F S := { p with base_S := v }

/-- Specialization `CompressedPair<F, S, false, true> : F`: the first element is a base
class, the second a field. -/
structure CompressedPairFT (F S : Type) where
  base_F : F
  second_ : S
deriving DecidableEq, Repr

/-- The constructor of `CompressedPair<F, S, false, true>`. -/
def CompressedPairFT.ctor {F S : Type} (first : F) (second : S) : CompressedPairFT F S :=
  { base_F := first, second_ := second }

/-- `GetFirst()` of `CompressedPair<F, S, false, true>`: `*static_cast<F*>(this)`. -/
def CompressedPairFT.GetFirst {F S : Type} (p : CompressedPairFT F S) : F := p.base_F

/-- `GetSecond()` of `CompressedPair<F, S, false, true>`. -/
def CompressedPairFT.GetSecond {F S : Type} (p : CompressedPairFT F S) : S := p.second_

/-- The write `p.GetFirst() = v` of `CompressedPair<F, S, false, true>`. -/
def CompressedPairFT.setFirst {F S : Type} (p : CompressedPairFT F S) (v : F) :
    CompressedPairFT F S := { p with base_F := v }

/-- The write `p.GetSecond() = v` of `CompressedPair<F, S, false, true>`. -/
def CompressedPairFT.setSecond {F S : Type} (p : CompressedPairFT F S) (v : S) :
    CompressedPairFT F S := { p with second_ := v }

/-- A plain two-element pair, as the specification describes `PairStorage`: one value of
each type, read and written independently. -/
structure PlainPair (F S : Type) where
  fst : F
  snd : S
deriving DecidableEq, Repr

/-- The plain pair that a primary-template `CompressedPair` stands for. -/
def CompressedPair.toPlain {F S : Type} (p : CompressedPair F S) : PlainPair F S :=
  { fst := p.GetFirst, snd := p.GetSecond }

/-- The plain pair that a `CompressedPair<F, S, true, false>` stands for. -/
def CompressedPairTF.toPlain {F S : Type} (p : CompressedPairTF F S) : PlainPair F S :=
  { fst := p.GetFirst, snd := p.GetSecond }

/-- The plain pair that a `CompressedPair<F, S, true, true>` stands for. -/
def CompressedPairTT.toPlain {F S : Type} (p : CompressedPairTT F S) : PlainPair F S :=
  { fst := p.GetFirst, snd := p.GetSecond }

/-- The plain pair that a `CompressedPair<F, S, false, true>` stands for. -/
def CompressedPairFT.toPlain {F S : Type} (p : CompressedPairFT F S) : PlainPair F S :=
  { fst := p.GetFirst, snd := p.GetSecond }

/-! ## Deleters (unique.h, test_unique.cpp) -/

/-- The operations of a deleter type that `UniquePtr` uses: the default constructor, the
move constructor (the new object and the state left in the source), move assignment
(the new state of the target and the state left in the source), and `operator()` (the
state of the deleter after it has been invoked on a pointer). -/
structure DeleterClass (D : Type) where
  default : D
  moveConstruct : D → D × D
  moveAssign : D → D → D × D
  call : D → Nat → D

/-- `DefaultDeleter<T>`: an empty class. -/
structure DefaultDeleter where
deriving DecidableEq, Repr

/-- The operations of `DefaultDeleter<T>`; `operator()` is `delete ptr`. -/
def DefaultDeleter.ops : DeleterClass DefaultDeleter :=
  { default := {},
    moveConstruct := fun rhs => ({}, rhs),
    moveAssign := fun lhs rhs => (lhs, rhs),
    call := fun d _ => d }

/-- The class `Deleter<T>` of the tests. -/
structure Deleter where
  tag_ : Int
  was_called_ : Bool
deriving DecidableEq, Repr

/-- `Deleter()`. -/
def Deleter.default : Deleter := { tag_ := 0, was_called_ := false }

/-- `Deleter(int tag)`. -/
def Deleter.ofTag (tag : Int) : Deleter := { tag_ := tag, was_called_ := false }

/-- `Deleter(Deleter&& rhs)`: the new deleter and the state left in `rhs`. -/
def Deleter.moveConstruct (rhs : Deleter) : Deleter × Deleter :=
  ({ tag_ := rhs.tag_, was_called_ := false }, { rhs with tag_ := 0 })

/-- `Deleter::operator=(Deleter&& r)`: the new `*this` and the state left in `r`. -/
def Deleter.moveAssign (lhs r : Deleter) : Deleter × Deleter :=
  ({ lhs with tag_ := r.tag_ }, { r with tag_ := 0 })

/-- `Deleter::GetTag`. -/
def Deleter.GetTag (d : Deleter) : Int := d.tag_

/-- `Deleter::WasCalled`. -/
def Deleter.WasCalled (d : Deleter) : Bool := d.was_called_

/-- `Deleter::operator()`: `delete p; was_called_ = true`. -/
def Deleter.call (d : Deleter) (_p : Nat) : Deleter := { d with was_called_ := true }

/-- The operations of the class `Deleter<T>` of the tests. -/
def Deleter.ops : DeleterClass Deleter :=
  { default := Deleter.default,
    moveConstruct := Deleter.moveConstruct,
    moveAssign := Deleter.moveAssign,
    call := Deleter.call }

/-! ## `UniquePtr` (unique.h)

The three variants of `UniquePtr` (single object, array, `void`) have the same
constructors, assignments, destructor and modifiers.  Every invocation of the deleter
is recorded in a log. -/

/-- One invocation `GetDeleter()(ptr)`: the pointer passed to the deleter and the value
of `Get()` of the handle at the time of the call. -/
structure DeleterCall where
  ptr : Nat
  held : Ptr
deriving DecidableEq, Repr

/-- The handle `UniquePtr<T, Deleter>`. -/
structure UniquePtr (D : Type) where
  data_ : CompressedPair Ptr D

/-- `UniquePtr(T* ptr = nullptr)`. -/
def UniquePtr.ofPtr {D : Type} (C : DeleterClass D) (ptr : Ptr) : UniquePtr D :=
  { data_ := CompressedPair.ctor ptr C.default }

/-- `UniquePtr(T* ptr, Deleter deleter)`: the handle and the state left in the argument. -/
def UniquePtr.ofPtrDeleter {D : Type} (C : DeleterClass D) (ptr : Ptr) (deleter : D) :
    UniquePtr D × D :=
  let (d, rest) := C.moveConstruct deleter
  ({ data_ := CompressedPair.ctor ptr d }, rest)

/-- `UniquePtr::Get`. -/
def UniquePtr.Get {D : Type} (u : UniquePtr D) : Ptr := u.data_.GetFirst

/-- `UniquePtr::GetDeleter`. -/
def UniquePtr.GetDeleter {D : Type} (u : UniquePtr D) : D := u.data_.GetSecond

/-- `UniquePtr::operator bool`. -/
def UniquePtr.toBool {D : Type} (u : UniquePtr D) : Bool := u.Get != none

/-- `UniquePtr::Release`: the returned pointer and the new state of the handle. -/
def UniquePtr.Release {D : Type} (u : UniquePtr D) : Ptr × UniquePtr D :=
  let res := u.Get
  (res, { data_ := u.data_.setFirst none })

/-- The invocation `GetDeleter()(p)` on the handle `u`: the state of the deleter and
the log after the call. -/
def UniquePtr.invoke {D : Type} (C : DeleterClass D) (u : UniquePtr D) (p : Nat)
    (log : List DeleterCall) : UniquePtr D × List DeleterCall :=
  ({ data_ := u.data_.setSecond (C.call u.GetDeleter p) },
   log ++ [{ ptr := p, held := u.Get }])

/-- `UniquePtr::Reset(T* ptr = nullptr)`. -/
def UniquePtr.Reset {D : Type} (C : DeleterClass D) (u : UniquePtr D) (ptr : Ptr)
    (log : List DeleterCall) : UniquePtr D × List DeleterCall :=
  let old_ptr := u.Get
  let u1 : UniquePtr D := { data_ := u.data_.setFirst ptr }
  match old_ptr with
  | some p => u1.invoke C p log
  | none => (u1, log)

/-- `UniquePtr::~UniquePtr`: `if (Get()) GetDeleter()(Release())`.  Returns the state of
the members when the body of the destructor has run, and the log. -/
def UniquePtr.destroy {D : Type} (C : DeleterClass D) (u : UniquePtr D)
    (log : List DeleterCall) : UniquePtr D × List DeleterCall :=
  if u.toBool then
    let (res, u1) := u.Release
    match res with
    | some p => u1.invoke C p log
    | none => (u1, log)
  else (u, log)

/-- `UniquePtr::operator=(std::nullptr_t)`. -/
def UniquePtr.assignNull {D : Type} (C : DeleterClass D) (u : UniquePtr D)
    (log : List DeleterCall) : UniquePtr D × List DeleterCall :=
  if u.toBool then
    let (res, u1) := u.Release
    match res with
    | some p => u1.invoke C p log
    | none => (u1, log)
  else (u, log)

/-- `UniquePtr(UniquePtr&& other)`: the new handle and the state left in `other`. -/
def UniquePtr.move {D : Type} (C : DeleterClass D) (other : UniquePtr D) :
    UniquePtr D × UniquePtr D :=
  let (p, other1) := other.Release
  let (d, rest) := C.moveConstruct other1.GetDeleter
  ({ data_ := CompressedPair.ctor p d }, { data_ := other1.data_.setSecond rest })

/-- The converting constructor `UniquePtr(UniquePtr<TT, DD>&& other)`: the new handle
and the state left in `other`. -/
def UniquePtr.moveConvert {D DD : Type} (C : DeleterClass D) (other : UniquePtr DD) :
    UniquePtr D × UniquePtr DD :=
  let (p, other1) := other.Release
  ({ data_ := CompressedPair.ctor p C.default }, other1)

/-- `UniquePtr::operator=(UniquePtr&& other)` for `this != &other`: the new `*this`, the
state left in `other`, and the log. -/
def UniquePtr.moveAssign {D : Type} (C : DeleterClass D) (self other : UniquePtr D)
    (log : List DeleterCall) : UniquePtr D × UniquePtr D × List DeleterCall :=
  let (p, other1) := other.Release
  let (self1, log1) := self.Reset C p log
  let (d, rest) := C.moveAssign self1.GetDeleter other1.GetDeleter
  let self2 : UniquePtr D := { data_ := self1.data_.setSecond d }
  let (d1, _) := C.moveAssign rest C.default
  let other2 : UniquePtr D := { data_ := other1.data_.setSecond d1 }
  (self2, other2, log1)

/-- The `UniquePtr` variables of a program and the log of deleter invocations. -/
structure UniqueVars (D : Type) where
  vars : List (UniquePtr D)
  log : List DeleterCall

/-- The statement `vars[i] = std::move(vars[k])`; `i = k` is the case `this == &other`. -/
def UniqueVars.moveAssign {D : Type} (C : DeleterClass D) (w : UniqueVars D) (i k : Nat) :
    UniqueVars D :=
  if i = k then w
  else
    match w.vars[i]?, w.vars[k]? with
    | some a, some b =>
      let (a1, b1, log1) := UniquePtr.moveAssign C a b w.log
      { vars := (w.vars.set i a1).set k b1, log := log1 }
    | _, _ => w

/-- The declaration `UniquePtr<T, Deleter> x(std::move(vars[k]))`: the new variable is
added at the end. -/
def UniqueVars.moveConstruct {D : Type} (C : DeleterClass D) (w : UniqueVars D) (k : Nat) :
    UniqueVars D :=
  match w.vars[k]? with
  | some b =>
    let (x, b1) := UniquePtr.move C b
    { vars := w.vars.set k b1 ++ [x], log := w.log }
  | none => w

/-- Operations on one `UniquePtr` variable. -/
inductive UniqueOp where
  | reset (ptr : Ptr)
  | assignNull
  | release
deriving DecidableEq, Repr

/-- One operation on a `UniquePtr` variable. -/
def UniquePtr.step {D : Type} (C : DeleterClass D) (u : UniquePtr D)
    (log : List DeleterCall) : UniqueOp → UniquePtr D × List DeleterCall
  | .reset ptr => u.Reset C ptr log
  | .assignNull => u.assignNull C log
  | .release => (u.Release.2, log)

/-- A sequence of operations on a `UniquePtr` variable, followed by its destruction.
Returns the log. -/
def UniquePtr.runThenDestroy {D : Type} (C : DeleterClass D) (u : UniquePtr D)
    (log : List DeleterCall) : List UniqueOp → List DeleterCall
  | [] => (u.destroy C log).2
  | op :: ops =>
    let (u1, log1) := u.step C log op
    u1.runThenDestroy C log1 ops

/-- An example handle: `UniquePtr<T, Deleter<T>> a(p1, Deleter<T>(5))`, `p1` at address 1. -/
def exampleUniqueA : UniquePtr Deleter :=
  { data_ := CompressedPair.ctor (some 1) (Deleter.ofTag 5) }

/-- An example handle: `UniquePtr<T, Deleter<T>> b(p2, Deleter<T>(7))`, `p2` at address 2. -/
def exampleUniqueB : UniquePtr Deleter :=
  { data_ := CompressedPair.ctor (some 2) (Deleter.ofTag 7) }

/-! ## Layout selection of `CompressedPair` (compressed_pair.h)

The default template arguments of `CompressedPair<F, S>` are computed from type traits
of the standard library; their values for the two element types are parameters. -/

/-- The values of `std::is_empty_v`, `std::is_final_v` and `std::is_base_of_v` for the
element types `F` and `S` of a `CompressedPair<F, S>`. -/
structure PairTraits where
  is_empty_F : Bool
  is_final_F : Bool
  is_empty_S : Bool
  is_final_S : Bool
  is_base_of_S_F : Bool
  is_base_of_F_S : Bool
deriving DecidableEq, Repr

/-- `kIsCompressed<V> = std::is_empty_v<V> && !std::is_final_v<V>`. -/
def kIsCompressed (is_empty_V is_final_V : Bool) : Bool := is_empty_V && !is_final_V

/-- `kCouldBeCompressedToFirst<V, U> = kIsCompressed<U> && !std::is_base_of_v<U, V>`. -/
def kCouldBeCompressedToFirst (kIsCompressed_U is_base_of_U_V : Bool) : Bool :=
  kIsCompressed_U && !is_base_of_U_V

/-- The four class templates: the primary template (two fields), `<F, S, true, false>`
(derives from `S`, field `first_`), `<F, S, true, true>` (derives from `F` and `S`),
`<F, S, false, true>` (derives from `F`, field `second_`). -/
inductive Layout where
  | twoFields
  | secondBase
  | bothBases
  | firstBase
deriving DecidableEq, Repr

/-- The specialization that `CompressedPair<F, S>` names: the two defaulted template
arguments `could_be_compressed_to_first = kCouldBeCompressedToFirst<F, S>` and
`could_be_compressed_to_second = kCouldBeCompressedToFirst<S, F>` select it. -/
def CompressedPair.select (t : PairTraits) : Layout :=
  let could_be_compressed_to_first :=
    kCouldBeCompressedToFirst (kIsCompressed t.is_empty_S t.is_final_S) t.is_base_of_S_F
  let could_be_compressed_to_second :=
    kCouldBeCompressedToFirst (kIsCompressed t.is_empty_F t.is_final_F) t.is_base_of_F_S
  match could_be_compressed_to_first, could_be_compressed_to_second with
  | false, false => .twoFields
  | true, false => .secondBase
  | true, true => .bothBases
  | false, true => .firstBase

/-- Spec-side definition, from the words of the specification: the layout chosen from
which of the two element types carry no state. -/
def specLayout (firstStateless secondStateless : Bool) : Layout :=
  match firstStateless, secondStateless with
  | false, false => .twoFields
  | true, false => .firstBase
  | false, true => .secondBase
  | true, true => .bothBases

/-- The traits of `CompressedPair<E, E>` for one empty, non-final class `E`. -/
def traitsSameEmpty : PairTraits :=
  { is_empty_F := true, is_final_F := false, is_empty_S := true, is_final_S := false,
    is_base_of_S_F := true, is_base_of_F_S := true }

/-- The traits of `CompressedPair<B, A>` for empty classes `struct A {}; struct B : A {};`. -/
def traitsDerivedBase : PairTraits :=
  { is_empty_F := true, is_final_F := false, is_empty_S := true, is_final_S := false,
    is_base_of_S_F := true, is_base_of_F_S := false }

/-- The traits of `CompressedPair<E, int>` for an empty class `struct E final {};`. -/
def traitsFinalEmpty : PairTraits :=
  { is_empty_F := true, is_final_F := true, is_empty_S := false, is_final_S := false,
    is_base_of_S_F := false, is_base_of_F_S := false }

/-! ## Programs with handles that store a null pointer -/

/-- The program `SharedPtr<T> s(new T); WeakPtr<T> w(s); SharedPtr<U> q(s, nullptr);
SharedPtr<U> r(std::move(q), x);` with a non-null address `x`, followed by the
destruction of `r` and then of `s`: the heap at the end. -/
def exampleAliasNull : Except Fault Heap := do
  let (h1, s) ← SharedPtr.ofPtr false (Heap.fresh 1) (some 0)
  let (h2, _) ← WeakPtr.ofShared h1 s
  let (h3, q) ← SharedPtr.alias h2 s none
  let (r, _) := SharedPtr.aliasMove q (some 7)
  let h4 ← r.destroy h3
  s.destroy h4

/-- The program `T* p = nullptr; { SharedPtr<T> s(p); SharedPtr<T> t(s); }`: the heap
after both handles have been destroyed. -/
def exampleNullWrap : Except Fault Heap := do
  let (h1, s) ← SharedPtr.ofPtr false (Heap.fresh 0) none
  let (h2, t) ← SharedPtr.copy h1 s
  let h3 ← t.destroy h2
  s.destroy h3

/-! ## The counters as 32-bit `int`

The counters of a control block are `int`.  Elsewhere in this development they are
integers without a bound; here the increment is the one of the target, where an `int`
has 32 bits in two's complement and `++counter_` at `INT_MAX` gives `INT_MIN` (the
overflow is undefined in the source). -/

/-- The value that a 32-bit `int` holds for the mathematical result `c`. -/
def wrapInt (c : Int) : Int := (c + 2 ^ 31) % 2 ^ 32 - 2 ^ 31

/-- Virtual `operator++()` on the 32-bit counter. -/
def Heap.increment32 (h : Heap) (cb : BlockPtr) : Except Fault Heap :=
  h.modify cb (fun b => { b with counter_ := wrapInt (b.counter_ + 1) })

/-- `SharedPtr(const SharedPtr& other)` with the 32-bit counter. -/
def SharedPtr.copy32 (h : Heap) (other : SharedPtr) : Except Fault (Heap × SharedPtr) :=
  let self : SharedPtr :=
    { stored_ptr_ := other.Get, control_block_ := other.control_block_ }
  if self.toBool then do
    let h1 ← h.increment32 self.control_block_
    pure (h1, self)
  else pure (h, self)

/-- The declarations `SharedPtr<T> c1(s); ...; SharedPtr<T> cn(s);`: the heap after
them and the `n` new handles. -/
def copies32 (s : SharedPtr) : Nat → Heap → Except Fault (Heap × List SharedPtr)
  | 0, h => pure (h, [])
  | n + 1, h => do
    let (h1, c) ← SharedPtr.copy32 h s
    let (h2, cs) ← copies32 s n h1
    pure (h2, c :: cs)

/-! ## Copies of objects -/

/-- The expression `new T(*p)` for a class `T` with the implicit copy constructor: the
base class `EnableSharedFromThis<T>` declares no copy constructor, so its member
`weak_this_` is copy-constructed with `WeakPtr(const WeakPtr&)`.  Returns the address of
the new object. -/
def Heap.newCopy (h : Heap) (p : Ptr) : Except Fault (Heap × Nat) := do
  let wt ← h.weak_this_ p
  let (h1, x) ← WeakPtr.copy h wt
  pure ({ h1 with objects := h1.objects ++ [{ weak_this_ := x }] }, h1.objects.length)

/-- The statement `*dst = *src` on two different objects of a class `T` with the
implicit copy assignment: the base class `EnableSharedFromThis<T>` declares no
assignment operator, so its member `weak_this_` is assigned with
`WeakPtr::operator=(const WeakPtr&)`. -/
def Heap.assignObject (h : Heap) (dst src : Ptr) : Except Fault Heap := do
  let wd ← h.weak_this_ dst
  let ws ← h.weak_this_ src
  let (h1, x) ← WeakPtr.assign h wd ws
  match dst with
  | none => .error .nullDeref
  | some a => pure { h1 with objects := h1.objects.set a { weak_this_ := x } }

/-- The program `T* p = new T; T* o = new T; SharedPtr<T> sp(p); SharedPtr<T> s(o);
*o = *p;` for a class `T` that derives from `EnableSharedFromThis<T>`: the heap and the
handles `sp` and `s`. -/
def exampleAssignedObject : Except Fault (Heap × SharedPtr × SharedPtr) := do
  let (h1, sp) ← SharedPtr.ofPtr true (Heap.fresh 2) (some 0)
  let (h2, s) ← SharedPtr.ofPtr true h1 (some 1)
  let h3 ← h2.assignObject (some 1) (some 0)
  pure (h3, sp, s)

/-- The program `T* p = new T; SharedPtr<T> sp(p); T* c = new T(*p);` for a class `T`
that derives from `EnableSharedFromThis<T>`: the heap, the handle `sp` and the address
of the copy `*c`, which no `SharedPtr` has wrapped. -/
def exampleCopiedObject : Except Fault (Heap × SharedPtr × Nat) := do
  let (h1, sp) ← SharedPtr.ofPtr true (Heap.fresh 1) (some 0)
  let (h2, c) ← h1.newCopy (some 0)
  pure (h2, sp, c)

/-- The program `SharedPtr<T> s(new T); SharedPtr<U> q(s, nullptr); WeakPtr<U> w(q);`:
the heap and the handles `q` and `w`. -/
def exampleWeakOfNullAlias : Except Fault (Heap × SharedPtr × WeakPtr) := do
  let (h1, s) ← SharedPtr.ofPtr false (Heap.fresh 1) (some 0)
  let (h2, q) ← SharedPtr.alias h1 s none
  let (h3, w) ← WeakPtr.ofShared h2 q
  pure (h3, q, w)

/-! ## The unified release step of the specification -/

/-- Spec-side definition, from the words of the specification: the unified release step
"decrement the strong count; if it became zero destroy the object; if the weak count is
then also zero deallocate the block".  Destroying the object is `ObjectDelete`, which
for an object with a bound `weak_this_` releases that weak reference (and with it, when
it was the last reference, the block).  The weak count is then read from the state of
the block; deallocating the block sets its flag `freed`. -/
def unifiedRelease (h : Heap) (cb : BlockPtr) : Except Fault Heap := do
  let h1 ← h.decrement cb
  let c ← h1.GetCount cb
  if c == 0 then do
    let h2 ← h1.ObjectDelete cb
    match cb with
    | none => .error .nullDeref
    | some b =>
      match h2.blocks[b]? with
      | none => .error .wildPointer
      | some blk =>
        if blk.weak_counter_ == 0 then
          pure { h2 with blocks := h2.blocks.set b { blk with freed := true } }
        else pure h2
  else pure h1

/-! ## Basic lemmas -/

@[simp] theorem bind_ok {ε α β : Type} (a : α) (f : α → Except ε β) :
    (Except.ok a >>= f) = f a := rfl

@[simp] theorem bind_error {ε α β : Type} (e : ε) (f : α → Except ε β) :
    ((Except.error e : Except ε α) >>= f) = Except.error e := rfl

@[simp] theorem pure_eq_ok {ε α : Type} (a : α) : (pure a : Except ε α) = Except.ok a := rfl

@[simp] theorem toSizeT_natCast (n : Nat) : toSizeT (n : Int) = n := by
  simp [toSizeT]

@[simp] theorem toSizeT_zero : toSizeT 0 = 0 := rfl

@[simp] theorem toSizeT_one : toSizeT 1 = 1 := rfl

@[simp] theorem toSizeT_natCast_add_one (n : Nat) : toSizeT ((n : Int) + 1) = n + 1 := by
  unfold toSizeT
  split <;> omega

@[simp] theorem toSizeT_natCast_sub_one_eq_zero (n : Nat) :
    toSizeT ((n : Int) - 1) = 0 ↔ n = 1 := by
  unfold toSizeT
  split <;> omega

theorem toSizeT_eq_zero_iff {c : Int} (h : -(2 ^ 64) < c) : toSizeT c = 0 ↔ c = 0 := by
  unfold toSizeT
  split <;> omega

theorem toSizeT_eq_one_iff {c : Int} (h : -(2 ^ 64) + 1 < c) : toSizeT c = 1 ↔ c = 1 := by
  unfold toSizeT
  split <;> omega

theorem later_refl (b : ControlBlock) : Later b b := ⟨Nat.le_refl _, id, rfl⟩

theorem later_trans {b b1 b2 : ControlBlock} (h1 : Later b b1) (h2 : Later b1 b2) :
    Later b b2 :=
  ⟨Nat.le_trans h1.deletes h2.deletes, fun h => h2.freed (h1.freed h),
    h2.inPlace.trans h1.inPlace⟩

theorem Good.live {objs a bound S W blk} (hg : Good objs a bound S W blk)
    (h : 1 ≤ S + W) : blk.freed = false := by
  cases hf : blk.freed
  · rfl
  · have := hg.freed.1 hf; omega

/-- Destroying a weak handle that references the block. -/
theorem weak_destroy_ref {objs a bound S W blk} (p : Ptr)
    (hg : Good objs a bound S W blk) (hW : 1 ≤ W) :
    ∃ blk1, WeakPtr.destroy ⟨p, some 0⟩ ⟨[blk], objs⟩ = .ok ⟨[blk1], objs⟩ ∧
      Good objs a bound S (W - 1) blk1 ∧ Later blk blk1 := by
  have hf := hg.live (by omega)
  obtain ⟨hobj, hptr, hdel, hfr, hs, hw⟩ := hg
  have hs := hs hf
  have hw := hw hf
  simp only [WeakPtr.destroy, WeakPtr.toBool, WeakPtr.UseCount, Heap.GetCount,
    Heap.GetWeakCount, Heap.deref, Heap.WeakDecrement, Heap.modify, Heap.deleteBlock]
  cases bound <;> simp at hw <;> simp [hf, hs, hw] <;>
    split_ifs <;> refine ⟨_, rfl, ?_, ?_⟩ <;> constructor <;> simp [*] <;> omega

/-- Destroying a shared handle that references the block. -/
theorem shared_destroy_ref {objs a bound S W blk} (p : Nat)
    (hg : Good objs a bound S W blk) (hS : 1 ≤ S) :
    ∃ blk1, SharedPtr.destroy ⟨some p, some 0⟩ ⟨[blk], objs⟩ = .ok ⟨[blk1], objs⟩ ∧
      Good objs a bound (S - 1) W blk1 ∧ Later blk blk1 := by
  have hf := hg.live (by omega)
  obtain ⟨hobj, hptr, hdel, hfr, hs, hw⟩ := hg
  have hs := hs hf
  have hw := hw hf
  have hm : min S 1 = 1 := by omega
  simp only [SharedPtr.destroy, SharedPtr.toBool, SharedPtr.Get, SharedPtr.UseCount,
    SharedPtr.WeakCount, Heap.ObjectDelete,
    WeakPtr.destroy, WeakPtr.toBool, WeakPtr.UseCount, Heap.GetCount,
    Heap.GetWeakCount, Heap.deref, Heap.WeakDecrement, Heap.decrement, Heap.modify, Heap.deleteBlock]
  cases bound <;> simp [hm] at hw hdel <;> simp [hf, hs, hw, hptr, hobj, selfWeak, WeakPtr.null] <;>
    split_ifs <;> simp [hf, hs, hw, hptr, hobj, selfWeak, WeakPtr.null] <;>
    refine ⟨?_, ?_⟩ <;> constructor <;> simp [*] <;> omega

/-! ## Counting references held by the variables of a program -/

theorem slotSum_append {α : Type} (f : α → Nat) (l1 l2 : List (Option α)) :
    slotSum f (l1 ++ l2) = slotSum f l1 + slotSum f l2 := by
  induction l1 with
  | nil => simp [slotSum]
  | cons x l ih => simp [slotSum, ih]; omega

theorem slotVal_le_slotSum {α : Type} (f : α → Nat) {l : List (Option α)} {i : Nat}
    {o : Option α} (h : l[i]? = some o) : slotVal f o ≤ slotSum f l := by
  induction l generalizing i with
  | nil => simp at h
  | cons x l ih =>
    cases i with
    | zero =>
      simp at h
      subst h
      simp [slotSum]
    | succ i =>
      simp at h
      have := ih h
      simp [slotSum]
      omega

theorem slotSum_set {α : Type} (f : α → Nat) {l : List (Option α)} {i : Nat}
    {o : Option α} (n : Option α) (h : l[i]? = some o) :
    slotSum f (l.set i n) = slotSum f l - slotVal f o + slotVal f n := by
  induction l generalizing i with
  | nil => simp at h
  | cons x l ih =>
    cases i with
    | zero =>
      simp at h
      subst h
      simp [slotSum]
      omega
    | succ i =>
      simp at h
      have h1 := ih h
      have h2 := slotVal_le_slotSum f h
      simp [slotSum, h1]
      omega

theorem World.getShared_eq {w : World} {i : Nat} {s : SharedPtr}
    (h : w.getShared i = some s) : w.shared[i]? = some (some s) :=
  Option.join_eq_some.1 h

theorem World.getWeak_eq {w : World} {j : Nat} {x : WeakPtr}
    (h : w.getWeak j = some x) : w.weak[j]? = some (some x) :=
  Option.join_eq_some.1 h

theorem Inv.shared_slot {objs a bound w i s} (hinv : Inv objs a bound w)
    (h : w.getShared i = some s) :
    w.shared[i]? = some (some s) ∧ s.inFamily ∧ s.refs 0 ≤ strongRefs 0 w.shared :=
  ⟨World.getShared_eq h, hinv.sfam s (List.getElem?_mem (World.getShared_eq h)),
    slotVal_le_slotSum (SharedPtr.refs 0) (World.getShared_eq h)⟩

theorem Inv.weak_slot {objs a bound w j x} (hinv : Inv objs a bound w)
    (h : w.getWeak j = some x) :
    w.weak[j]? = some (some x) ∧ x.inFamily ∧ x.refs 0 ≤ weakRefs 0 w.weak :=
  ⟨World.getWeak_eq h, hinv.wfam x (List.getElem?_mem (World.getWeak_eq h)),
    slotVal_le_slotSum (WeakPtr.refs 0) (World.getWeak_eq h)⟩

theorem fam_append {α : Type} {P : α → Prop} {l : List (Option α)} {x : α}
    (hl : ∀ s, some s ∈ l → P s) (hx : P x) : ∀ s, some s ∈ l ++ [some x] → P s := by
  intro s hs
  rcases List.mem_append.1 hs with h | h
  · exact hl s h
  · simp at h
    exact h ▸ hx

theorem fam_set {α : Type} {P : α → Prop} {l : List (Option α)} (i : Nat) {x : α}
    (hl : ∀ s, some s ∈ l → P s) (hx : P x) : ∀ s, some s ∈ l.set i (some x) → P s := by
  intro s hs
  rcases List.mem_or_eq_of_mem_set hs with h | h
  · exact hl s h
  · simp at h
    exact h ▸ hx

theorem fam_set_none {α : Type} {P : α → Prop} {l : List (Option α)} (i : Nat)
    (hl : ∀ s, some s ∈ l → P s) : ∀ s, some s ∈ l.set i none → P s := by
  intro s hs
  rcases List.mem_or_eq_of_mem_set hs with h | h
  · exact hl s h
  · simp at h

/-! ## Primitive operations on the block of a family -/

theorem shared_inFamily_cases {s : SharedPtr} (h : s.inFamily) :
    s = SharedPtr.null ∨ ∃ p : Nat, s = ⟨some p, some 0⟩ := by
  rcases h with h | ⟨hp, hc⟩
  · exact Or.inl h
  · right
    obtain ⟨sp, cb⟩ := s
    cases sp with
    | none => exact absurd rfl hp
    | some p => exact ⟨p, by simp_all⟩

theorem weak_inFamily_cases {x : WeakPtr} (h : x.inFamily) :
    x = WeakPtr.null ∨ ∃ p : Nat, x = ⟨some p, some 0⟩ := by
  rcases h with h | ⟨hp, hc⟩
  · exact Or.inl h
  · right
    obtain ⟨sp, cb⟩ := x
    cases sp with
    | none => exact absurd rfl hp
    | some p => exact ⟨p, by simp_all⟩

@[simp] theorem shared_refs_null (b : Nat) : SharedPtr.null.refs b = 0 := rfl

@[simp] theorem weak_refs_null (b : Nat) : WeakPtr.null.refs b = 0 := rfl

@[simp] theorem shared_refs_mk (p : Ptr) (b : Nat) : (SharedPtr.mk p (some b)).refs b = 1 := by
  simp [SharedPtr.refs]

@[simp] theorem weak_refs_mk (p : Ptr) (b : Nat) : (WeakPtr.mk p (some b)).refs b = 1 := by
  simp [WeakPtr.refs]

theorem shared_inFamily_null : SharedPtr.null.inFamily := Or.inl rfl

theorem weak_inFamily_null : WeakPtr.null.inFamily := Or.inl rfl

theorem shared_inFamily_mk (p : Nat) : (SharedPtr.mk (some p) (some 0)).inFamily :=
  Or.inr ⟨by simp, rfl⟩

theorem weak_inFamily_mk (p : Nat) : (WeakPtr.mk (some p) (some 0)).inFamily :=
  Or.inr ⟨by simp, rfl⟩

/-- Incrementing the strong count for a new handle of a live object. -/
theorem strong_increment {objs a bound S W blk}
    (hg : Good objs a bound S W blk) (hS : 1 ≤ S) :
    ∃ blk1, Heap.increment ⟨[blk], objs⟩ (some 0) = .ok ⟨[blk1], objs⟩ ∧
      Good objs a bound (S + 1) W blk1 ∧ Later blk blk1 := by
  have hf := hg.live (by omega)
  obtain ⟨hobj, hptr, hdel, hfr, hs, hw⟩ := hg
  have hs := hs hf
  have hw := hw hf
  have hm : min S 1 = 1 := by omega
  simp only [Heap.increment, Heap.modify]
  cases bound <;> simp [hm] at hw hdel <;> simp [hf] <;>
    (refine ⟨?_, ?_⟩ <;> constructor <;> simp [*])

/-- Incrementing the weak count for a new weak handle of a live block. -/
theorem weak_increment {objs a bound S W blk}
    (hg : Good objs a bound S W blk) (hSW : 1 ≤ S + W) :
    ∃ blk1, Heap.WeakIncrement ⟨[blk], objs⟩ (some 0) = .ok ⟨[blk1], objs⟩ ∧
      Good objs a bound S (W + 1) blk1 ∧ Later blk blk1 := by
  have hf := hg.live (by omega)
  obtain ⟨hobj, hptr, hdel, hfr, hs, hw⟩ := hg
  have hs := hs hf
  have hw := hw hf
  simp only [Heap.WeakIncrement, Heap.modify]
  cases bound <;> simp at hw <;> simp [hf] <;>
    (refine ⟨?_, ?_⟩ <;> constructor <;> simp [*] <;> omega)

theorem shared_copy_fam {objs a bound S W blk} {s : SharedPtr} (hfam : s.inFamily)
    (hg : Good objs a bound S W blk) (hle : s.refs 0 ≤ S) :
    ∃ blk1, SharedPtr.copy ⟨[blk], objs⟩ s = .ok (⟨[blk1], objs⟩, s) ∧
      Good objs a bound (S + s.refs 0) W blk1 ∧ Later blk blk1 := by
  rcases shared_inFamily_cases hfam with rfl | ⟨p, rfl⟩
  · exact ⟨blk, rfl, hg, later_refl blk⟩
  · simp at hle
    obtain ⟨blk1, h1, hg1, hl1⟩ := strong_increment hg hle
    exact ⟨blk1, by simp [SharedPtr.copy, SharedPtr.toBool, SharedPtr.Get, h1],
      by simpa using hg1, hl1⟩

theorem shared_alias_ref {objs a bound S W blk} (p r : Nat)
    (hg : Good objs a bound S W blk) (hS : 1 ≤ S) :
    ∃ blk1, SharedPtr.alias ⟨[blk], objs⟩ ⟨some p, some 0⟩ (some r) =
        .ok (⟨[blk1], objs⟩, ⟨some r, some 0⟩) ∧
      Good objs a bound (S + 1) W blk1 ∧ Later blk blk1 := by
  obtain ⟨blk1, h1, hg1, hl1⟩ := strong_increment hg hS
  exact ⟨blk1, by simp [SharedPtr.alias, SharedPtr.toBool, SharedPtr.Get, h1], hg1, hl1⟩

theorem shared_destroy_fam {objs a bound S W blk} {s : SharedPtr} (hfam : s.inFamily)
    (hg : Good objs a bound S W blk) (hle : s.refs 0 ≤ S) :
    ∃ blk1, s.destroy ⟨[blk], objs⟩ = .ok ⟨[blk1], objs⟩ ∧
      Good objs a bound (S - s.refs 0) W blk1 ∧ Later blk blk1 := by
  rcases shared_inFamily_cases hfam with rfl | ⟨p, rfl⟩
  · exact ⟨blk, rfl, hg, later_refl blk⟩
  · simp at hle
    simpa using shared_destroy_ref p hg hle

theorem weak_copy_fam {objs a bound S W blk} {x : WeakPtr} (hfam : x.inFamily)
    (hg : Good objs a bound S W blk) (hle : x.refs 0 ≤ W) :
    ∃ blk1, WeakPtr.copy ⟨[blk], objs⟩ x = .ok (⟨[blk1], objs⟩, x) ∧
      Good objs a bound S (W + x.refs 0) blk1 ∧ Later blk blk1 := by
  rcases weak_inFamily_cases hfam with rfl | ⟨p, rfl⟩
  · exact ⟨blk, rfl, hg, later_refl blk⟩
  · simp at hle
    obtain ⟨blk1, h1, hg1, hl1⟩ := weak_increment hg (by omega)
    exact ⟨blk1, by simp [WeakPtr.copy, WeakPtr.toBool, h1], by simpa using hg1, hl1⟩

theorem weak_ofShared_fam {objs a bound S W blk} {s : SharedPtr} (hfam : s.inFamily)
    (hg : Good objs a bound S W blk) (hle : s.refs 0 ≤ S) :
    ∃ blk1 x, WeakPtr.ofShared ⟨[blk], objs⟩ s = .ok (⟨[blk1], objs⟩, x) ∧
      x.inFamily ∧ x.refs 0 = s.refs 0 ∧ Good objs a bound S (W + s.refs 0) blk1 ∧
      Later blk blk1 := by
  rcases shared_inFamily_cases hfam with rfl | ⟨p, rfl⟩
  · exact ⟨blk, WeakPtr.null, rfl, weak_inFamily_null, rfl, hg, later_refl blk⟩
  · simp at hle
    obtain ⟨blk1, h1, hg1, hl1⟩ := weak_increment hg (by omega)
    exact ⟨blk1, ⟨some p, some 0⟩, by simp [WeakPtr.ofShared, WeakPtr.toBool, h1],
      weak_inFamily_mk p, by simp, by simpa using hg1, hl1⟩

theorem weak_destroy_fam {objs a bound S W blk} {x : WeakPtr} (hfam : x.inFamily)
    (hg : Good objs a bound S W blk) (hle : x.refs 0 ≤ W) :
    ∃ blk1, x.destroy ⟨[blk], objs⟩ = .ok ⟨[blk1], objs⟩ ∧
      Good objs a bound S (W - x.refs 0) blk1 ∧ Later blk blk1 := by
  rcases weak_inFamily_cases hfam with rfl | ⟨p, rfl⟩
  · exact ⟨blk, rfl, hg, later_refl blk⟩
  · simp at hle
    simpa using weak_destroy_ref (some p) hg hle

/-- `Reset` releases the reference exactly as the destructor does and nulls the handle. -/
theorem WeakPtr.Reset_eq_destroy (x : WeakPtr) (h : Heap) :
    x.Reset h = (x.destroy h >>= fun h1 => pure (h1, WeakPtr.null)) := by
  simp only [WeakPtr.Reset, WeakPtr.destroy, WeakPtr.null]
  split
  · cases x.UseCount h with
    | error e => rfl
    | ok uc =>
      cases h.GetWeakCount x.control_block_ with
      | error e => rfl
      | ok wc =>
        simp only [bind_ok]
        split
        · simp only [bind_assoc]
        · rfl
  · rfl

theorem weak_reset_fam {objs a bound S W blk} {x : WeakPtr} (hfam : x.inFamily)
    (hg : Good objs a bound S W blk) (hle : x.refs 0 ≤ W) :
    ∃ blk1, x.Reset ⟨[blk], objs⟩ = .ok (⟨[blk1], objs⟩, WeakPtr.null) ∧
      Good objs a bound S (W - x.refs 0) blk1 ∧ Later blk blk1 := by
  obtain ⟨blk1, h1, hg1, hl1⟩ := weak_destroy_fam hfam hg hle
  exact ⟨blk1, by rw [WeakPtr.Reset_eq_destroy, h1]; rfl, hg1, hl1⟩

theorem weak_expired_ref {objs a bound S W blk} (p : Ptr)
    (hg : Good objs a bound S W blk) (hW : 1 ≤ W) :
    WeakPtr.Expired ⟨p, some 0⟩ ⟨[blk], objs⟩ = .ok (decide (S = 0)) := by
  have hf := hg.live (by omega)
  have hs := hg.strong hf
  simp only [WeakPtr.Expired, WeakPtr.toBool, Heap.GetCount, Heap.deref]
  by_cases hS : S = 0 <;> simp [hf, hs, hS]

theorem shared_ofWeak_fam {objs a bound S W blk} {x : WeakPtr} (hfam : x.inFamily)
    (hg : Good objs a bound S W blk) (hle : x.refs 0 ≤ W) :
    ((x.refs 0 = 0 ∨ S = 0) ∧ SharedPtr.ofWeak ⟨[blk], objs⟩ x = .error .badWeakPtr) ∨
    (x.refs 0 = 1 ∧ 1 ≤ S ∧ ∃ blk1 s, SharedPtr.ofWeak ⟨[blk], objs⟩ x =
        .ok (⟨[blk1], objs⟩, s) ∧ s.inFamily ∧ s.refs 0 = 1 ∧
        s.stored_ptr_ = x.stored_ptr_ ∧ Good objs a bound (S + 1) W blk1 ∧
        Later blk blk1) := by
  rcases weak_inFamily_cases hfam with rfl | ⟨p, rfl⟩
  · left
    exact ⟨Or.inl rfl, rfl⟩
  · simp at hle
    have he := weak_expired_ref (some p) hg hle
    by_cases hS : S = 0
    · left
      refine ⟨Or.inr hS, ?_⟩
      simp [SharedPtr.ofWeak, he, hS]
      rfl
    · right
      obtain ⟨blk1, h1, hg1, hl1⟩ := strong_increment hg (by omega)
      refine ⟨by simp, by omega, blk1, ⟨some p, some 0⟩, ?_, shared_inFamily_mk p, by simp,
        rfl, hg1, hl1⟩
      simp [SharedPtr.ofWeak, he, hS, SharedPtr.toBool, SharedPtr.Get, h1]

theorem weak_lock_fam {objs a bound S W blk} {x : WeakPtr} (hfam : x.inFamily)
    (hg : Good objs a bound S W blk) (hle : x.refs 0 ≤ W) :
    ((x.refs 0 = 0 ∨ S = 0) ∧
      x.Lock ⟨[blk], objs⟩ = .ok (⟨[blk], objs⟩, SharedPtr.null)) ∨
    (x.refs 0 = 1 ∧ 1 ≤ S ∧ ∃ blk1 s, x.Lock ⟨[blk], objs⟩ =
        .ok (⟨[blk1], objs⟩, s) ∧ s.inFamily ∧ s.refs 0 = 1 ∧
        s.stored_ptr_ = x.stored_ptr_ ∧ Good objs a bound (S + 1) W blk1 ∧
        Later blk blk1) := by
  rcases weak_inFamily_cases hfam with rfl | ⟨p, rfl⟩
  · left
    exact ⟨Or.inl rfl, rfl⟩
  · have hW : 1 ≤ W := by simpa using hle
    have he := weak_expired_ref (some p) hg hW
    by_cases hS : S = 0
    · left
      refine ⟨Or.inr hS, ?_⟩
      simp [WeakPtr.Lock, he, hS]
    · right
      rcases shared_ofWeak_fam hfam hg hle with ⟨h0, -⟩ | ⟨h1, hS1, blk1, s, h2, h3⟩
      · simp at h0; exact absurd h0 hS
      · exact ⟨h1, hS1, blk1, s, by simp [WeakPtr.Lock, he, hS, h2], h3⟩

theorem shared_assign_fam {objs a bound S W blk} {s o : SharedPtr} (hs : s.inFamily)
    (ho : o.inFamily) (hg : Good objs a bound S W blk) (hle : s.refs 0 ≤ S)
    (hlo : o.refs 0 ≤ S) :
    ∃ blk1, SharedPtr.assign ⟨[blk], objs⟩ s o = .ok (⟨[blk1], objs⟩, o) ∧
      Good objs a bound (S + o.refs 0 - s.refs 0) W blk1 ∧ Later blk blk1 := by
  obtain ⟨blk1, h1, hg1, hl1⟩ := shared_copy_fam ho hg hlo
  obtain ⟨blk2, h2, hg2, hl2⟩ := shared_destroy_fam hs hg1 (by omega)
  refine ⟨blk2, ?_, hg2, later_trans hl1 hl2⟩
  simp only [SharedPtr.assign, h1, bind_ok, SharedPtr.Swap]
  rw [show (SharedPtr.mk s.stored_ptr_ s.control_block_) = s from rfl, h2]
  rfl

theorem shared_moveAssign_fam {objs a bound S W blk} {s o : SharedPtr} (hs : s.inFamily)
    (hg : Good objs a bound S W blk) (hle : s.refs 0 ≤ S) :
    ∃ blk1, SharedPtr.moveAssign ⟨[blk], objs⟩ s o =
        .ok (⟨[blk1], objs⟩, o, SharedPtr.null) ∧
      Good objs a bound (S - s.refs 0) W blk1 ∧ Later blk blk1 := by
  obtain ⟨blk2, h2, hg2, hl2⟩ := shared_destroy_fam hs hg hle
  refine ⟨blk2, ?_, hg2, hl2⟩
  simp only [SharedPtr.moveAssign, SharedPtr.move, SharedPtr.Swap]
  rw [show (SharedPtr.mk s.stored_ptr_ s.control_block_) = s from rfl, h2]
  rfl

theorem shared_reset_fam {objs a bound S W blk} {s : SharedPtr} (hs : s.inFamily)
    (hg : Good objs a bound S W blk) (hle : s.refs 0 ≤ S) :
    ∃ blk1, s.Reset ⟨[blk], objs⟩ = .ok (⟨[blk1], objs⟩, SharedPtr.null) ∧
      Good objs a bound (S - s.refs 0) W blk1 ∧ Later blk blk1 := by
  obtain ⟨blk2, h2, hg2, hl2⟩ := shared_destroy_fam hs hg hle
  refine ⟨blk2, ?_, hg2, hl2⟩
  simp only [SharedPtr.Reset, SharedPtr.Swap]
  rw [show (SharedPtr.mk s.stored_ptr_ s.control_block_) = s from rfl, h2]
  rfl

theorem weak_assign_fam {objs a bound S W blk} {x o : WeakPtr} (hx : x.inFamily)
    (ho : o.inFamily) (hg : Good objs a bound S W blk) (hle : x.refs 0 ≤ W)
    (hlo : o.refs 0 ≤ W) :
    ∃ blk1, WeakPtr.assign ⟨[blk], objs⟩ x o = .ok (⟨[blk1], objs⟩, o) ∧
      Good objs a bound S (W + o.refs 0 - x.refs 0) blk1 ∧ Later blk blk1 := by
  obtain ⟨blk1, h1, hg1, hl1⟩ := weak_copy_fam ho hg hlo
  obtain ⟨blk2, h2, hg2, hl2⟩ := weak_destroy_fam hx hg1 (by omega)
  refine ⟨blk2, ?_, hg2, later_trans hl1 hl2⟩
  simp only [WeakPtr.assign, h1, bind_ok, WeakPtr.Swap]
  rw [show (WeakPtr.mk x.stored_ptr_ x.control_block_) = x from rfl, h2]
  rfl

theorem weak_moveAssign_fam {objs a bound S W blk} {x o : WeakPtr} (hx : x.inFamily)
    (hg : Good objs a bound S W blk) (hle : x.refs 0 ≤ W) :
    ∃ blk1, WeakPtr.moveAssign ⟨[blk], objs⟩ x o =
        .ok (⟨[blk1], objs⟩, o, WeakPtr.null) ∧
      Good objs a bound S (W - x.refs 0) blk1 ∧ Later blk blk1 := by
  obtain ⟨blk2, h2, hg2, hl2⟩ := weak_destroy_fam hx hg hle
  refine ⟨blk2, ?_, hg2, hl2⟩
  simp only [WeakPtr.moveAssign, WeakPtr.move, WeakPtr.Swap]
  rw [show (WeakPtr.mk x.stored_ptr_ x.control_block_) = x from rfl, h2]
  rfl

theorem weak_assignShared_fam {objs a bound S W blk} {x : WeakPtr} {s : SharedPtr}
    (hx : x.inFamily) (hs : s.inFamily) (hg : Good objs a bound S W blk)
    (hle : x.refs 0 ≤ W) (hls : s.refs 0 ≤ S) :
    ∃ blk1 y, WeakPtr.assignShared ⟨[blk], objs⟩ x s = .ok (⟨[blk1], objs⟩, y) ∧
      y.inFamily ∧ y.refs 0 = s.refs 0 ∧
      Good objs a bound S (W + s.refs 0 - x.refs 0) blk1 ∧ Later blk blk1 := by
  obtain ⟨blk1, y, h1, hy, hyr, hg1, hl1⟩ := weak_ofShared_fam hs hg hls
  obtain ⟨blk2, h2, hg2, hl2⟩ := weak_moveAssign_fam (o := y) hx hg1 (by omega)
  refine ⟨blk2, y, ?_, hy, hyr, hg2, later_trans hl1 hl2⟩
  simp only [WeakPtr.assignShared, h1, bind_ok, h2]
  rfl

/-! ## Every operation of a program preserves the invariant -/

theorem strongRefs_push (l : List (Option SharedPtr)) (x : SharedPtr) :
    strongRefs 0 (l ++ [some x]) = strongRefs 0 l + x.refs 0 := by
  simp [strongRefs, slotSum_append, slotSum, slotVal]

theorem weakRefs_push (l : List (Option WeakPtr)) (x : WeakPtr) :
    weakRefs 0 (l ++ [some x]) = weakRefs 0 l + x.refs 0 := by
  simp [weakRefs, slotSum_append, slotSum, slotVal]

theorem strongRefs_set {l : List (Option SharedPtr)} {i : Nat} {s : SharedPtr}
    (n : Option SharedPtr) (h : l[i]? = some (some s)) :
    strongRefs 0 (l.set i n) = strongRefs 0 l - s.refs 0 + slotVal (SharedPtr.refs 0) n := by
  simpa [strongRefs, slotVal] using slotSum_set (SharedPtr.refs 0) n h

theorem weakRefs_set {l : List (Option WeakPtr)} {i : Nat} {x : WeakPtr}
    (n : Option WeakPtr) (h : l[i]? = some (some x)) :
    weakRefs 0 (l.set i n) = weakRefs 0 l - x.refs 0 + slotVal (WeakPtr.refs 0) n := by
  simpa [weakRefs, slotVal] using slotSum_set (WeakPtr.refs 0) n h

theorem Good.cast {objs a bound S W S1 W1 blk} (hg : Good objs a bound S W blk)
    (hS : S1 = S) (hW : W1 = W) : Good objs a bound S1 W1 blk := by
  subst hS; subst hW; exact hg

theorem world_later_refl (w : World) : World.Later w w := by
  intro b b1 h h1
  rw [h] at h1
  cases h1
  exact later_refl b

theorem world_later_of_blocks {w w1 : World} {b b1 : ControlBlock}
    (h : w.heap.blocks = [b]) (h1 : w1.heap.blocks = [b1])
    (hl : SmartPointers.Later b b1) : World.Later w w1 := by
  intro c c1 hc hc1
  rw [h] at hc
  rw [h1] at hc1
  cases hc
  cases hc1
  exact hl

theorem step_inv {objs a bound w} (hinv : Inv objs a bound w) (op : Op) :
    ∃ w1, step w op = .ok w1 ∧ Inv objs a bound w1 ∧ World.Later w w1 := by
  obtain ⟨blk, hheap, hg⟩ := hinv.heap
  have hb : w.heap.blocks = [blk] := by rw [hheap]
  cases op with
  | sharedDefault =>
    refine ⟨_, rfl, ⟨⟨blk, hheap, ?_⟩, fam_append hinv.sfam shared_inFamily_null, hinv.wfam⟩,
      world_later_of_blocks hb hb (later_refl blk)⟩
    exact hg.cast (by simp [strongRefs_push]) rfl
  | sharedCopy i =>
    simp only [step]
    cases hgs : w.getShared i with
    | none => exact ⟨w, rfl, hinv, world_later_refl w⟩
    | some s =>
      obtain ⟨hget, hfam, hle⟩ := hinv.shared_slot hgs
      obtain ⟨blk1, h1, hg1, hl1⟩ := shared_copy_fam hfam hg hle
      simp only [hheap, h1, bind_ok]
      refine ⟨_, rfl, ⟨⟨blk1, rfl, ?_⟩, fam_append hinv.sfam hfam, hinv.wfam⟩,
        world_later_of_blocks hb rfl hl1⟩
      exact hg1.cast (by simp [strongRefs_push]) rfl
  | sharedMove i =>
    simp only [step]
    cases hgs : w.getShared i with
    | none => exact ⟨w, rfl, hinv, world_later_refl w⟩
    | some s =>
      obtain ⟨hget, hfam, hle⟩ := hinv.shared_slot hgs
      refine ⟨_, rfl, ⟨⟨blk, hheap, ?_⟩,
        fam_append (fam_set i hinv.sfam shared_inFamily_null) hfam, hinv.wfam⟩,
          world_later_of_blocks hb hb (later_refl blk)⟩
      refine hg.cast ?_ rfl
      simp only [SharedPtr.move, SharedPtr.Get, strongRefs_push, strongRefs_set _ hget, slotVal]
      have : (SharedPtr.mk s.stored_ptr_ s.control_block_).refs 0 = s.refs 0 := rfl
      have h0 : SharedPtr.refs 0 ⟨none, none⟩ = 0 := rfl
      omega
  | sharedAlias i r =>
    simp only [step]
    cases hgs : w.getShared i with
    | none => exact ⟨w, rfl, hinv, world_later_refl w⟩
    | some s =>
      obtain ⟨hget, hfam, hle⟩ := hinv.shared_slot hgs
      rcases shared_inFamily_cases hfam with rfl | ⟨p, rfl⟩
      · exact ⟨w, rfl, hinv, world_later_refl w⟩
      · simp at hle
        obtain ⟨blk1, h1, hg1, hl1⟩ := shared_alias_ref p r hg hle
        simp only [hheap, h1, bind_ok, SharedPtr.toBool, SharedPtr.Get]
        refine ⟨_, rfl, ⟨⟨blk1, rfl, ?_⟩, fam_append hinv.sfam (shared_inFamily_mk r),
          hinv.wfam⟩, world_later_of_blocks hb rfl hl1⟩
        exact hg1.cast (by simp [strongRefs_push]) rfl
  | sharedAliasMove i r =>
    simp only [step]
    cases hgs : w.getShared i with
    | none => exact ⟨w, rfl, hinv, world_later_refl w⟩
    | some s =>
      obtain ⟨hget, hfam, hle⟩ := hinv.shared_slot hgs
      rcases shared_inFamily_cases hfam with rfl | ⟨p, rfl⟩
      · exact ⟨w, rfl, hinv, world_later_refl w⟩
      · simp at hle
        refine ⟨_, rfl, ⟨⟨blk, hheap, ?_⟩,
          fam_append (fam_set i hinv.sfam shared_inFamily_null) (shared_inFamily_mk r),
          hinv.wfam⟩, world_later_of_blocks hb hb (later_refl blk)⟩
        refine hg.cast ?_ rfl
        simp only [SharedPtr.aliasMove, strongRefs_push, strongRefs_set _ hget, slotVal]
        have h0 : SharedPtr.refs 0 ⟨none, none⟩ = 0 := rfl
        simp [h0]
        omega
  | sharedOfWeak j =>
    simp only [step]
    cases hgw : w.getWeak j with
    | none => exact ⟨w, rfl, hinv, world_later_refl w⟩
    | some x =>
      obtain ⟨hget, hfam, hle⟩ := hinv.weak_slot hgw
      rcases shared_ofWeak_fam hfam hg hle with ⟨-, h1⟩ | ⟨-, -, blk1, s, h1, hs, hsr, -, hg1, hl1⟩
      · simp only [hheap, h1]
        exact ⟨w, rfl, hinv, world_later_refl w⟩
      · simp only [hheap, h1]
        refine ⟨_, rfl, ⟨⟨blk1, rfl, ?_⟩, fam_append hinv.sfam hs, hinv.wfam⟩,
          world_later_of_blocks hb rfl hl1⟩
        exact hg1.cast (by simp [strongRefs_push, hsr]) rfl
  | sharedAssign i k =>
    simp only [step]
    by_cases hik : i = k
    · simp only [hik, if_true]
      exact ⟨w, rfl, hinv, world_later_refl w⟩
    · simp only [hik, if_false]
      cases hgs : w.getShared i with
      | none => exact ⟨w, rfl, hinv, world_later_refl w⟩
      | some s =>
        cases hgo : w.getShared k with
        | none => exact ⟨w, rfl, hinv, world_later_refl w⟩
        | some o =>
          obtain ⟨hget, hfam, hle⟩ := hinv.shared_slot hgs
          obtain ⟨hgeto, hfamo, hleo⟩ := hinv.shared_slot hgo
          obtain ⟨blk1, h1, hg1, hl1⟩ := shared_assign_fam hfam hfamo hg hle hleo
          simp only [hheap, h1, bind_ok]
          refine ⟨_, rfl, ⟨⟨blk1, rfl, ?_⟩, fam_set i hinv.sfam hfamo, hinv.wfam⟩,
            world_later_of_blocks hb rfl hl1⟩
          refine hg1.cast ?_ rfl
          simp only [strongRefs_set _ hget, slotVal]
          omega
  | sharedMoveAssign i k =>
    simp only [step]
    by_cases hik : i = k
    · simp only [hik, if_true]
      exact ⟨w, rfl, hinv, world_later_refl w⟩
    · simp only [hik, if_false]
      cases hgs : w.getShared i with
      | none => exact ⟨w, rfl, hinv, world_later_refl w⟩
      | some s =>
        cases hgo : w.getShared k with
        | none => exact ⟨w, rfl, hinv, world_later_refl w⟩
        | some o =>
          obtain ⟨hget, hfam, hle⟩ := hinv.shared_slot hgs
          obtain ⟨hgeto, hfamo, hleo⟩ := hinv.shared_slot hgo
          obtain ⟨blk1, h1, hg1, hl1⟩ := shared_moveAssign_fam (o := o) hfam hg hle
          simp only [hheap, h1, bind_ok]
          refine ⟨_, rfl, ⟨⟨blk1, rfl, ?_⟩,
            fam_set k (fam_set i hinv.sfam hfamo) shared_inFamily_null, hinv.wfam⟩,
              world_later_of_blocks hb rfl hl1⟩
          refine hg1.cast ?_ rfl
          have hk : (w.shared.set i (some o))[k]? = some (some o) := by
            rw [List.getElem?_set_ne hik]; exact hgeto
          have hle2 := slotVal_le_slotSum (SharedPtr.refs 0) hk
          have e := strongRefs_set (some o) hget
          simp only [strongRefs_set _ hk, slotVal, shared_refs_null]
          simp only [strongRefs, slotVal] at e hle hleo hle2 ⊢
          omega
  | sharedReset i =>
    simp only [step]
    cases hgs : w.getShared i with
    | none => exact ⟨w, rfl, hinv, world_later_refl w⟩
    | some s =>
      obtain ⟨hget, hfam, hle⟩ := hinv.shared_slot hgs
      obtain ⟨blk1, h1, hg1, hl1⟩ := shared_reset_fam hfam hg hle
      simp only [hheap, h1, bind_ok]
      refine ⟨_, rfl, ⟨⟨blk1, rfl, ?_⟩, fam_set i hinv.sfam shared_inFamily_null, hinv.wfam⟩,
        world_later_of_blocks hb rfl hl1⟩
      exact hg1.cast (by simp [strongRefs_set _ hget, slotVal]) rfl
  | sharedSwap i k =>
    simp only [step]
    cases hgs : w.getShared i with
    | none => exact ⟨w, rfl, hinv, world_later_refl w⟩
    | some s =>
      cases hgo : w.getShared k with
      | none => exact ⟨w, rfl, hinv, world_later_refl w⟩
      | some o =>
        obtain ⟨hget, hfam, hle⟩ := hinv.shared_slot hgs
        obtain ⟨hgeto, hfamo, hleo⟩ := hinv.shared_slot hgo
        refine ⟨_, rfl, ⟨⟨blk, hheap, ?_⟩, fam_set k (fam_set i hinv.sfam hfamo) hfam,
          hinv.wfam⟩, world_later_of_blocks hb hb (later_refl blk)⟩
        refine hg.cast ?_ rfl
        have hlen : i < w.shared.length := by
          by_contra hc
          rw [List.getElem?_eq_none (by omega)] at hget
          cases hget
        have e := strongRefs_set (some o) hget
        by_cases hik : i = k
        · subst hik
          have hso : s = o := by
            rw [hgs] at hgo
            exact Option.some.inj hgo
          subst hso
          have hk : (w.shared.set i (some s))[i]? = some (some s) := by
            rw [List.getElem?_set_self hlen]
          have e2 := strongRefs_set (some s) hk
          simp only [SharedPtr.Swap]
          have e3 : (SharedPtr.mk s.stored_ptr_ s.control_block_) = s := rfl
          rw [e3, e2, e]
          simp only [slotVal]
          simp only [strongRefs] at hle ⊢
          omega
        · have hk : (w.shared.set i (some o))[k]? = some (some o) := by
            rw [List.getElem?_set_ne hik]; exact hgeto
          have hle2 := slotVal_le_slotSum (SharedPtr.refs 0) hk
          have e2 := strongRefs_set (some s) hk
          simp only [SharedPtr.Swap]
          have e3 : (SharedPtr.mk s.stored_ptr_ s.control_block_) = s := rfl
          have e4 : (SharedPtr.mk o.stored_ptr_ o.control_block_) = o := rfl
          rw [e3, e4, e2, e]
          simp only [slotVal]
          simp only [strongRefs, slotVal] at e hle hleo hle2 ⊢
          omega
  | sharedDestroy i =>
    simp only [step]
    cases hgs : w.getShared i with
    | none => exact ⟨w, rfl, hinv, world_later_refl w⟩
    | some s =>
      obtain ⟨hget, hfam, hle⟩ := hinv.shared_slot hgs
      obtain ⟨blk1, h1, hg1, hl1⟩ := shared_destroy_fam hfam hg hle
      simp only [hheap, h1, bind_ok]
      refine ⟨_, rfl, ⟨⟨blk1, rfl, ?_⟩, fam_set_none i hinv.sfam, hinv.wfam⟩,
        world_later_of_blocks hb rfl hl1⟩
      exact hg1.cast (by simp [strongRefs_set _ hget, slotVal]) rfl
  | weakDefault =>
    refine ⟨_, rfl, ⟨⟨blk, hheap, ?_⟩, hinv.sfam, fam_append hinv.wfam weak_inFamily_null⟩,
      world_later_of_blocks hb hb (later_refl blk)⟩
    exact hg.cast rfl (by simp [weakRefs_push])
  | weakOfShared i =>
    simp only [step]
    cases hgs : w.getShared i with
    | none => exact ⟨w, rfl, hinv, world_later_refl w⟩
    | some s =>
      obtain ⟨hget, hfam, hle⟩ := hinv.shared_slot hgs
      obtain ⟨blk1, x, h1, hx, hxr, hg1, hl1⟩ := weak_ofShared_fam hfam hg hle
      simp only [hheap, h1, bind_ok]
      refine ⟨_, rfl, ⟨⟨blk1, rfl, ?_⟩, hinv.sfam, fam_append hinv.wfam hx⟩,
        world_later_of_blocks hb rfl hl1⟩
      exact hg1.cast rfl (by simp [weakRefs_push, hxr])
  | weakCopy j =>
    simp only [step]
    cases hgw : w.getWeak j with
    | none => exact ⟨w, rfl, hinv, world_later_refl w⟩
    | some x =>
      obtain ⟨hget, hfam, hle⟩ := hinv.weak_slot hgw
      obtain ⟨blk1, h1, hg1, hl1⟩ := weak_copy_fam hfam hg hle
      simp only [hheap, h1, bind_ok]
      refine ⟨_, rfl, ⟨⟨blk1, rfl, ?_⟩, hinv.sfam, fam_append hinv.wfam hfam⟩,
        world_later_of_blocks hb rfl hl1⟩
      exact hg1.cast rfl (by simp [weakRefs_push])
  | weakMove j =>
    simp only [step]
    cases hgw : w.getWeak j with
    | none => exact ⟨w, rfl, hinv, world_later_refl w⟩
    | some x =>
      obtain ⟨hget, hfam, hle⟩ := hinv.weak_slot hgw
      refine ⟨_, rfl, ⟨⟨blk, hheap, ?_⟩, hinv.sfam,
        fam_append (fam_set j hinv.wfam weak_inFamily_null) hfam⟩,
          world_later_of_blocks hb hb (later_refl blk)⟩
      refine hg.cast rfl ?_
      simp only [WeakPtr.move, weakRefs_push, weakRefs_set _ hget, slotVal]
      have : (WeakPtr.mk x.stored_ptr_ x.control_block_).refs 0 = x.refs 0 := rfl
      have h0 : WeakPtr.refs 0 ⟨none, none⟩ = 0 := rfl
      omega
  | weakAssign j k =>
    simp only [step]
    by_cases hjk : j = k
    · simp only [hjk, if_true]
      exact ⟨w, rfl, hinv, world_later_refl w⟩
    · simp only [hjk, if_false]
      cases hgw : w.getWeak j with
      | none => exact ⟨w, rfl, hinv, world_later_refl w⟩
      | some x =>
        cases hgo : w.getWeak k with
        | none => exact ⟨w, rfl, hinv, world_later_refl w⟩
        | some o =>
          obtain ⟨hget, hfam, hle⟩ := hinv.weak_slot hgw
          obtain ⟨hgeto, hfamo, hleo⟩ := hinv.weak_slot hgo
          obtain ⟨blk1, h1, hg1, hl1⟩ := weak_assign_fam hfam hfamo hg hle hleo
          simp only [hheap, h1, bind_ok]
          refine ⟨_, rfl, ⟨⟨blk1, rfl, ?_⟩, hinv.sfam, fam_set j hinv.wfam hfamo⟩,
            world_later_of_blocks hb rfl hl1⟩
          refine hg1.cast rfl ?_
          simp only [weakRefs_set _ hget, slotVal]
          omega
  | weakMoveAssign j k =>
    simp only [step]
    by_cases hjk : j = k
    · simp only [hjk, if_true]
      exact ⟨w, rfl, hinv, world_later_refl w⟩
    · simp only [hjk, if_false]
      cases hgw : w.getWeak j with
      | none => exact ⟨w, rfl, hinv, world_later_refl w⟩
      | some x =>
        cases hgo : w.getWeak k with
        | none => exact ⟨w, rfl, hinv, world_later_refl w⟩
        | some o =>
          obtain ⟨hget, hfam, hle⟩ := hinv.weak_slot hgw
          obtain ⟨hgeto, hfamo, hleo⟩ := hinv.weak_slot hgo
          obtain ⟨blk1, h1, hg1, hl1⟩ := weak_moveAssign_fam (o := o) hfam hg hle
          simp only [hheap, h1, bind_ok]
          refine ⟨_, rfl, ⟨⟨blk1, rfl, ?_⟩, hinv.sfam,
            fam_set k (fam_set j hinv.wfam hfamo) weak_inFamily_null⟩,
              world_later_of_blocks hb rfl hl1⟩
          refine hg1.cast rfl ?_
          have hk : (w.weak.set j (some o))[k]? = some (some o) := by
            rw [List.getElem?_set_ne hjk]; exact hgeto
          have hle2 := slotVal_le_slotSum (WeakPtr.refs 0) hk
          have e := weakRefs_set (some o) hget
          simp only [weakRefs_set _ hk, slotVal, weak_refs_null]
          simp only [weakRefs, slotVal] at e hle hleo hle2 ⊢
          omega
  | weakAssignShared j i =>
    simp only [step]
    cases hgw : w.getWeak j with
    | none => exact ⟨w, rfl, hinv, world_later_refl w⟩
    | some x =>
      cases hgs : w.getShared i with
      | none => exact ⟨w, rfl, hinv, world_later_refl w⟩
      | some s =>
        obtain ⟨hget, hfam, hle⟩ := hinv.weak_slot hgw
        obtain ⟨hgets, hfams, hles⟩ := hinv.shared_slot hgs
        obtain ⟨blk1, y, h1, hy, hyr, hg1, hl1⟩ := weak_assignShared_fam hfam hfams hg hle hles
        simp only [hheap, h1, bind_ok]
        refine ⟨_, rfl, ⟨⟨blk1, rfl, ?_⟩, hinv.sfam, fam_set j hinv.wfam hy⟩,
          world_later_of_blocks hb rfl hl1⟩
        refine hg1.cast rfl ?_
        simp only [weakRefs_set _ hget, slotVal, hyr]
        omega
  | weakReset j =>
    simp only [step]
    cases hgw : w.getWeak j with
    | none => exact ⟨w, rfl, hinv, world_later_refl w⟩
    | some x =>
      obtain ⟨hget, hfam, hle⟩ := hinv.weak_slot hgw
      obtain ⟨blk1, h1, hg1, hl1⟩ := weak_reset_fam hfam hg hle
      simp only [hheap, h1, bind_ok]
      refine ⟨_, rfl, ⟨⟨blk1, rfl, ?_⟩, hinv.sfam, fam_set j hinv.wfam weak_inFamily_null⟩,
        world_later_of_blocks hb rfl hl1⟩
      exact hg1.cast rfl (by simp [weakRefs_set _ hget, slotVal])
  | weakSwap j k =>
    simp only [step]
    cases hgw : w.getWeak j with
    | none => exact ⟨w, rfl, hinv, world_later_refl w⟩
    | some x =>
      cases hgo : w.getWeak k with
      | none => exact ⟨w, rfl, hinv, world_later_refl w⟩
      | some o =>
        obtain ⟨hget, hfam, hle⟩ := hinv.weak_slot hgw
        obtain ⟨hgeto, hfamo, hleo⟩ := hinv.weak_slot hgo
        refine ⟨_, rfl, ⟨⟨blk, hheap, ?_⟩, hinv.sfam,
          fam_set k (fam_set j hinv.wfam hfamo) hfam⟩,
          world_later_of_blocks hb hb (later_refl blk)⟩
        refine hg.cast rfl ?_
        have hlen : j < w.weak.length := by
          by_contra hc
          rw [List.getElem?_eq_none (by omega)] at hget
          cases hget
        have e := weakRefs_set (some o) hget
        by_cases hjk : j = k
        · subst hjk
          have hxo : x = o := by
            rw [hgw] at hgo
            exact Option.some.inj hgo
          subst hxo
          have hk : (w.weak.set j (some x))[j]? = some (some x) := by
            rw [List.getElem?_set_self hlen]
          have e2 := weakRefs_set (some x) hk
          simp only [WeakPtr.Swap]
          have e3 : (WeakPtr.mk x.stored_ptr_ x.control_block_) = x := rfl
          rw [e3, e2, e]
          simp only [slotVal]
          simp only [weakRefs] at hle ⊢
          omega
        · have hk : (w.weak.set j (some o))[k]? = some (some o) := by
            rw [List.getElem?_set_ne hjk]; exact hgeto
          have hle2 := slotVal_le_slotSum (WeakPtr.refs 0) hk
          have e2 := weakRefs_set (some x) hk
          simp only [WeakPtr.Swap]
          have e3 : (WeakPtr.mk x.stored_ptr_ x.control_block_) = x := rfl
          have e4 : (WeakPtr.mk o.stored_ptr_ o.control_block_) = o := rfl
          rw [e3, e4, e2, e]
          simp only [slotVal]
          simp only [weakRefs, slotVal] at e hle hleo hle2 ⊢
          omega
  | weakDestroy j =>
    simp only [step]
    cases hgw : w.getWeak j with
    | none => exact ⟨w, rfl, hinv, world_later_refl w⟩
    | some x =>
      obtain ⟨hget, hfam, hle⟩ := hinv.weak_slot hgw
      obtain ⟨blk1, h1, hg1, hl1⟩ := weak_destroy_fam hfam hg hle
      simp only [hheap, h1, bind_ok]
      refine ⟨_, rfl, ⟨⟨blk1, rfl, ?_⟩, hinv.sfam, fam_set_none j hinv.wfam⟩,
        world_later_of_blocks hb rfl hl1⟩
      exact hg1.cast rfl (by simp [weakRefs_set _ hget, slotVal])
  | weakLock j =>
    simp only [step]
    cases hgw : w.getWeak j with
    | none => exact ⟨w, rfl, hinv, world_later_refl w⟩
    | some x =>
      obtain ⟨hget, hfam, hle⟩ := hinv.weak_slot hgw
      rcases weak_lock_fam hfam hg hle with ⟨-, h1⟩ | ⟨-, -, blk1, s, h1, hs, hsr, -, hg1, hl1⟩
      · simp only [hheap, h1, bind_ok]
        refine ⟨_, rfl, ⟨⟨blk, rfl, ?_⟩, fam_append hinv.sfam shared_inFamily_null,
          hinv.wfam⟩, world_later_of_blocks hb rfl (later_refl blk)⟩
        exact hg.cast (by simp [strongRefs_push]) rfl
      · simp only [hheap, h1, bind_ok]
        refine ⟨_, rfl, ⟨⟨blk1, rfl, ?_⟩, fam_append hinv.sfam hs, hinv.wfam⟩,
          world_later_of_blocks hb rfl hl1⟩
        exact hg1.cast (by simp [strongRefs_push, hsr]) rfl

/-! ## Programs -/

theorem ofPtr_inv (esft : Bool) (n : Nat) (a : Fin n) :
    ∃ objs w0, World.ofPtr esft n a = .ok w0 ∧ Inv objs a esft w0 ∧
      w0.shared = [some ⟨some a, some 0⟩] ∧ w0.weak = [] := by
  have ha : (a : Nat) < n := a.isLt
  cases esft
  · refine ⟨_, _, rfl, ⟨⟨_, rfl, ?_⟩, ?_, ?_⟩, rfl, rfl⟩
    · constructor <;>
        simp [Heap.fresh, selfWeak, PointerControlBlock, strongRefs, weakRefs, slotSum,
          slotVal, SharedPtr.refs, List.getElem?_replicate, ha]
    · intro s hs
      simp at hs
      subst hs
      exact shared_inFamily_mk a
    · intro x hx
      simp at hx
  · have h0 : World.ofPtr true n a = .ok
        { heap := { blocks := [{ PointerControlBlock (some a) with weak_counter_ := 1 }],
                    objects := (List.replicate n { weak_this_ := WeakPtr.null }).set a
                      { weak_this_ := ⟨some a, some 0⟩ } },
          shared := [some ⟨some a, some 0⟩], weak := [] } := by
      simp [World.ofPtr, SharedPtr.ofPtr, SharedPtr.InitWeakThis, Heap.fresh,
        List.getElem?_replicate, ha, WeakPtr.ofShared, WeakPtr.toBool, Heap.WeakIncrement,
        Heap.modify, PointerControlBlock, WeakPtr.moveAssign, WeakPtr.move, WeakPtr.Swap,
        WeakPtr.destroy, WeakPtr.null]
    refine ⟨_, _, h0, ⟨⟨_, rfl, ?_⟩, ?_, ?_⟩, rfl, rfl⟩
    · constructor <;>
        simp [selfWeak, PointerControlBlock, strongRefs, weakRefs, slotSum,
          slotVal, SharedPtr.refs, ha]
    · intro s hs
      simp at hs
      subst hs
      exact shared_inFamily_mk a
    · intro x hx
      simp at hx

theorem ofMakeShared_inv (esft : Bool) (n : Nat) :
    ∃ objs w0, World.ofMakeShared esft n = .ok w0 ∧ Inv objs n esft w0 ∧
      w0.shared = [some ⟨some n, some 0⟩] ∧ w0.weak = [] := by
  cases esft
  · have h0 : World.ofMakeShared false n = .ok
        { heap := { blocks := [ObjectControlBlock n],
                    objects := List.replicate n { weak_this_ := WeakPtr.null } ++
                      [{ weak_this_ := WeakPtr.null }] },
          shared := [some ⟨some n, some 0⟩], weak := [] } := by
      simp [World.ofMakeShared, MakeShared, Heap.fresh]
    refine ⟨_, _, h0, ⟨⟨_, rfl, ?_⟩, ?_, ?_⟩, rfl, rfl⟩
    · constructor <;>
        simp [selfWeak, ObjectControlBlock, strongRefs, weakRefs, slotSum,
          slotVal, SharedPtr.refs, List.getElem?_append_right]
    · intro s hs
      simp at hs
      subst hs
      exact shared_inFamily_mk n
    · intro x hx
      simp at hx
  · have h0 : World.ofMakeShared true n = .ok
        { heap := { blocks := [{ ObjectControlBlock n with weak_counter_ := 1 }],
                    objects := List.replicate n { weak_this_ := WeakPtr.null } ++
                      [{ weak_this_ := ⟨some n, some 0⟩ }] },
          shared := [some ⟨some n, some 0⟩], weak := [] } := by
      simp [World.ofMakeShared, MakeShared, SharedPtr.InitWeakThis, Heap.fresh,
        List.getElem?_append_right, WeakPtr.ofShared, WeakPtr.toBool, Heap.WeakIncrement,
        Heap.modify, ObjectControlBlock, WeakPtr.moveAssign, WeakPtr.move, WeakPtr.Swap,
        WeakPtr.destroy, WeakPtr.null]
    refine ⟨_, _, h0, ⟨⟨_, rfl, ?_⟩, ?_, ?_⟩, rfl, rfl⟩
    · constructor <;>
        simp [selfWeak, ObjectControlBlock, strongRefs, weakRefs, slotSum,
          slotVal, SharedPtr.refs, List.getElem?_append_right]
    · intro s hs
      simp at hs
      subst hs
      exact shared_inFamily_mk n
    · intro x hx
      simp at hx

theorem Origin.world_inv (o : Origin) :
    ∃ objs w0, o.world = .ok w0 ∧ Inv objs o.addr o.esft w0 ∧
      w0.shared = [some ⟨some o.addr, some 0⟩] ∧ w0.weak = [] := by
  cases o with
  | ofPtr esft n a => exact ofPtr_inv esft n a
  | makeShared esft n => exact ofMakeShared_inv esft n

theorem world_later_trans {w w1 w2 : World} {objs a bound}
    (hi : Inv objs a bound w1) (h1 : World.Later w w1) (h2 : World.Later w1 w2) :
    World.Later w w2 := by
  obtain ⟨blk, hheap, -⟩ := hi.heap
  intro b b2 hb hb2
  have hb1 : w1.heap.blocks = [blk] := by rw [hheap]
  exact later_trans (h1 b blk hb hb1) (h2 blk b2 hb1 hb2)

theorem run_inv {objs a bound} (ops : List Op) {w : World} (hinv : Inv objs a bound w) :
    ∃ w1, run w ops = .ok w1 ∧ Inv objs a bound w1 ∧ World.Later w w1 := by
  induction ops generalizing w with
  | nil => exact ⟨w, rfl, hinv, world_later_refl w⟩
  | cons op ops ih =>
    obtain ⟨w1, h1, hi1, hl1⟩ := step_inv hinv op
    obtain ⟨w2, h2, hi2, hl2⟩ := ih hi1
    exact ⟨w2, by simp only [run, h1, bind_ok, h2], hi2, world_later_trans hi1 hl1 hl2⟩

theorem program_inv (o : Origin) (ops : List Op) :
    ∃ objs w, program o ops = .ok w ∧ Inv objs o.addr o.esft w := by
  obtain ⟨objs, w0, h0, hi0, -, -⟩ := o.world_inv
  obtain ⟨w, h, hi, -⟩ := run_inv ops hi0
  exact ⟨objs, w, by simp only [program, h0, bind_ok, h], hi⟩

/-! ## Claims -/

theorem program_ok_inv {o : Origin} {ops : List Op} {w : World} (h : program o ops = .ok w) :
    ∃ objs, Inv objs o.addr o.esft w := by
  obtain ⟨objs, w1, h1, hi⟩ := program_inv o ops
  rw [h] at h1
  cases h1
  exact ⟨objs, hi⟩

theorem Inv.useCount {objs a bound w} (hinv : Inv objs a bound w) {i : Nat} {s : SharedPtr}
    (hs : w.getShared i = some s) (hne : s.toBool = true) :
    s.control_block_ = some 0 ∧ s.UseCount w.heap = .ok (strongRefs 0 w.shared) := by
  obtain ⟨blk, hheap, hg⟩ := hinv.heap
  obtain ⟨-, hfam, hle⟩ := hinv.shared_slot hs
  rcases shared_inFamily_cases hfam with rfl | ⟨p, rfl⟩
  · simp [SharedPtr.toBool, SharedPtr.Get, SharedPtr.null] at hne
  · simp at hle
    have hf := hg.live (by omega)
    have hc := hg.strong hf
    refine ⟨rfl, ?_⟩
    simp [SharedPtr.UseCount, SharedPtr.toBool, SharedPtr.Get, Heap.GetCount, Heap.deref,
      hheap, hf, hc]

theorem step_sharedDestroy_slots {w w1 : World} {i : Nat} {s : SharedPtr}
    (hs : w.getShared i = some s) (h : step w (.sharedDestroy i) = .ok w1) :
    w1.shared = w.shared.set i none ∧ w1.weak = w.weak := by
  simp only [step, hs] at h
  cases hd : s.destroy w.heap with
  | error e => simp [hd] at h
  | ok h1 =>
    simp only [hd, bind_ok, pure_eq_ok, Except.ok.injEq] at h
    subst h
    exact ⟨rfl, rfl⟩

/-- C2: in a state reached by a program, let slot `i` hold the only live `SharedPtr`
that references the control block while at least one live `WeakPtr` variable
references it.  The object has not been destroyed so far.  Destroying the handle calls
`ObjectDelete` (the count of calls becomes one) and leaves the block allocated.
Whatever operations follow, they run without a fault, the count of `ObjectDelete`
calls stays one, and the block is deallocated exactly when no live `WeakPtr` variable
references it any more. -/
theorem C2_last_shared_destroys_object_once (o : Origin) (pre post : List Op) (i : Nat)
    (w : World) (s : SharedPtr) (hw : program o pre = .ok w)
    (hs : w.getShared i = some s) (href : s.control_block_ = some 0)
    (hlast : strongRefs 0 w.shared = 1) (hweak : 1 ≤ weakRefs 0 w.weak) :
    ∃ b w1 b1 w2 b2, w.heap.blocks = [b] ∧ b.objectDeletes = 0 ∧
      step w (.sharedDestroy i) = .ok w1 ∧ w1.heap.blocks = [b1] ∧
      b1.objectDeletes = 1 ∧ b1.freed = false ∧
      run w1 post = .ok w2 ∧ w2.heap.blocks = [b2] ∧
      b2.objectDeletes = 1 ∧ (b2.freed = true ↔ weakRefs 0 w2.weak = 0) := by
  obtain ⟨objs, hinv⟩ := program_ok_inv hw
  obtain ⟨b, hheap, hg⟩ := hinv.heap
  obtain ⟨w1, h1, hinv1, -⟩ := step_inv hinv (.sharedDestroy i)
  obtain ⟨hsh, hwk⟩ := step_sharedDestroy_slots hs h1
  obtain ⟨b1, hheap1, hg1⟩ := hinv1.heap
  obtain ⟨w2, h2, hinv2, hl2⟩ := run_inv post hinv1
  obtain ⟨b2, hheap2, hg2⟩ := hinv2.heap
  have hS1 : strongRefs 0 w1.shared = 0 := by
    rw [hsh, strongRefs_set none (World.getShared_eq hs)]
    simp [SharedPtr.refs, href, hlast, slotVal]
  have hd := hg.deletes
  have hd1 := hg1.deletes
  have hd2 := hg2.deletes
  have hf1 := hg1.freed
  have hf2 := hg2.freed
  have hb1 : w1.heap.blocks = [b1] := by rw [hheap1]
  have hb2 : w2.heap.blocks = [b2] := by rw [hheap2]
  have hlater := (hl2 b1 b2 hb1 hb2).deletes
  rw [hS1] at hd1 hf1
  rw [hwk] at hf1
  rw [hlast] at hd
  have hb1d : b1.objectDeletes = 1 := by simpa using hd1
  have hb2d : b2.objectDeletes = 1 := by omega
  have hS2 : strongRefs 0 w2.shared = 0 := by omega
  refine ⟨b, w1, b1, w2, b2, by rw [hheap], by simpa using hd, h1, hb1, hb1d, ?_, h2, hb2,
    hb2d, ?_⟩
  · cases hfb : b1.freed
    · rfl
    · have := hf1.1 hfb
      omega
  · rw [hf2, hS2]
    simp

theorem step_weakDestroy_slots {w w1 : World} {j : Nat} {x : WeakPtr}
    (hx : w.getWeak j = some x) (h : step w (.weakDestroy j) = .ok w1) :
    w1.weak = w.weak.set j none ∧ w1.shared = w.shared := by
  simp only [step, hx] at h
  cases hd : x.destroy w.heap with
  | error e => simp [hd] at h
  | ok h1 =>
    simp only [hd, bind_ok, pure_eq_ok, Except.ok.injEq] at h
    subst h
    exact ⟨rfl, rfl⟩

theorem step_weakReset_slots {objs a bound w} (hinv : Inv objs a bound w) {w1 : World}
    {j : Nat} {x : WeakPtr} (hx : w.getWeak j = some x)
    (h : step w (.weakReset j) = .ok w1) :
    w1.weak = w.weak.set j (some WeakPtr.null) ∧ w1.shared = w.shared := by
  obtain ⟨blk, hheap, hg⟩ := hinv.heap
  obtain ⟨-, hfam, hle⟩ := hinv.weak_slot hx
  obtain ⟨blk1, hr, -, -⟩ := weak_reset_fam hfam hg hle
  simp only [step, hx, hheap, hr, bind_ok, pure_eq_ok, Except.ok.injEq] at h
  subst h
  exact ⟨rfl, rfl⟩

/-- C3: whatever operations a program performs on the handles of its family, every
state is reached without a fault (in particular no operation touches or deallocates a
block that has been deallocated), the control block is deallocated in exactly those
states in which no live `SharedPtr` and no live `WeakPtr` variable references it, and
once deallocated it stays so.  In particular, when no live `SharedPtr` references the
block, destroying or resetting the last `WeakPtr` that references it deallocates the
block, and when no live `WeakPtr` references it, destroying the last `SharedPtr` that
references it deallocates the block. -/
theorem C3_block_freed_exactly_when_unreferenced (o : Origin) (pre post : List Op) :
    ∃ w b w1 b1, program o pre = .ok w ∧ w.heap.blocks = [b] ∧
      (b.freed = true ↔ strongRefs 0 w.shared = 0 ∧ weakRefs 0 w.weak = 0) ∧
      run w post = .ok w1 ∧ w1.heap.blocks = [b1] ∧
      (b1.freed = true ↔ strongRefs 0 w1.shared = 0 ∧ weakRefs 0 w1.weak = 0) ∧
      (b.freed = true → b1.freed = true) ∧
      (∀ j x, w.getWeak j = some x → x.control_block_ = some 0 →
        strongRefs 0 w.shared = 0 → weakRefs 0 w.weak = 1 →
        b.freed = false ∧
        ∃ wd bd wr br, step w (.weakDestroy j) = .ok wd ∧ wd.heap.blocks = [bd] ∧
          bd.freed = true ∧ step w (.weakReset j) = .ok wr ∧ wr.heap.blocks = [br] ∧
          br.freed = true) ∧
      (∀ i s, w.getShared i = some s → s.control_block_ = some 0 →
        strongRefs 0 w.shared = 1 → weakRefs 0 w.weak = 0 →
        b.freed = false ∧
        ∃ wd bd, step w (.sharedDestroy i) = .ok wd ∧ wd.heap.blocks = [bd] ∧
          bd.freed = true) := by
  obtain ⟨objs, w, h, hinv⟩ := program_inv o pre
  obtain ⟨b, hheap, hg⟩ := hinv.heap
  obtain ⟨w1, h1, hinv1, hl1⟩ := run_inv post hinv
  obtain ⟨b1, hheap1, hg1⟩ := hinv1.heap
  have hb : w.heap.blocks = [b] := by rw [hheap]
  have hb1 : w1.heap.blocks = [b1] := by rw [hheap1]
  refine ⟨w, b, w1, b1, h, hb, hg.freed, h1, hb1, hg1.freed, (hl1 b b1 hb hb1).freed,
    fun j x hx href hS hW => ⟨hg.live (by omega), ?_⟩,
    fun i s hs href hS hW => ⟨hg.live (by omega), ?_⟩⟩
  · obtain ⟨wd, hd, hinvd, -⟩ := step_inv hinv (.weakDestroy j)
    obtain ⟨wr, hr, hinvr, -⟩ := step_inv hinv (.weakReset j)
    obtain ⟨hdw, hds⟩ := step_weakDestroy_slots hx hd
    obtain ⟨hrw, hrs⟩ := step_weakReset_slots hinv hx hr
    obtain ⟨bd, hheapd, hgd⟩ := hinvd.heap
    obtain ⟨br, hheapr, hgr⟩ := hinvr.heap
    have hxr : x.refs 0 = 1 := by simp [WeakPtr.refs, href]
    refine ⟨wd, bd, wr, br, hd, by rw [hheapd], hgd.freed.2 ⟨by rw [hds, hS], ?_⟩, hr,
      by rw [hheapr], hgr.freed.2 ⟨by rw [hrs, hS], ?_⟩⟩
    · rw [hdw, weakRefs_set none (World.getWeak_eq hx), hW, hxr]
      rfl
    · rw [hrw, weakRefs_set _ (World.getWeak_eq hx), hW, hxr]
      rfl
  · obtain ⟨wd, hd, hinvd, -⟩ := step_inv hinv (.sharedDestroy i)
    obtain ⟨hds, hdw⟩ := step_sharedDestroy_slots hs hd
    obtain ⟨bd, hheapd, hgd⟩ := hinvd.heap
    have hsr : s.refs 0 = 1 := by simp [SharedPtr.refs, href]
    refine ⟨wd, bd, hd, by rw [hheapd], hgd.freed.2 ⟨?_, by rw [hdw, hW]⟩⟩
    rw [hds, strongRefs_set none (World.getShared_eq hs), hS, hsr]
    rfl

theorem Inv.blocks {objs a bound w} (hinv : Inv objs a bound w) :
    ∃ b, w.heap.blocks = [b] := by
  obtain ⟨b, hheap, -⟩ := hinv.heap
  exact ⟨b, by rw [hheap]⟩

/-- Promotion of a live weak variable in a state that satisfies the invariant. -/
theorem Inv.promote {objs a bound w} (hinv : Inv objs a bound w) {b : ControlBlock}
    (hb : w.heap.blocks = [b]) {j : Nat} {x : WeakPtr} (hx : w.getWeak j = some x) :
    ∃ e, x.Expired w.heap = .ok e ∧
      (e = true ↔ x.control_block_ = none ∨ b.counter_ = 0) ∧
      (e = true ↔ x.control_block_ = none ∨ strongRefs 0 w.shared = 0) ∧
      (e = true → SharedPtr.ofWeak w.heap x = .error .badWeakPtr) ∧
      (e = false → SharedPtr.ofWeak w.heap x =
        .ok ({ w.heap with blocks := [{ b with counter_ := b.counter_ + 1 }] },
             ⟨x.stored_ptr_, x.control_block_⟩)) := by
  obtain ⟨blk, hheap, hg⟩ := hinv.heap
  have hbb : blk = b := by
    rw [hheap] at hb
    simpa using hb
  subst hbb
  obtain ⟨-, hfam, hle⟩ := hinv.weak_slot hx
  rcases weak_inFamily_cases hfam with rfl | ⟨p, rfl⟩
  · refine ⟨true, rfl, by simp [WeakPtr.null], by simp [WeakPtr.null], fun _ => rfl, ?_⟩
    intro h
    cases h
  · have hW : 1 ≤ weakRefs 0 w.weak := by simpa using hle
    have hf := hg.live (by omega)
    have hc := hg.strong hf
    have he := weak_expired_ref (some p) hg hW
    rw [← hheap] at he
    refine ⟨decide (strongRefs 0 w.shared = 0), he, ?_, by simp, ?_, ?_⟩
    · simp [hc]
    · intro h
      simp only [SharedPtr.ofWeak, he, bind_ok, h]
      rfl
    · intro h
      simp only [decide_eq_false_iff_not] at h
      rw [hheap] at he
      simp [SharedPtr.ofWeak, he, h, SharedPtr.toBool, SharedPtr.Get, Heap.increment,
        Heap.modify, hheap, hf]

/-- Promotion in a family: in every state reached by a program and for every live `WeakPtr` variable `x`,
`Expired()` returns a value `e`, which is `true` exactly when `x` is null or the strong
count of its block is zero.  If `e` is `true`, the explicit construction
`SharedPtr<T>(x)` raises `BadWeakPtr` and the program goes on in the unchanged state.
If `e` is `false` it does not raise: the new handle has the stored pointer and the
control block of `x`, and the heap changes by one increment of the strong count. -/
theorem promotion_raises_iff_expired (o : Origin) (ops : List Op) :
    ∃ w b, program o ops = .ok w ∧ w.heap.blocks = [b] ∧
      ∀ j x, w.getWeak j = some x →
        ∃ e, x.Expired w.heap = .ok e ∧
          (e = true ↔ x.control_block_ = none ∨ b.counter_ = 0) ∧
          (e = true → SharedPtr.ofWeak w.heap x = .error .badWeakPtr ∧
            step w (.sharedOfWeak j) = .ok w) ∧
          (e = false → SharedPtr.ofWeak w.heap x =
            .ok ({ w.heap with blocks := [{ b with counter_ := b.counter_ + 1 }] },
                 ⟨x.stored_ptr_, x.control_block_⟩)) := by
  obtain ⟨objs, w, h, hinv⟩ := program_inv o ops
  obtain ⟨b, hb⟩ := hinv.blocks
  refine ⟨w, b, h, hb, fun j x hx => ?_⟩
  obtain ⟨e, he, hiff, -, hraise, hok⟩ := hinv.promote hb hx
  refine ⟨e, he, hiff, fun h => ⟨hraise h, ?_⟩, hok⟩
  simp only [step, hx, hraise h]
  rfl

theorem step_weakOfShared_slots {w w1 : World} {i p : Nat}
    (hs : w.getShared i = some ⟨some p, some 0⟩) (h : step w (.weakOfShared i) = .ok w1) :
    w1.weak = w.weak ++ [some ⟨some p, some 0⟩] ∧ w1.shared = w.shared := by
  simp only [step, hs, WeakPtr.ofShared, WeakPtr.toBool] at h
  cases hd : w.heap.WeakIncrement (some 0) with
  | error e => simp [hd] at h
  | ok h1 =>
    simp [hd] at h
    subst h
    exact ⟨rfl, rfl⟩

/-- Locking in a family: in every state reached by a program, `Lock()` on a live `WeakPtr` variable
returns without a fault.  On an expired one the result is an empty handle (`Get()`
null, `UseCount()` zero) and the heap is unchanged; otherwise the result has the stored
pointer and the control block of the weak handle and the heap changes by one increment
of the strong count.  A `WeakPtr` created from a live non-empty `SharedPtr` `s` is not
expired, and its `Lock()` returns a handle that compares equal to `s` and has the
control block of `s`, with the strong count raised by one. -/
theorem lock_total (o : Origin) (ops : List Op) :
    ∃ w b, program o ops = .ok w ∧ w.heap.blocks = [b] ∧
      (∀ j x, w.getWeak j = some x →
        ∃ e, x.Expired w.heap = .ok e ∧
          (e = true → x.Lock w.heap = .ok (w.heap, SharedPtr.null) ∧
            SharedPtr.null.Get = none ∧ SharedPtr.null.UseCount w.heap = .ok 0) ∧
          (e = false → x.Lock w.heap =
            .ok ({ w.heap with blocks := [{ b with counter_ := b.counter_ + 1 }] },
                 ⟨x.stored_ptr_, x.control_block_⟩))) ∧
      (∀ i s, w.getShared i = some s → s.toBool = true →
        ∃ w1 x b1 h2 t, step w (.weakOfShared i) = .ok w1 ∧
          w1.getWeak w.weak.length = some x ∧ w1.heap.blocks = [b1] ∧
          x.Expired w1.heap = .ok false ∧
          x.Lock w1.heap = .ok (h2, t) ∧ t.eq s = true ∧
          t.control_block_ = s.control_block_ ∧
          h2 = { w1.heap with blocks := [{ b1 with counter_ := b1.counter_ + 1 }] }) := by
  obtain ⟨objs, w, h, hinv⟩ := program_inv o ops
  obtain ⟨b, hb⟩ := hinv.blocks
  refine ⟨w, b, h, hb, fun j x hx => ?_, fun i s hs hne => ?_⟩
  · obtain ⟨e, he, -, -, hraise, hok⟩ := hinv.promote hb hx
    refine ⟨e, he, fun h => ⟨?_, rfl, rfl⟩, fun h => ?_⟩
    · simp only [WeakPtr.Lock, he, bind_ok, h]
      rfl
    · simp only [WeakPtr.Lock, he, bind_ok, h, hok h]
      rfl
  · obtain ⟨blk, hheap, hg⟩ := hinv.heap
    obtain ⟨-, hfam, hle⟩ := hinv.shared_slot hs
    rcases shared_inFamily_cases hfam with rfl | ⟨p, rfl⟩
    · simp [SharedPtr.toBool, SharedPtr.Get, SharedPtr.null] at hne
    · obtain ⟨w1, h1, hinv1, -⟩ := step_inv hinv (.weakOfShared i)
      have hS : 1 ≤ strongRefs 0 w.shared := by simpa using hle
      obtain ⟨hwk, hsh⟩ := step_weakOfShared_slots hs h1
      have hx1 : w1.getWeak w.weak.length = some ⟨some p, some 0⟩ := by
        simp [hwk, World.getWeak]
      obtain ⟨b1, hb1⟩ := hinv1.blocks
      obtain ⟨e, he, -, hiff, -, hok⟩ := hinv1.promote hb1 hx1
      have hef : e = false := by
        cases e
        · rfl
        · have := hiff.1 rfl
          rw [hsh] at this
          simp at this
          omega
      subst hef
      refine ⟨w1, _, b1, _, _, h1, hx1, hb1, he, ?_, ?_, rfl, rfl⟩
      · simp only [WeakPtr.Lock, he, bind_ok, hok rfl]
        rfl
      · simp [SharedPtr.eq, SharedPtr.Get]

/-- The back-reference of the managed object, read in a state that satisfies the
invariant. -/
theorem Inv.weak_this {objs a bound w} (hinv : Inv objs a bound w) :
    w.heap.weak_this_ (some a) = .ok (selfWeak a bound) := by
  obtain ⟨blk, hheap, hg⟩ := hinv.heap
  simp [Heap.weak_this_, hheap, hg.obj]

/-- The round trip when the test `std::is_convertible_v<T*, ESFTBase*>` holds for the
element type of the handle: let the first handle `s` of a family be created by `SharedPtr<T> s(ptr)` or by
`MakeShared<T>()` for a type `T` that derives from `EnableSharedFromThis`.  Right after
the construction, and after any operations of the program for as long as a live handle
references the block, `SharedFromThis()` on the managed object returns without a fault
a handle that compares equal to `s` and has the control block of `s`, and the heap
changes by one increment of the strong count. -/
theorem shared_from_this_round_trip (o : Origin) (ho : o.esft = true) (ops : List Op) :
    ∃ w0 s b0 t0 w b, o.world = .ok w0 ∧ w0.shared = [some s] ∧ s.Get = some o.addr ∧
      w0.heap.blocks = [b0] ∧
      SharedFromThis w0.heap (some o.addr) =
        .ok ({ w0.heap with blocks := [{ b0 with counter_ := b0.counter_ + 1 }] }, t0) ∧
      t0.eq s = true ∧ t0.control_block_ = s.control_block_ ∧
      program o ops = .ok w ∧ w.heap.blocks = [b] ∧
      (1 ≤ strongRefs 0 w.shared →
        ∃ t, SharedFromThis w.heap (some o.addr) =
          .ok ({ w.heap with blocks := [{ b with counter_ := b.counter_ + 1 }] }, t) ∧
          t.eq s = true ∧ t.control_block_ = s.control_block_) := by
  have key : ∀ {objs : List Object} {w : World}, Inv objs o.addr o.esft w →
      1 ≤ strongRefs 0 w.shared → ∀ b, w.heap.blocks = [b] →
      SharedFromThis w.heap (some o.addr) =
        .ok ({ w.heap with blocks := [{ b with counter_ := b.counter_ + 1 }] },
          ⟨some o.addr, some 0⟩) := by
    intro objs w hinv hS b hb
    obtain ⟨blk, hheap, hg⟩ := hinv.heap
    have hbb : blk = b := by
      rw [hheap] at hb
      simpa using hb
    subst hbb
    have hf := hg.live (by omega)
    have hc := hg.strong hf
    have hne : ¬ strongRefs 0 w.shared = 0 := by omega
    have hwt := hinv.weak_this
    rw [ho] at hwt
    simp only [SharedFromThis, hwt, bind_ok]
    simp [selfWeak, SharedPtr.ofWeak, WeakPtr.Expired, WeakPtr.toBool, Heap.GetCount,
      Heap.deref, hheap, hf, hc, hne, SharedPtr.toBool, SharedPtr.Get, Heap.increment,
      Heap.modify]
  obtain ⟨objs, w0, h0, hi0, hs0, -⟩ := o.world_inv
  obtain ⟨w, h, hi, -⟩ := run_inv ops hi0
  obtain ⟨b0, hb0⟩ := hi0.blocks
  obtain ⟨b, hb⟩ := hi.blocks
  have hS0 : 1 ≤ strongRefs 0 w0.shared := by
    rw [hs0]
    simp [strongRefs, slotSum, slotVal]
  refine ⟨w0, ⟨some o.addr, some 0⟩, b0, ⟨some o.addr, some 0⟩, w, b, h0, hs0, rfl, hb0,
    key hi0 hS0 b0 hb0, by simp [SharedPtr.eq], rfl,
    by simp only [program, h0, bind_ok, h], hb, fun hS => ?_⟩
  exact ⟨⟨some o.addr, some 0⟩, key hi hS b hb, by simp [SharedPtr.eq], rfl⟩

/-- C8 as stated fails: on an object that has never been wrapped by a `SharedPtr`,
`SharedFromThis()` returns no handle, it raises `BadWeakPtr`. -/
theorem C8_shared_from_this_unbound_raises :
    SharedFromThis (Heap.fresh 1) (some 0) = .error Fault.badWeakPtr ∧
      ¬ ∃ r, SharedFromThis (Heap.fresh 1) (some 0) = .ok r := by
  constructor
  · rfl
  · rintro ⟨r, hr⟩
    cases hr

/-- C8, amended: on an object whose back-reference `weak_this_` is unbound,
`SharedFromThis()` raises `BadWeakPtr`; it touches no control block, and
`WeakFromThis()` on the same object returns a null weak handle and leaves the heap
unchanged. -/
theorem C8_shared_from_this_unbound (h : Heap) (a : Nat) (obj : Object)
    (hobj : h.objects[a]? = some obj) (hwt : obj.weak_this_ = WeakPtr.null) :
    SharedFromThis h (some a) = .error Fault.badWeakPtr ∧
      WeakFromThis h (some a) = .ok (h, WeakPtr.null) := by
  simp [SharedFromThis, WeakFromThis, Heap.weak_this_, hobj, hwt, SharedPtr.ofWeak,
    WeakPtr.Expired, WeakPtr.toBool, WeakPtr.null, WeakPtr.copy]
  rfl

/-- C8, amended, at the second of two freshly allocated objects. -/
theorem C8_shared_from_this_unbound_witness :
    SharedFromThis (Heap.fresh 2) (some 1) = .error Fault.badWeakPtr ∧
      WeakFromThis (Heap.fresh 2) (some 1) = .ok (Heap.fresh 2, WeakPtr.null) :=
  C8_shared_from_this_unbound (Heap.fresh 2) 1 { weak_this_ := WeakPtr.null } rfl rfl

/-- On the objects of a program `WeakFromThis()` returns without a fault.  On an
object that no `SharedPtr` has
wrapped it returns a `WeakPtr` whose `Expired()` is `true` and leaves the heap
unchanged.  After `SharedPtr<T> sptr(ptr)`, and after any operations of the program for
as long as a live handle references the block, it returns a `WeakPtr` whose `Expired()`
is `false` and whose `Lock().Get()` is `ptr`. -/
theorem weak_from_this_total (n : Nat) (a : Fin n) (ops : List Op) :
    (∃ x, WeakFromThis (Heap.fresh n) (some a) = .ok (Heap.fresh n, x) ∧
      x.Expired (Heap.fresh n) = .ok true) ∧
    ∃ w, program (.ofPtr true n a) ops = .ok w ∧
      (1 ≤ strongRefs 0 w.shared →
        ∃ h1 x h2 t, WeakFromThis w.heap (some a) = .ok (h1, x) ∧
          x.Expired h1 = .ok false ∧ x.Lock h1 = .ok (h2, t) ∧ t.Get = some a.val) := by
  constructor
  · refine ⟨WeakPtr.null, ?_, rfl⟩
    simp [WeakFromThis, Heap.weak_this_, Heap.fresh, List.getElem?_replicate, a.isLt,
      WeakPtr.copy, WeakPtr.toBool, WeakPtr.null]
  · obtain ⟨objs, w, h, hinv⟩ := program_inv (.ofPtr true n a) ops
    refine ⟨w, h, fun hS => ?_⟩
    obtain ⟨blk, hheap, hg⟩ := hinv.heap
    have hf := hg.live (by omega)
    have hc := hg.strong hf
    have hne : ¬ strongRefs 0 w.shared = 0 := by omega
    have hwt := hinv.weak_this
    simp only [Origin.addr, Origin.esft] at hwt
    have e1 : WeakFromThis w.heap (some a) =
        .ok (⟨[{ blk with weak_counter_ := blk.weak_counter_ + 1 }], objs⟩,
          ⟨some a, some 0⟩) := by
      simp only [WeakFromThis, hwt, bind_ok]
      simp [selfWeak, WeakPtr.copy, WeakPtr.toBool, Heap.WeakIncrement, Heap.modify, hheap,
        hf]
    have e2 : WeakPtr.Expired ⟨some a, some 0⟩
        ⟨[{ blk with weak_counter_ := blk.weak_counter_ + 1 }], objs⟩ = .ok false := by
      simp [WeakPtr.Expired, WeakPtr.toBool, Heap.GetCount, Heap.deref, hf, hc, hne]
    have e3 : WeakPtr.Lock ⟨some a, some 0⟩
        ⟨[{ blk with weak_counter_ := blk.weak_counter_ + 1 }], objs⟩ =
        .ok (⟨[{ blk with weak_counter_ := blk.weak_counter_ + 1,
                          counter_ := blk.counter_ + 1 }], objs⟩, ⟨some a, some 0⟩) := by
      simp only [WeakPtr.Lock, SharedPtr.ofWeak, e2, bind_ok]
      simp [SharedPtr.toBool, SharedPtr.Get, Heap.increment, Heap.modify, hf]
    exact ⟨_, _, _, _, e1, e2, e3, rfl⟩

theorem step_weakAssignShared_slot {objs a bound w} (hinv : Inv objs a bound w)
    {j i p : Nat} {x : WeakPtr} (hx : w.getWeak j = some x)
    (hs : w.getShared i = some ⟨some p, some 0⟩) {w1 : World}
    (h : step w (.weakAssignShared j i) = .ok w1) :
    w1.getWeak j = some ⟨some p, some 0⟩ ∧ w1.shared = w.shared := by
  obtain ⟨blk, hheap, hg⟩ := hinv.heap
  obtain ⟨hget, hfam, hle⟩ := hinv.weak_slot hx
  obtain ⟨-, hfams, hles⟩ := hinv.shared_slot hs
  have hS : 1 ≤ strongRefs 0 w.shared := by simpa using hles
  obtain ⟨blk1, hw1, hg1, -⟩ := weak_increment hg (by omega)
  obtain ⟨blk2, hw2, -, -⟩ :=
    weak_moveAssign_fam (o := ⟨some p, some 0⟩) hfam hg1 (by omega)
  have hlen : j < w.weak.length := by
    by_contra hc
    rw [List.getElem?_eq_none (by omega)] at hget
    cases hget
  simp only [step, hx, hs, WeakPtr.assignShared, WeakPtr.ofShared, WeakPtr.toBool, hheap]
    at h
  simp [hw1, hw2, WeakPtr.destroy, WeakPtr.toBool, WeakPtr.null] at h
  subst h
  simp [World.getWeak, hlen]

/-- C10: in every state reached by a program and for every live `WeakPtr` variable,
`Expired()` returns `true` exactly when the handle is null or the strong count of its
control block is zero.  Hence every live `WeakPtr` is expired once no live `SharedPtr`
references the block, and after `weak = shared` with a live non-empty `SharedPtr` the
`WeakPtr` is not expired. -/
theorem C10_expired_iff_null_or_no_strong (o : Origin) (ops : List Op) :
    ∃ w b, program o ops = .ok w ∧ w.heap.blocks = [b] ∧
      (∀ j x, w.getWeak j = some x →
        ∃ e, x.Expired w.heap = .ok e ∧
          (e = true ↔ x.control_block_ = none ∨ b.counter_ = 0) ∧
          (strongRefs 0 w.shared = 0 → e = true)) ∧
      (∀ j i x s, w.getWeak j = some x → w.getShared i = some s → s.toBool = true →
        ∃ w1 y, step w (.weakAssignShared j i) = .ok w1 ∧ w1.getWeak j = some y ∧
          y.stored_ptr_ = s.stored_ptr_ ∧ y.control_block_ = s.control_block_ ∧
          y.Expired w1.heap = .ok false) := by
  obtain ⟨objs, w, h, hinv⟩ := program_inv o ops
  obtain ⟨b, hb⟩ := hinv.blocks
  refine ⟨w, b, h, hb, fun j x hx => ?_, fun j i x s hx hs hne => ?_⟩
  · obtain ⟨e, he, hiff, hiff2, -, -⟩ := hinv.promote hb hx
    exact ⟨e, he, hiff, fun h0 => hiff2.2 (Or.inr h0)⟩
  · obtain ⟨-, hfam, hle⟩ := hinv.shared_slot hs
    rcases shared_inFamily_cases hfam with rfl | ⟨p, rfl⟩
    · simp [SharedPtr.toBool, SharedPtr.Get, SharedPtr.null] at hne
    · obtain ⟨w1, h1, hinv1, -⟩ := step_inv hinv (.weakAssignShared j i)
      obtain ⟨hy, hsh⟩ := step_weakAssignShared_slot hinv hx hs h1
      obtain ⟨b1, hb1⟩ := hinv1.blocks
      obtain ⟨e, he, -, hiff, -, -⟩ := hinv1.promote hb1 hy
      have hS : 1 ≤ strongRefs 0 w.shared := by simpa using hle
      have hef : e = false := by
        cases e
        · rfl
        · have := hiff.1 rfl
          rw [hsh] at this
          simp at this
          omega
      subst hef
      exact ⟨w1, _, h1, hy, rfl, rfl, he⟩

/-- C2 at a concrete program: `T* ptr = new T; SharedPtr<T> s(ptr); WeakPtr<T> w(s);`,
then `s` is destroyed and `w` is locked, copied and destroyed. -/
theorem C2_last_shared_destroys_object_once_witness :
    program (.ofPtr true 1 0) [.weakOfShared 0] = .ok exampleWorld ∧
    exampleWorld.getShared 0 = some ⟨some 0, some 0⟩ ∧
    strongRefs 0 exampleWorld.shared = 1 ∧ 1 ≤ weakRefs 0 exampleWorld.weak ∧
    ∃ b w1 b1 w2 b2, exampleWorld.heap.blocks = [b] ∧ b.objectDeletes = 0 ∧
      step exampleWorld (.sharedDestroy 0) = .ok w1 ∧ w1.heap.blocks = [b1] ∧
      b1.objectDeletes = 1 ∧ b1.freed = false ∧
      run w1 [.weakLock 0, .weakCopy 0, .weakDestroy 0] = .ok w2 ∧ w2.heap.blocks = [b2] ∧
      b2.objectDeletes = 1 ∧ (b2.freed = true ↔ weakRefs 0 w2.weak = 0) :=
  ⟨rfl, rfl, rfl, by decide,
    C2_last_shared_destroys_object_once (.ofPtr true 1 0) [.weakOfShared 0]
      [.weakLock 0, .weakCopy 0, .weakDestroy 0] 0 exampleWorld ⟨some 0, some 0⟩
      rfl rfl rfl rfl (by decide)⟩

/-- The round trip at a concrete program: `MakeShared<T>()` with two objects allocated before,
followed by a copy of the handle and the destruction of the original. -/
theorem shared_from_this_round_trip_example :
    (Origin.makeShared true 2).esft = true ∧
    ∃ w0 s b0 t0 w b, (Origin.makeShared true 2).world = .ok w0 ∧ w0.shared = [some s] ∧
      s.Get = some 2 ∧ w0.heap.blocks = [b0] ∧
      SharedFromThis w0.heap (some 2) =
        .ok ({ w0.heap with blocks := [{ b0 with counter_ := b0.counter_ + 1 }] }, t0) ∧
      t0.eq s = true ∧ t0.control_block_ = s.control_block_ ∧
      program (Origin.makeShared true 2) [.sharedCopy 0, .sharedDestroy 0] = .ok w ∧
      w.heap.blocks = [b] ∧
      (1 ≤ strongRefs 0 w.shared →
        ∃ t, SharedFromThis w.heap (some 2) =
          .ok ({ w.heap with blocks := [{ b with counter_ := b.counter_ + 1 }] }, t) ∧
          t.eq s = true ∧ t.control_block_ = s.control_block_) :=
  ⟨rfl, shared_from_this_round_trip (Origin.makeShared true 2) rfl
    [.sharedCopy 0, .sharedDestroy 0]⟩

/-- The deleter calls of `Reset`: one call on the pointer held before, made while the
handle already holds the new pointer, or none if the handle was empty. -/
theorem unique_reset_log {D : Type} (C : DeleterClass D) (u : UniquePtr D) (ptr : Ptr)
    (log : List DeleterCall) :
    (u.Reset C ptr log).1.Get = ptr ∧
    (u.Reset C ptr log).2 =
      log ++ (match u.Get with
        | some q => [{ ptr := q, held := ptr }]
        | none => []) := by
  unfold UniquePtr.Reset
  cases h : u.Get with
  | none => simp [UniquePtr.Get, CompressedPair.setFirst, CompressedPair.GetFirst]
  | some q =>
    simp [UniquePtr.invoke, UniquePtr.Get, CompressedPair.setFirst, CompressedPair.GetFirst,
      CompressedPair.setSecond]

theorem unique_assignNull_log {D : Type} (C : DeleterClass D) (u : UniquePtr D)
    (log : List DeleterCall) :
    (u.assignNull C log).1.Get = none ∧
    (u.assignNull C log).2 =
      log ++ (match u.Get with
        | some q => [{ ptr := q, held := none }]
        | none => []) := by
  unfold UniquePtr.assignNull UniquePtr.toBool UniquePtr.Release
  cases h : u.Get with
  | none => simp [h]
  | some q =>
    simp [UniquePtr.invoke, UniquePtr.Get, CompressedPair.setFirst, CompressedPair.GetFirst,
      CompressedPair.setSecond]

theorem unique_destroy_log {D : Type} (C : DeleterClass D) (u : UniquePtr D)
    (log : List DeleterCall) :
    (u.destroy C log).2 =
      log ++ (match u.Get with
        | some q => [{ ptr := q, held := none }]
        | none => []) := by
  unfold UniquePtr.destroy UniquePtr.toBool UniquePtr.Release
  cases h : u.Get with
  | none => simp
  | some q =>
    simp [UniquePtr.invoke, UniquePtr.Get, CompressedPair.setFirst, CompressedPair.GetFirst]

/-- The deleter stored in the handle after `Reset`, the assignment of `nullptr` and the
body of the destructor: `operator()` has been applied to it with the pointer held
before, or it is untouched if the handle was empty. -/
theorem unique_deleter_state {D : Type} (C : DeleterClass D) (u : UniquePtr D) (ptr : Ptr)
    (log : List DeleterCall) :
    (u.Reset C ptr log).1.GetDeleter =
      (match u.Get with
        | some q => C.call u.GetDeleter q
        | none => u.GetDeleter) ∧
    (u.assignNull C log).1.GetDeleter =
      (match u.Get with
        | some q => C.call u.GetDeleter q
        | none => u.GetDeleter) ∧
    (u.destroy C log).1.GetDeleter =
      (match u.Get with
        | some q => C.call u.GetDeleter q
        | none => u.GetDeleter) ∧
    (u.destroy C log).1.Get = none := by
  unfold UniquePtr.Reset UniquePtr.assignNull UniquePtr.destroy UniquePtr.toBool
    UniquePtr.Release
  cases h : u.Get with
  | none =>
    simp [UniquePtr.GetDeleter, UniquePtr.Get, CompressedPair.setFirst,
      CompressedPair.GetSecond, CompressedPair.GetFirst]
    simpa [UniquePtr.Get, CompressedPair.GetFirst] using h
  | some q =>
    simp [UniquePtr.invoke, UniquePtr.GetDeleter, UniquePtr.Get, CompressedPair.setFirst,
      CompressedPair.GetFirst, CompressedPair.setSecond, CompressedPair.GetSecond]

/-- C17: destroying a `UniquePtr`, assigning `nullptr` to it and `Reset(p)` invoke the
deleter exactly once, on the pointer held before, when that pointer is non-null, and
not at all when it is null: the log grows by exactly that call, and the deleter stored
in the handle is afterwards the result of `operator()` applied to the stored deleter
and the old pointer, or the stored deleter itself if the pointer was null.  After
`Reset(p)` `Get()` is `p`, and the recorded call was made while the handle already held
`p`; after the assignment of `nullptr` and after the body of the destructor `Get()` is
null.  For the deleter class of the tests `WasCalled()` is afterwards true when the old
pointer was non-null and as before when it was null. -/
theorem C17_unique_deleter_called_once {D : Type} (C : DeleterClass D)
    (u : UniquePtr D) (p : Ptr) (log : List DeleterCall) (t : UniquePtr Deleter) :
    (u.destroy C log).2 =
      log ++ (match u.Get with
        | some q => [{ ptr := q, held := none }]
        | none => []) ∧
    (u.destroy C log).1.GetDeleter =
      (match u.Get with
        | some q => C.call u.GetDeleter q
        | none => u.GetDeleter) ∧
    (u.destroy C log).1.Get = none ∧
    (u.assignNull C log).1.GetDeleter =
      (match u.Get with
        | some q => C.call u.GetDeleter q
        | none => u.GetDeleter) ∧
    (u.Reset C p log).1.GetDeleter =
      (match u.Get with
        | some q => C.call u.GetDeleter q
        | none => u.GetDeleter) ∧
    (t.Reset Deleter.ops p log).1.GetDeleter.WasCalled =
      (t.Get.isSome || t.GetDeleter.WasCalled) ∧
    (t.assignNull Deleter.ops log).1.GetDeleter.WasCalled =
      (t.Get.isSome || t.GetDeleter.WasCalled) ∧
    ((t.destroy Deleter.ops log).1.GetDeleter.WasCalled =
      (t.Get.isSome || t.GetDeleter.WasCalled)) ∧
    (u.assignNull C log).1.Get = none ∧
    (u.assignNull C log).2 =
      log ++ (match u.Get with
        | some q => [{ ptr := q, held := none }]
        | none => []) ∧
    (u.Reset C p log).1.Get = p ∧
    (u.Reset C p log).2 =
      log ++ (match u.Get with
        | some q => [{ ptr := q, held := p }]
        | none => []) :=
  have hd := unique_deleter_state C u p log
  have ht := unique_deleter_state Deleter.ops t p log
  have hw : ∀ d : Deleter,
      Deleter.WasCalled (match t.Get with
        | some q => Deleter.ops.call d q
        | none => d) = (t.Get.isSome || d.WasCalled) := by
    intro d
    cases t.Get <;> simp [Deleter.ops, Deleter.call, Deleter.WasCalled]
  ⟨unique_destroy_log C u log, hd.2.2.1, hd.2.2.2, hd.2.1, hd.1,
    by rw [ht.1]; exact hw _, by rw [ht.2.1]; exact hw _, by rw [ht.2.2.1]; exact hw _,
    (unique_assignNull_log C u log).1,
    (unique_assignNull_log C u log).2, (unique_reset_log C u p log).1,
    (unique_reset_log C u p log).2⟩

theorem unique_moveAssign_eq {D : Type} (C : DeleterClass D) (a b : UniquePtr D)
    (log : List DeleterCall) :
    (UniquePtr.moveAssign C a b log).1.Get = b.Get ∧
    (UniquePtr.moveAssign C a b log).1.GetDeleter =
      (C.moveAssign (a.Reset C b.Get log).1.GetDeleter b.GetDeleter).1 ∧
    (UniquePtr.moveAssign C a b log).2.1.Get = none ∧
    (UniquePtr.moveAssign C a b log).2.2 =
      log ++ (match a.Get with
        | some q => [{ ptr := q, held := b.Get }]
        | none => []) := by
  have h1 := (unique_reset_log C a b.Get log).1
  have h2 := (unique_reset_log C a b.Get log).2
  refine ⟨?_, ?_, ?_, ?_⟩
  · simpa [UniquePtr.moveAssign, UniquePtr.Release, UniquePtr.Get, CompressedPair.setSecond,
      CompressedPair.GetFirst] using h1
  · simp [UniquePtr.moveAssign, UniquePtr.Release, UniquePtr.GetDeleter,
      CompressedPair.setSecond, CompressedPair.setFirst, CompressedPair.GetSecond]
  · simp [UniquePtr.moveAssign, UniquePtr.Release, UniquePtr.Get, CompressedPair.setSecond,
      CompressedPair.setFirst, CompressedPair.GetFirst]
  · simpa [UniquePtr.moveAssign, UniquePtr.Release] using h2

/-- C15: let `a` and `b` be two distinct `UniquePtr` variables of one type that do not
own the same object.  Move construction from `b` gives a handle with the pointer of `b`
and the deleter move-constructed from the deleter of `b`, leaves `Get()` of `b` null and
records no deleter call.  Move assignment `a = std::move(b)` leaves `a` with the pointer
of `b` and with the deleter move-assigned from the deleter of `b`, leaves `Get()` of `b`
null, and every deleter call it records is on the pointer `a` held before, never on the
transferred pointer.  For the deleter class of the tests the tag of the source arrives
in the destination.  Move-assigning a variable to itself changes neither the variables
nor the log. -/
theorem C15_unique_move_transfers_ownership {D : Type} (C : DeleterClass D)
    (a b : UniquePtr D) (log : List DeleterCall) (w : UniqueVars D) (i k : Nat)
    (ta tb : UniquePtr Deleter) (hi : w.vars[i]? = some a) (hk : w.vars[k]? = some b)
    (hik : i ≠ k) (hown : a.Get = none ∨ a.Get ≠ b.Get) :
    (UniquePtr.move C b).1.Get = b.Get ∧
    (UniquePtr.move C b).1.GetDeleter = (C.moveConstruct b.GetDeleter).1 ∧
    (UniquePtr.move C b).2.Get = none ∧
    (w.moveConstruct C k).log = w.log ∧
    (w.moveConstruct C k).vars = w.vars.set k (UniquePtr.move C b).2 ++ [(UniquePtr.move C b).1] ∧
    (UniquePtr.moveAssign C a b log).1.Get = b.Get ∧
    (UniquePtr.moveAssign C a b log).1.GetDeleter =
      (C.moveAssign (a.Reset C b.Get log).1.GetDeleter b.GetDeleter).1 ∧
    (UniquePtr.moveAssign C a b log).2.1.Get = none ∧
    (∃ calls, (UniquePtr.moveAssign C a b log).2.2 = log ++ calls ∧
      ∀ c ∈ calls, some c.ptr = a.Get ∧ some c.ptr ≠ b.Get) ∧
    w.moveAssign C i k =
      { vars := (w.vars.set i (UniquePtr.moveAssign C a b w.log).1).set k
          (UniquePtr.moveAssign C a b w.log).2.1,
        log := (UniquePtr.moveAssign C a b w.log).2.2 } ∧
    (UniquePtr.move Deleter.ops tb).1.GetDeleter.GetTag = tb.GetDeleter.GetTag ∧
    (UniquePtr.moveAssign Deleter.ops ta tb log).1.GetDeleter.GetTag = tb.GetDeleter.GetTag ∧
    w.moveAssign C i i = w := by
  obtain ⟨e1, e2, e3, e4⟩ := unique_moveAssign_eq C a b log
  refine ⟨?_, ?_, ?_, ?_, ?_, e1, e2, e3, ?_, ?_, ?_, ?_, ?_⟩
  · simp [UniquePtr.move, UniquePtr.Release, UniquePtr.Get, CompressedPair.ctor,
      CompressedPair.GetFirst]
  · simp [UniquePtr.move, UniquePtr.Release, UniquePtr.GetDeleter, CompressedPair.ctor,
      CompressedPair.GetSecond, CompressedPair.setFirst]
  · simp [UniquePtr.move, UniquePtr.Release, UniquePtr.Get, CompressedPair.setSecond,
      CompressedPair.setFirst, CompressedPair.GetFirst]
  · simp [UniqueVars.moveConstruct, hk]
  · simp [UniqueVars.moveConstruct, hk]
  · rw [e4]
    cases ha : a.Get with
    | none => exact ⟨[], by simp, by simp⟩
    | some q =>
      refine ⟨_, rfl, ?_⟩
      intro c hc
      simp at hc
      subst hc
      rcases hown with h | h
      · rw [ha] at h
        cases h
      · rw [ha] at h
        exact ⟨rfl, h⟩
  · simp [UniqueVars.moveAssign, hik, hi, hk]
  · simp [UniquePtr.move, UniquePtr.Release, UniquePtr.GetDeleter, CompressedPair.ctor,
      CompressedPair.GetSecond, CompressedPair.setFirst, Deleter.ops, Deleter.moveConstruct,
      Deleter.GetTag]
  · rw [(unique_moveAssign_eq Deleter.ops ta tb log).2.1]
    simp [Deleter.ops, Deleter.moveAssign, Deleter.GetTag]
  · simp [UniqueVars.moveAssign]

/-- Witness for C15: the handle with pointer 1 and tag 5 is move-assigned from, and a new
handle is move-constructed from, the handle with pointer 2 and tag 7. -/
theorem C15_unique_move_transfers_ownership_witness :
    (UniquePtr.move Deleter.ops exampleUniqueB).1.Get = some 2 ∧
    (UniquePtr.moveAssign Deleter.ops exampleUniqueA exampleUniqueB []).1.Get = some 2 ∧
    (UniquePtr.moveAssign Deleter.ops exampleUniqueA exampleUniqueB []).1.GetDeleter.GetTag = 7 ∧
    (UniquePtr.moveAssign Deleter.ops exampleUniqueA exampleUniqueB []).2.1.Get = none :=
  have h := C15_unique_move_transfers_ownership Deleter.ops exampleUniqueA exampleUniqueB []
    { vars := [exampleUniqueA, exampleUniqueB], log := [] } 0 1 exampleUniqueA exampleUniqueB
    rfl rfl (by decide) (Or.inr (by decide))
  ⟨h.1, h.2.2.2.2.2.1, h.2.2.2.2.2.2.2.2.2.2.2.1, h.2.2.2.2.2.2.2.1⟩

theorem unique_step_log {D : Type} (C : DeleterClass D) (u : UniquePtr D)
    (log : List DeleterCall) (op : UniqueOp) :
    (u.step C log op).1.Get =
      (match op with
        | .reset ptr => ptr
        | .assignNull => none
        | .release => none) ∧
    ∃ calls, (u.step C log op).2 = log ++ calls ∧ ∀ c ∈ calls, some c.ptr = u.Get := by
  cases op with
  | reset ptr =>
    obtain ⟨h1, h2⟩ := unique_reset_log C u ptr log
    refine ⟨h1, _, h2, ?_⟩
    cases h : u.Get <;> simp
  | assignNull =>
    obtain ⟨h1, h2⟩ := unique_assignNull_log C u log
    refine ⟨h1, _, h2, ?_⟩
    cases h : u.Get <;> simp
  | release =>
    exact ⟨by simp [UniquePtr.step, UniquePtr.Release, UniquePtr.Get, CompressedPair.setFirst,
      CompressedPair.GetFirst], [], by simp [UniquePtr.step], by simp⟩

theorem unique_run_never_deletes {D : Type} (C : DeleterClass D) (p : Nat)
    (ops : List UniqueOp) (hops : UniqueOp.reset (some p) ∉ ops) :
    ∀ (u : UniquePtr D) (log : List DeleterCall), u.Get ≠ some p →
      ∃ calls, u.runThenDestroy C log ops = log ++ calls ∧ ∀ c ∈ calls, c.ptr ≠ p := by
  induction ops with
  | nil =>
    intro u log hu
    refine ⟨_, unique_destroy_log C u log, ?_⟩
    cases h : u.Get with
    | none => simp
    | some q =>
      intro c hc
      simp at hc
      subst hc
      intro hq
      apply hu
      rw [h]
      exact congrArg some hq
  | cons op ops ih =>
    intro u log hu
    simp only [List.mem_cons, not_or] at hops
    obtain ⟨hg, calls, hlog, hcalls⟩ := unique_step_log C u log op
    have hu1 : (u.step C log op).1.Get ≠ some p := by
      rw [hg]
      cases op with
      | reset ptr =>
        intro h
        apply hops.1
        simp only at h
        rw [h]
      | assignNull => simp
      | release => simp
    obtain ⟨calls1, hrun, hcalls1⟩ := ih hops.2 (u.step C log op).1 (u.step C log op).2 hu1
    refine ⟨calls ++ calls1, ?_, ?_⟩
    · show (u.step C log op).1.runThenDestroy C (u.step C log op).2 ops = _
      rw [hrun, hlog, List.append_assoc]
    · intro c hc
      rcases List.mem_append.1 hc with h | h
      · intro hp
        apply hu
        rw [← hcalls c h, hp]
      · exact hcalls1 c h

/-- C16: `Release()` returns the pointer the handle held, leaves `Get()` null and adds
nothing to the log of deleter calls.  Whatever sequence of `Reset`, assignment of
`nullptr` and `Release` follows on that handle, and its destruction after them, no
deleter call is made on a pointer `p` (in particular the released one) that is not
handed back to the handle by a `Reset(p)`, and the log before the sequence is kept. -/
theorem C16_unique_release_gives_up_ownership {D : Type} (C : DeleterClass D)
    (u : UniquePtr D) (p : Nat) (log : List DeleterCall) (ops : List UniqueOp)
    (hops : UniqueOp.reset (some p) ∉ ops) :
    u.Release.1 = u.Get ∧
    u.Release.2.Get = none ∧
    u.Release.2.GetDeleter = u.GetDeleter ∧
    u.step C log .release = (u.Release.2, log) ∧
    ∃ calls, u.Release.2.runThenDestroy C log ops = log ++ calls ∧ ∀ c ∈ calls, c.ptr ≠ p := by
  have hnull : u.Release.2.Get = none := by
    simp [UniquePtr.Release, UniquePtr.Get, CompressedPair.setFirst, CompressedPair.GetFirst]
  refine ⟨rfl, hnull, rfl, rfl, ?_⟩
  apply unique_run_never_deletes C p ops hops
  rw [hnull]
  simp

/-- Witness for C16: the handle with pointer 1 releases it, is then reset to pointer 2,
assigned `nullptr` and destroyed. -/
theorem C16_unique_release_gives_up_ownership_witness :
    ∃ calls, exampleUniqueA.Release.2.runThenDestroy Deleter.ops []
        [.reset (some 2), .assignNull] = [] ++ calls ∧ ∀ c ∈ calls, c.ptr ≠ 1 :=
  (C16_unique_release_gives_up_ownership Deleter.ops exampleUniqueA 1 []
    [.reset (some 2), .assignNull] (by decide)).2.2.2.2

/-- C18: what the converting move constructor `UniquePtr(UniquePtr<TT, DD>&& other)`
does: the new handle holds the pointer of `other` and `other` is left null, but the
deleter of the new handle is a default-constructed one, whatever state the deleter of
`other` had.  With the deleter class of the tests, converting from a handle whose
deleter has tag 5 gives a deleter with tag 0, where the move constructor from the same
type gives tag 5. -/
theorem C18_converting_move_default_constructs_deleter {D DD : Type} (C : DeleterClass D)
    (other : UniquePtr DD) :
    (UniquePtr.moveConvert C other).1.Get = other.Get ∧
    (UniquePtr.moveConvert C other).2.Get = none ∧
    (UniquePtr.moveConvert C other).1.GetDeleter = C.default ∧
    exampleUniqueA.GetDeleter.GetTag = 5 ∧
    (UniquePtr.moveConvert Deleter.ops exampleUniqueA).1.GetDeleter.GetTag = 0 ∧
    (UniquePtr.move Deleter.ops exampleUniqueA).1.GetDeleter.GetTag = 5 := by
  refine ⟨rfl, ?_, rfl, rfl, rfl, rfl⟩
  simp [UniquePtr.moveConvert, UniquePtr.Release, UniquePtr.Get, CompressedPair.setFirst,
    CompressedPair.GetFirst]

/-- C20: each of the four layouts of `CompressedPair` refines the plain pair.  A pair
constructed from `(a, b)` stands for the plain pair `(a, b)` and returns `a` from
`GetFirst()` and `b` from `GetSecond()`; a write through `GetFirst()` changes the first
element of the plain pair to the written value and keeps the second, a write through
`GetSecond()` changes the second element to the written value and keeps the first. -/
theorem C20_compressed_pair_is_plain_pair {F S : Type} (a v : F) (b x : S)
    (p : CompressedPair F S) (ptf : CompressedPairTF F S) (ptt : CompressedPairTT F S)
    (pft : CompressedPairFT F S) :
    ((CompressedPair.ctor a b).toPlain = { fst := a, snd := b } ∧
      (CompressedPair.ctor a b).GetFirst = a ∧ (CompressedPair.ctor a b).GetSecond = b ∧
      (p.setFirst v).toPlain = { p.toPlain with fst := v } ∧
      (p.setSecond x).toPlain = { p.toPlain with snd := x } ∧
      (p.setFirst v).GetFirst = v ∧ (p.setFirst v).GetSecond = p.GetSecond ∧
      (p.setSecond x).GetSecond = x ∧ (p.setSecond x).GetFirst = p.GetFirst) ∧
    ((CompressedPairTF.ctor a b).toPlain = { fst := a, snd := b } ∧
      (CompressedPairTF.ctor a b).GetFirst = a ∧ (CompressedPairTF.ctor a b).GetSecond = b ∧
      (ptf.setFirst v).toPlain = { ptf.toPlain with fst := v } ∧
      (ptf.setSecond x).toPlain = { ptf.toPlain with snd := x } ∧
      (ptf.setFirst v).GetFirst = v ∧ (ptf.setFirst v).GetSecond = ptf.GetSecond ∧
      (ptf.setSecond x).GetSecond = x ∧ (ptf.setSecond x).GetFirst = ptf.GetFirst) ∧
    ((CompressedPairTT.ctor a b).toPlain = { fst := a, snd := b } ∧
      (CompressedPairTT.ctor a b).GetFirst = a ∧ (CompressedPairTT.ctor a b).GetSecond = b ∧
      (ptt.setFirst v).toPlain = { ptt.toPlain with fst := v } ∧
      (ptt.setSecond x).toPlain = { ptt.toPlain with snd := x } ∧
      (ptt.setFirst v).GetFirst = v ∧ (ptt.setFirst v).GetSecond = ptt.GetSecond ∧
      (ptt.setSecond x).GetSecond = x ∧ (ptt.setSecond x).GetFirst = ptt.GetFirst) ∧
    ((CompressedPairFT.ctor a b).toPlain = { fst := a, snd := b } ∧
      (CompressedPairFT.ctor a b).GetFirst = a ∧ (CompressedPairFT.ctor a b).GetSecond = b ∧
      (pft.setFirst v).toPlain = { pft.toPlain with fst := v } ∧
      (pft.setSecond x).toPlain = { pft.toPlain with snd := x } ∧
      (pft.setFirst v).GetFirst = v ∧ (pft.setFirst v).GetSecond = pft.GetSecond ∧
      (pft.setSecond x).GetSecond = x ∧ (pft.setSecond x).GetFirst = pft.GetFirst) :=
  ⟨⟨rfl, rfl, rfl, rfl, rfl, rfl, rfl, rfl, rfl⟩, ⟨rfl, rfl, rfl, rfl, rfl, rfl, rfl, rfl, rfl⟩,
   ⟨rfl, rfl, rfl, rfl, rfl, rfl, rfl, rfl, rfl⟩, ⟨rfl, rfl, rfl, rfl, rfl, rfl, rfl, rfl, rfl⟩⟩

/-! ## Claims on copying, moving and resetting `SharedPtr` -/

theorem getShared_set_same {w : World} {i : Nat} {s : SharedPtr} (x : SharedPtr)
    (l : List (Option WeakPtr)) (h : Heap) (hs : w.getShared i = some s) :
    World.getShared { heap := h, shared := w.shared.set i (some x), weak := l } i = some x := by
  have h1 := World.getShared_eq hs
  have hlt : i < w.shared.length := by
    rcases Nat.lt_or_ge i w.shared.length with h2 | h2
    · exact h2
    · rw [List.getElem?_eq_none h2] at h1
      cases h1
  simp [World.getShared, hlt]

theorem getShared_set_other {w : World} {i k : Nat} (x : Option SharedPtr)
    (l : List (Option WeakPtr)) (h : Heap) (hik : i ≠ k) :
    World.getShared { heap := h, shared := w.shared.set i x, weak := l } k =
      w.getShared k := by
  simp [World.getShared, List.getElem?_set_ne hik]

theorem shared_copy_exact {objs a bound S W blk} (p : Nat)
    (hg : Good objs a bound S W blk) (hS : 1 ≤ S) :
    SharedPtr.copy ⟨[blk], objs⟩ ⟨some p, some 0⟩ =
      .ok (⟨[{ blk with counter_ := blk.counter_ + 1 }], objs⟩, ⟨some p, some 0⟩) := by
  have hf := hg.live (by omega)
  simp [SharedPtr.copy, SharedPtr.toBool, SharedPtr.Get, Heap.increment, Heap.modify, hf]

/-- Copying in a family: in a state reached by a program let `a` and `b` be the handles
in two distinct live variables.  Copy construction from `b` returns a handle with the pointer and the
control block of `b`; when `b` is non-empty the only change to the heap is that the
strong counter of the block is raised by one, so `UseCount()` goes from `n` to `n + 1`.
Copy assignment `a = b` runs without a fault, leaves in the variable of `a` the pointer
and the block of `b`, leaves the variable of `b` and all weak variables as they were,
and its effect on the heap is that of the copy construction followed by the destruction
of `a`.  Assigning a variable to itself changes nothing. -/
theorem shared_copy_in_family (o : Origin) (pre : List Op) (w : World) (i k : Nat)
    (a b : SharedPtr) (hw : program o pre = .ok w) (ha : w.getShared i = some a)
    (hb : w.getShared k = some b) (hik : i ≠ k) :
    ∃ b0 h1 w1 w2, w.heap.blocks = [b0] ∧
      SharedPtr.copy w.heap b = .ok (h1, b) ∧
      (b.toBool = true →
        h1 = { w.heap with blocks := [{ b0 with counter_ := b0.counter_ + 1 }] } ∧
        ∃ n, b.UseCount w.heap = .ok n ∧ b.UseCount h1 = .ok (n + 1)) ∧
      step w (.sharedCopy k) = .ok w1 ∧ w1.heap = h1 ∧
      w1.shared = w.shared ++ [some b] ∧ w1.weak = w.weak ∧
      step w (.sharedAssign i k) = .ok w2 ∧
      w2.getShared i = some b ∧ w2.getShared k = some b ∧ w2.weak = w.weak ∧
      a.destroy h1 = .ok w2.heap ∧
      step w (.sharedAssign i i) = .ok w := by
  obtain ⟨objs, hinv⟩ := program_ok_inv hw
  obtain ⟨blk, hheap, hg⟩ := hinv.heap
  obtain ⟨-, hfa, hla⟩ := hinv.shared_slot ha
  obtain ⟨-, hfb, hlb⟩ := hinv.shared_slot hb
  obtain ⟨blk1, hc, hg1, -⟩ := shared_copy_fam hfb hg hlb
  obtain ⟨blk2, has, -, -⟩ := shared_assign_fam hfa hfb hg hla hlb
  have hd : a.destroy ⟨[blk1], objs⟩ = .ok ⟨[blk2], objs⟩ := by
    simp only [SharedPtr.assign, hc, bind_ok, SharedPtr.Swap] at has
    cases hd : SharedPtr.destroy a ⟨[blk1], objs⟩ with
    | error e =>
      have hd1 : SharedPtr.destroy ⟨a.stored_ptr_, a.control_block_⟩ ⟨[blk1], objs⟩ =
          .error e := hd
      simp [hd1] at has
    | ok h2 =>
      have hd1 : SharedPtr.destroy ⟨a.stored_ptr_, a.control_block_⟩ ⟨[blk1], objs⟩ =
          .ok h2 := hd
      simp [hd1] at has
      rw [has]
  refine ⟨blk, ⟨[blk1], objs⟩, { w with heap := ⟨[blk1], objs⟩, shared := w.shared ++ [some b] },
    { w with heap := ⟨[blk2], objs⟩, shared := w.shared.set i (some b) }, by rw [hheap],
    by rw [hheap, hc], ?_, ?_, rfl, rfl, rfl, ?_, getShared_set_same b _ _ ha, ?_, rfl, hd, ?_⟩
  · intro hne
    rcases shared_inFamily_cases hfb with rfl | ⟨p, rfl⟩
    · simp [SharedPtr.toBool, SharedPtr.Get, SharedPtr.null] at hne
    · simp [SharedPtr.refs] at hlb
      have hex := shared_copy_exact p hg hlb
      rw [hc] at hex
      simp only [Except.ok.injEq, Prod.mk.injEq, Heap.mk.injEq, and_true,
        List.cons.injEq] at hex
      subst hex
      have hf := hg.live (by omega)
      refine ⟨by rw [hheap], strongRefs 0 w.shared, (hinv.useCount hb hne).2, ?_⟩
      simp [SharedPtr.UseCount, SharedPtr.toBool, SharedPtr.Get, Heap.GetCount, Heap.deref,
        hf, hg.strong hf]
  · simp only [step, hb, hheap, hc, bind_ok, pure_eq_ok]
  · simp only [step, hik, if_false, ha, hb, hheap, has, bind_ok, pure_eq_ok]
  · rw [getShared_set_other _ _ _ hik]
    exact hb
  · simp [step]

/-- Copying in a family at a concrete program: `T* ptr = new T; SharedPtr<T> s(ptr);
SharedPtr<T> t;` and then `t = s`. -/
theorem shared_copy_in_family_example :
    program (.ofPtr false 1 0) [.sharedDefault] = .ok exampleWorldTwo ∧
    ∃ b0 h1 w1 w2, exampleWorldTwo.heap.blocks = [b0] ∧
      SharedPtr.copy exampleWorldTwo.heap ⟨some 0, some 0⟩ = .ok (h1, ⟨some 0, some 0⟩) ∧
      ((SharedPtr.mk (some 0) (some 0)).toBool = true →
        h1 = { exampleWorldTwo.heap with
                blocks := [{ b0 with counter_ := b0.counter_ + 1 }] } ∧
        ∃ n, (SharedPtr.mk (some 0) (some 0)).UseCount exampleWorldTwo.heap = .ok n ∧
          (SharedPtr.mk (some 0) (some 0)).UseCount h1 = .ok (n + 1)) ∧
      step exampleWorldTwo (.sharedCopy 0) = .ok w1 ∧ w1.heap = h1 ∧
      w1.shared = exampleWorldTwo.shared ++ [some ⟨some 0, some 0⟩] ∧
      w1.weak = exampleWorldTwo.weak ∧
      step exampleWorldTwo (.sharedAssign 1 0) = .ok w2 ∧
      w2.getShared 1 = some ⟨some 0, some 0⟩ ∧ w2.getShared 0 = some ⟨some 0, some 0⟩ ∧
      w2.weak = exampleWorldTwo.weak ∧
      SharedPtr.destroy ⟨none, none⟩ h1 = .ok w2.heap ∧
      step exampleWorldTwo (.sharedAssign 1 1) = .ok exampleWorldTwo :=
  ⟨rfl, shared_copy_in_family (.ofPtr false 1 0) [.sharedDefault] exampleWorldTwo 1 0
    ⟨none, none⟩ ⟨some 0, some 0⟩ rfl rfl rfl (by decide)⟩

/-- Moving in a family: move construction returns a handle with the pointer and the
control block of the source and leaves the source empty (`Get()` null, `UseCount()` zero).  In a state
reached by a program let `a` and `b` be the handles in two distinct live variables.
Move construction from `b` leaves the heap, and with it every counter, unchanged.  Move
assignment `a = std::move(b)` runs without a fault, leaves in the variable of `a` the
pointer and the block of `b`, leaves the variable of `b` empty, and its effect on the
heap is that of destroying `a`.  Move-assigning a variable to itself changes nothing. -/
theorem shared_move_in_family (o : Origin) (pre : List Op) (w : World) (i k : Nat)
    (a b : SharedPtr) (hw : program o pre = .ok w) (ha : w.getShared i = some a)
    (hb : w.getShared k = some b) (hik : i ≠ k) :
    (SharedPtr.move b).1 = b ∧ (SharedPtr.move b).2.Get = none ∧
    (∀ h, (SharedPtr.move b).2.UseCount h = .ok 0) ∧
    ∃ w1 w2, step w (.sharedMove k) = .ok w1 ∧ w1.heap = w.heap ∧
      w1.shared = w.shared.set k (some (SharedPtr.move b).2) ++ [some b] ∧
      w1.weak = w.weak ∧
      step w (.sharedMoveAssign i k) = .ok w2 ∧
      w2.getShared i = some b ∧ w2.getShared k = some (SharedPtr.move b).2 ∧
      w2.weak = w.weak ∧
      a.destroy w.heap = .ok w2.heap ∧
      step w (.sharedMoveAssign i i) = .ok w := by
  obtain ⟨objs, hinv⟩ := program_ok_inv hw
  obtain ⟨blk, hheap, hg⟩ := hinv.heap
  obtain ⟨hai, hfa, hla⟩ := hinv.shared_slot ha
  obtain ⟨blk2, hma, -, -⟩ := shared_moveAssign_fam (o := b) hfa hg hla
  obtain ⟨blk3, hd, -, -⟩ := shared_destroy_fam hfa hg hla
  have e : blk3 = blk2 := by
    simp only [SharedPtr.moveAssign, SharedPtr.move, SharedPtr.Swap] at hma
    have hd1 : SharedPtr.destroy ⟨a.stored_ptr_, a.control_block_⟩ ⟨[blk], objs⟩ =
        .ok ⟨[blk3], objs⟩ := hd
    simp [hd1] at hma
    exact hma.1
  subst e
  have hk : k < w.shared.length := by
    have h1 := World.getShared_eq hb
    rcases Nat.lt_or_ge k w.shared.length with h2 | h2
    · exact h2
    · rw [List.getElem?_eq_none h2] at h1
      cases h1
  refine ⟨rfl, rfl, fun h => rfl,
    { w with shared := w.shared.set k (some (SharedPtr.move b).2) ++ [some b] },
    { w with heap := ⟨[blk3], objs⟩,
             shared := (w.shared.set i (some b)).set k (some SharedPtr.null) },
    ?_, rfl, rfl, rfl, ?_, ?_, ?_, rfl, by rw [hheap, hd], ?_⟩
  · simp only [step, hb, pure_eq_ok]
    rfl
  · simp only [step, hik, if_false, ha, hb, hheap, hma, bind_ok, pure_eq_ok]
  · have h1 : World.getShared { w with shared := w.shared.set i (some b) } i = some b :=
      getShared_set_same b _ _ ha
    have h2 := getShared_set_other (w := { w with shared := w.shared.set i (some b) })
      (some SharedPtr.null) w.weak ⟨[blk3], objs⟩ (Ne.symm hik)
    exact h2.trans h1
  · simp [World.getShared, hk]
    rfl
  · simp [step]

/-- Moving in a family at a concrete program: `T* ptr = new T; SharedPtr<T> s(ptr);
SharedPtr<T> t;` and then `t = std::move(s)`. -/
theorem shared_move_in_family_example :
    program (.ofPtr false 1 0) [.sharedDefault] = .ok exampleWorldTwo ∧
    ∃ w2, step exampleWorldTwo (.sharedMoveAssign 1 0) = .ok w2 ∧
      w2.getShared 1 = some ⟨some 0, some 0⟩ ∧ w2.getShared 0 = some SharedPtr.null ∧
      w2.heap = exampleWorldTwo.heap :=
  have h := shared_move_in_family (.ofPtr false 1 0) [.sharedDefault] exampleWorldTwo 1 0
    ⟨none, none⟩ ⟨some 0, some 0⟩ rfl rfl rfl (by decide)
  ⟨rfl, by
    obtain ⟨-, -, -, w1, w2, -, -, -, -, h5, h6, h7, -, h9, -⟩ := h
    refine ⟨w2, h5, h6, h7, ?_⟩
    have h10 : SharedPtr.destroy ⟨none, none⟩ exampleWorldTwo.heap =
        .ok exampleWorldTwo.heap := rfl
    rw [h10] at h9
    exact (Except.ok.inj h9).symm⟩

theorem origin_objects {o : Origin} {w0 : World} (h : o.world = .ok w0) (p : Nat) (x : Object)
    (hp : p ≠ o.addr) (hx : w0.heap.objects[p]? = some x) : x = { weak_this_ := WeakPtr.null } := by
  cases o with
  | ofPtr esft n a =>
    have ha : (a : Nat) < n := a.isLt
    have hpa : (a : Nat) ≠ p := fun e => hp e.symm
    cases esft
    · have h0 : World.ofPtr false n a = .ok
          { heap := { blocks := [PointerControlBlock (some a)],
                      objects := List.replicate n { weak_this_ := WeakPtr.null } },
            shared := [some ⟨some a, some 0⟩], weak := [] } := rfl
      simp only [Origin.world, h0, Except.ok.injEq] at h
      subst h
      simp [List.getElem?_replicate] at hx
      exact hx.2.symm
    · have h0 : World.ofPtr true n a = .ok
          { heap := { blocks := [{ PointerControlBlock (some a) with weak_counter_ := 1 }],
                      objects := (List.replicate n { weak_this_ := WeakPtr.null }).set a
                        { weak_this_ := ⟨some a, some 0⟩ } },
            shared := [some ⟨some a, some 0⟩], weak := [] } := by
        simp [World.ofPtr, SharedPtr.ofPtr, SharedPtr.InitWeakThis, Heap.fresh,
          List.getElem?_replicate, ha, WeakPtr.ofShared, WeakPtr.toBool, Heap.WeakIncrement,
          Heap.modify, PointerControlBlock, WeakPtr.moveAssign, WeakPtr.move, WeakPtr.Swap,
          WeakPtr.destroy, WeakPtr.null]
      simp only [Origin.world, h0, Except.ok.injEq] at h
      subst h
      simp [List.getElem?_set_ne hpa, List.getElem?_replicate] at hx
      exact hx.2.symm
  | makeShared esft n =>
    have hpn : p ≠ n := hp
    cases esft
    · have h0 : World.ofMakeShared false n = .ok
          { heap := { blocks := [ObjectControlBlock n],
                      objects := List.replicate n { weak_this_ := WeakPtr.null } ++
                        [{ weak_this_ := WeakPtr.null }] },
            shared := [some ⟨some n, some 0⟩], weak := [] } := by
        simp [World.ofMakeShared, MakeShared, Heap.fresh]
      simp only [Origin.world, h0, Except.ok.injEq] at h
      subst h
      have hm := List.getElem?_mem hx
      simp at hm
      rcases hm with ⟨-, hm⟩ | hm <;> exact hm
    · have h0 : World.ofMakeShared true n = .ok
          { heap := { blocks := [{ ObjectControlBlock n with weak_counter_ := 1 }],
                      objects := List.replicate n { weak_this_ := WeakPtr.null } ++
                        [{ weak_this_ := ⟨some n, some 0⟩ }] },
            shared := [some ⟨some n, some 0⟩], weak := [] } := by
        simp [World.ofMakeShared, MakeShared, SharedPtr.InitWeakThis, Heap.fresh,
          List.getElem?_append_right, WeakPtr.ofShared, WeakPtr.toBool, Heap.WeakIncrement,
          Heap.modify, ObjectControlBlock, WeakPtr.moveAssign, WeakPtr.move, WeakPtr.Swap,
          WeakPtr.destroy, WeakPtr.null]
      simp only [Origin.world, h0, Except.ok.injEq] at h
      subst h
      rcases Nat.lt_or_ge p n with hlt | hge
      · rw [List.getElem?_append_left (by simpa using hlt)] at hx
        simp [List.getElem?_replicate, hlt] at hx
        exact hx.symm
      · have hgt : n < p := by omega
        rw [List.getElem?_append_right (by simpa using hge)] at hx
        have : p - (List.replicate n ({ weak_this_ := WeakPtr.null } : Object)).length ≠ 0 := by
          simp
          omega
        obtain ⟨m, hm⟩ := Nat.exists_eq_succ_of_ne_zero this
        rw [hm] at hx
        simp at hx

/-- In a state reached by a program every object other than the managed one has an
unbound `weak_this_`. -/
theorem program_objects {o : Origin} {ops : List Op} {w : World} (h : program o ops = .ok w)
    (p : Nat) (x : Object) (hp : p ≠ o.addr) (hx : w.heap.objects[p]? = some x) :
    x = { weak_this_ := WeakPtr.null } := by
  obtain ⟨objs, w0, h0, hi0, -, -⟩ := o.world_inv
  obtain ⟨w1, h1, hi1, -⟩ := run_inv ops hi0
  have e : program o ops = .ok w1 := by simp only [program, h0, bind_ok, h1]
  rw [h] at e
  cases e
  obtain ⟨blk0, hh0, -⟩ := hi0.heap
  obtain ⟨blk, hh, -⟩ := hi1.heap
  rw [hh] at hx
  apply origin_objects h0 p x hp
  rw [hh0]
  exact hx

/-- Destroying a shared handle of the family in a heap with further blocks and with
changes to other objects: the other blocks and the objects are left as they are. -/
theorem shared_destroy_frame {objs a bound S W blk} {s : SharedPtr} (hfam : s.inFamily)
    (hg : Good objs a bound S W blk) (hle : s.refs 0 ≤ S) (rest : List ControlBlock)
    (objs1 : List Object) (hobj : objs1[a]? = objs[a]?) :
    ∃ blk1, s.destroy ⟨[blk], objs⟩ = .ok ⟨[blk1], objs⟩ ∧
      s.destroy ⟨blk :: rest, objs1⟩ = .ok ⟨blk1 :: rest, objs1⟩ := by
  rcases shared_inFamily_cases hfam with rfl | ⟨p, rfl⟩
  · exact ⟨blk, rfl, rfl⟩
  · simp [SharedPtr.refs] at hle
    have hf := hg.live (by omega)
    obtain ⟨hobj0, hptr, hdel, hfr, hs, hw⟩ := hg
    have hs := hs hf
    have hw := hw hf
    have hm : min S 1 = 1 := by omega
    rw [hobj0] at hobj
    simp only [SharedPtr.destroy, SharedPtr.toBool, SharedPtr.Get, SharedPtr.UseCount,
      SharedPtr.WeakCount, Heap.ObjectDelete,
      WeakPtr.destroy, WeakPtr.toBool, WeakPtr.UseCount, Heap.GetCount,
      Heap.GetWeakCount, Heap.deref, Heap.WeakDecrement, Heap.decrement, Heap.modify,
      Heap.deleteBlock]
    cases bound <;> simp [hm] at hw hdel <;>
      simp [hf, hs, hw, hptr, hobj0, hobj, selfWeak, WeakPtr.null] <;>
      split_ifs <;> simp [hf, hs, hw, hptr, hobj0, hobj, selfWeak, WeakPtr.null]

/-- Wrapping a raw pointer to an object whose `weak_this_` is unbound, in a heap with one
control block. -/
theorem shared_ofPtr_fresh (esft : Bool) (blk : ControlBlock) (objs : List Object) (p : Nat)
    (hp : objs[p]? = some { weak_this_ := WeakPtr.null }) :
    SharedPtr.ofPtr esft ⟨[blk], objs⟩ (some p) =
      .ok (⟨[blk, { PointerControlBlock (some p) with
                    weak_counter_ := if esft then 1 else 0 }],
            if esft then objs.set p { weak_this_ := ⟨some p, some 1⟩ } else objs⟩,
           ⟨some p, some 1⟩) := by
  cases esft
  · rfl
  · simp [SharedPtr.ofPtr, SharedPtr.InitWeakThis, hp, WeakPtr.ofShared, WeakPtr.toBool,
      Heap.WeakIncrement, Heap.modify, PointerControlBlock, WeakPtr.moveAssign, WeakPtr.move,
      WeakPtr.Swap, WeakPtr.destroy, WeakPtr.null]

/-- C13, as stated, fails for a type that derives from `EnableSharedFromThis`: after
`T* p = new T; T* q = new T; SharedPtr<T> s(p); s.Reset(q)` the handle has `Get() == q`
and `UseCount() == 1`, but the weak counter of its fresh control block is 1, not 0. -/
theorem C13_reset_ptr_weak_count_is_one :
    program (.ofPtr true 2 0) [] = .ok exampleWorldEsft ∧
    exampleWorldEsft.getShared 0 = some ⟨some 0, some 0⟩ ∧
    ∃ h2 blk, SharedPtr.ResetPtr true ⟨some 0, some 0⟩ exampleWorldEsft.heap (some 1) =
        .ok (h2, ⟨some 1, some 1⟩) ∧
      (SharedPtr.mk (some 1) (some 1)).UseCount h2 = .ok 1 ∧
      h2.deref (some 1) = .ok blk ∧ blk.counter_ = 1 ∧ blk.weak_counter_ = 1 ∧
      ¬ (blk.weak_counter_ = 0) :=
  ⟨rfl, rfl, _, _, rfl, rfl, rfl, rfl, rfl, by decide⟩

/-- C13 as amended: in a state reached by a program let `s` be the handle in a live
variable.  `Reset()` runs without a fault, leaves the handle empty (`Get()` null,
`UseCount()` zero) and has on the heap exactly the effect of destroying `s`: when `s`
is non-empty the number of strong references to the block is reduced by one, and so is
the strong counter of the block if the block stays allocated, and the object has been
destroyed exactly when `s` was the last strong reference.  `Reset(ptr)` with `ptr` another allocated object has the same effect on the
old block and leaves the handle with `Get() == ptr` and `UseCount() == 1` on a fresh
control block with strong counter 1 and weak counter 0, or weak counter 1 when `T`
derives from `EnableSharedFromThis` (the reference held by `weak_this_`). -/
theorem C13_reset_releases_old_reference (o : Origin) (pre : List Op) (w : World) (i : Nat)
    (s : SharedPtr) (esft : Bool) (p : Nat) (hw : program o pre = .ok w)
    (hs : w.getShared i = some s) (hp : p < w.heap.objects.length) (hpa : p ≠ o.addr) :
    ∃ b0 b1 h1 h2, w.heap.blocks = [b0] ∧
      s.destroy w.heap = .ok h1 ∧ h1.blocks = [b1] ∧
      (s.toBool = true →
        strongRefs 0 (w.shared.set i (some SharedPtr.null)) = strongRefs 0 w.shared - 1 ∧
        (b1.freed = false → b1.counter_ = b0.counter_ - 1) ∧
        (b1.objectDeletes = 1 ↔ strongRefs 0 w.shared = 1)) ∧
      s.Reset w.heap = .ok (h1, SharedPtr.null) ∧
      SharedPtr.null.Get = none ∧ SharedPtr.null.UseCount h1 = .ok 0 ∧
      step w (.sharedReset i) =
        .ok { w with heap := h1, shared := w.shared.set i (some SharedPtr.null) } ∧
      SharedPtr.ResetPtr esft s w.heap (some p) = .ok (h2, ⟨some p, some 1⟩) ∧
      (SharedPtr.mk (some p) (some 1)).Get = some p ∧
      (SharedPtr.mk (some p) (some 1)).UseCount h2 = .ok 1 ∧
      h2.blocks = [b1, { PointerControlBlock (some p) with
                          weak_counter_ := if esft then 1 else 0 }] := by
  obtain ⟨objs, hinv⟩ := program_ok_inv hw
  obtain ⟨blk, hheap, hg⟩ := hinv.heap
  obtain ⟨hget, hfam, hle⟩ := hinv.shared_slot hs
  obtain ⟨blk1, hd, hg1, -⟩ := shared_destroy_fam hfam hg hle
  obtain ⟨blk2, hr, -, -⟩ := shared_reset_fam hfam hg hle
  have e : blk2 = blk1 := by
    simp only [SharedPtr.Reset, SharedPtr.Swap, SharedPtr.null] at hr
    have hd1 : SharedPtr.destroy ⟨s.stored_ptr_, s.control_block_⟩ ⟨[blk], objs⟩ =
        .ok ⟨[blk1], objs⟩ := hd
    simp [hd1] at hr
    exact hr.symm
  rw [e] at hr
  have hpo : objs[p]? = some { weak_this_ := WeakPtr.null } := by
    have hlen : p < objs.length := by simpa [hheap] using hp
    have hx : w.heap.objects[p]? = some (objs.get ⟨p, hlen⟩) := by
      rw [hheap]
      exact List.getElem?_eq_getElem hlen
    have := program_objects hw p _ hpa hx
    rw [hheap] at hx
    rw [hx, this]
  have hap : p ≠ o.addr := hpa
  have hobj : (if esft then objs.set p { weak_this_ := ⟨some p, some 1⟩ } else objs)[o.addr]? =
      objs[o.addr]? := by
    cases esft
    · rfl
    · simp [List.getElem?_set_ne hap]
  obtain ⟨blk3, hd3, hfr⟩ := shared_destroy_frame hfam hg hle
    [{ PointerControlBlock (some p) with weak_counter_ := if esft then 1 else 0 }] _ hobj
  rw [hd] at hd3
  simp only [Except.ok.injEq, Heap.mk.injEq, and_true, List.cons.injEq] at hd3
  rw [← hd3] at hfr
  have hrp : SharedPtr.ResetPtr esft s ⟨[blk], objs⟩ (some p) =
      .ok (⟨[blk1, { PointerControlBlock (some p) with
                      weak_counter_ := if esft then 1 else 0 }],
            if esft then objs.set p { weak_this_ := ⟨some p, some 1⟩ } else objs⟩,
           ⟨some p, some 1⟩) := by
    have hfr1 : SharedPtr.destroy ⟨s.stored_ptr_, s.control_block_⟩
        ⟨[blk, { PointerControlBlock (some p) with weak_counter_ := if esft then 1 else 0 }],
          if esft then objs.set p { weak_this_ := ⟨some p, some 1⟩ } else objs⟩ = _ := hfr
    simp only [SharedPtr.ResetPtr, shared_ofPtr_fresh esft blk objs p hpo, bind_ok,
      SharedPtr.Swap, hfr1, pure_eq_ok]
  refine ⟨blk, blk1, ⟨[blk1], objs⟩, _, by rw [hheap], by rw [hheap, hd], rfl, ?_,
    by rw [hheap, hr], rfl, rfl, ?_, by rw [hheap, hrp], rfl, ?_, rfl⟩
  · intro hne
    rcases shared_inFamily_cases hfam with rfl | ⟨q, rfl⟩
    · simp [SharedPtr.toBool, SharedPtr.Get, SharedPtr.null] at hne
    · simp [SharedPtr.refs] at hle hg1
      have hf := hg.live (by omega)
      have hc := hg.strong hf
      have hdel := hg1.deletes
      refine ⟨?_, fun hf1 => ?_, ?_⟩
      · rw [strongRefs_set _ hget]
        simp [SharedPtr.refs, slotVal, SharedPtr.null]
      · have hc1 := hg1.strong hf1
        rw [hc1, hc]
        omega
      · omega
  · simp only [step, hs, hheap, hr, bind_ok, pure_eq_ok]
  · simp [SharedPtr.UseCount, SharedPtr.toBool, SharedPtr.Get, Heap.GetCount, Heap.deref,
      PointerControlBlock]

/-- Witness for C13 as amended: the state after `T* p = new T; T* q = new T;
SharedPtr<T> s(p);` with `s.Reset(q)`. -/
theorem C13_reset_releases_old_reference_witness :
    program (.ofPtr true 2 0) [] = .ok exampleWorldEsft ∧
    ∃ h2, SharedPtr.ResetPtr true ⟨some 0, some 0⟩ exampleWorldEsft.heap (some 1) =
        .ok (h2, ⟨some 1, some 1⟩) ∧
      (SharedPtr.mk (some 1) (some 1)).UseCount h2 = .ok 1 :=
  have h := C13_reset_releases_old_reference (.ofPtr true 2 0) [] exampleWorldEsft 0
    ⟨some 0, some 0⟩ true 1 rfl rfl (by decide) (by decide)
  ⟨rfl, by
    obtain ⟨-, -, -, h2, -, -, -, -, -, -, -, -, h9, -, h11, -⟩ := h
    exact ⟨h2, h9, h11⟩⟩

/-! ## Allocations and deallocations -/

theorem ofPtr_block {esft : Bool} {n : Nat} {a : Fin n} {w0 : World}
    (h : World.ofPtr esft n a = .ok w0) :
    ∃ b, w0.heap.blocks = [b] ∧ b.inPlace = false ∧ w0.heap.objects.length = n := by
  have ha : (a : Nat) < n := a.isLt
  cases esft
  · have h0 : World.ofPtr false n a = .ok
        { heap := { blocks := [PointerControlBlock (some a)],
                    objects := List.replicate n { weak_this_ := WeakPtr.null } },
          shared := [some ⟨some a, some 0⟩], weak := [] } := rfl
    simp only [h0, Except.ok.injEq] at h
    subst h
    exact ⟨_, rfl, rfl, by simp⟩
  · have h0 : World.ofPtr true n a = .ok
        { heap := { blocks := [{ PointerControlBlock (some a) with weak_counter_ := 1 }],
                    objects := (List.replicate n { weak_this_ := WeakPtr.null }).set a
                      { weak_this_ := ⟨some a, some 0⟩ } },
          shared := [some ⟨some a, some 0⟩], weak := [] } := by
      simp [World.ofPtr, SharedPtr.ofPtr, SharedPtr.InitWeakThis, Heap.fresh,
        List.getElem?_replicate, ha, WeakPtr.ofShared, WeakPtr.toBool, Heap.WeakIncrement,
        Heap.modify, PointerControlBlock, WeakPtr.moveAssign, WeakPtr.move, WeakPtr.Swap,
        WeakPtr.destroy, WeakPtr.null]
    simp only [h0, Except.ok.injEq] at h
    subst h
    exact ⟨_, rfl, rfl, by simp⟩

theorem ofMakeShared_block {esft : Bool} {n : Nat} {w0 : World}
    (h : World.ofMakeShared esft n = .ok w0) :
    ∃ b, w0.heap.blocks = [b] ∧ b.inPlace = true ∧ w0.heap.objects.length = n + 1 := by
  cases esft
  · have h0 : World.ofMakeShared false n = .ok
        { heap := { blocks := [ObjectControlBlock n],
                    objects := List.replicate n { weak_this_ := WeakPtr.null } ++
                      [{ weak_this_ := WeakPtr.null }] },
          shared := [some ⟨some n, some 0⟩], weak := [] } := by
      simp [World.ofMakeShared, MakeShared, Heap.fresh]
    simp only [h0, Except.ok.injEq] at h
    subst h
    exact ⟨_, rfl, rfl, by simp⟩
  · have h0 : World.ofMakeShared true n = .ok
        { heap := { blocks := [{ ObjectControlBlock n with weak_counter_ := 1 }],
                    objects := List.replicate n { weak_this_ := WeakPtr.null } ++
                      [{ weak_this_ := ⟨some n, some 0⟩ }] },
          shared := [some ⟨some n, some 0⟩], weak := [] } := by
      simp [World.ofMakeShared, MakeShared, SharedPtr.InitWeakThis, Heap.fresh,
        List.getElem?_append_right, WeakPtr.ofShared, WeakPtr.toBool, Heap.WeakIncrement,
        Heap.modify, ObjectControlBlock, WeakPtr.moveAssign, WeakPtr.move, WeakPtr.Swap,
        WeakPtr.destroy, WeakPtr.null]
    simp only [h0, Except.ok.injEq] at h
    subst h
    exact ⟨_, rfl, rfl, by simp⟩

/-- The state reached by a program: the block keeps its kind, no object is added, and
the block records the deallocations that the numbers of live handles determine. -/
theorem program_block (o : Origin) (ops : List Op) :
    ∃ w0 b0 w b, o.world = .ok w0 ∧ w0.heap.blocks = [b0] ∧ w0.shared = [some ⟨some o.addr, some 0⟩] ∧
      program o ops = .ok w ∧ w.heap.blocks = [b] ∧
      b.inPlace = b0.inPlace ∧ w.heap.objects.length = w0.heap.objects.length ∧
      b.ptr_ = some o.addr ∧
      (b.freed = true ↔ strongRefs 0 w.shared = 0 ∧ weakRefs 0 w.weak = 0) ∧
      b.objectDeletes = (if strongRefs 0 w.shared = 0 then 1 else 0) := by
  obtain ⟨objs, w0, h0, hi0, hsh, -⟩ := o.world_inv
  obtain ⟨w, h1, hi1, hl⟩ := run_inv ops hi0
  obtain ⟨b0, hh0, -⟩ := hi0.heap
  obtain ⟨b, hh, hg⟩ := hi1.heap
  have hb0 : w0.heap.blocks = [b0] := by rw [hh0]
  have hb : w.heap.blocks = [b] := by rw [hh]
  refine ⟨w0, b0, w, b, h0, hb0, hsh, by simp only [program, h0, bind_ok, h1], hb,
    (hl b0 b hb0 hb).inPlace, by rw [hh, hh0], hg.ptr, hg.freed, ?_⟩
  have := hg.deletes
  split_ifs with hS
  · rw [hS] at this
    simpa using this
  · have : min (strongRefs 0 w.shared) 1 = 1 := by omega
    omega

/-- C19: with `n` other objects allocated before, a program that starts with
`MakeShared<T>()` has performed `n + 1` allocations in every state it reaches (one for
the `ObjectControlBlock` that holds the counters and the object), and its only
deallocation is that of the block, done exactly when no live handle references the
block any more.  A program that starts with `SharedPtr<T> s(new T)` has performed
`n + 2` allocations (the object and the `PointerControlBlock`) and performs two
deallocations: the object when the last `SharedPtr` is gone, the block when no handle
is left.  Destroying the first handle right away is a full teardown, with one
deallocation on the first path and two on the second. -/
theorem C19_make_shared_one_allocation (esft : Bool) (n : Nat) (a : Fin (n + 1))
    (ops : List Op) :
    (Heap.fresh n).allocations = n ∧ (Heap.fresh n).deallocations = 0 ∧
    (∃ w b, program (.makeShared esft n) ops = .ok w ∧ w.heap.blocks = [b] ∧
      b.inPlace = true ∧ w.heap.allocations = n + 1 ∧
      w.heap.deallocations =
        (if strongRefs 0 w.shared = 0 ∧ weakRefs 0 w.weak = 0 then 1 else 0)) ∧
    (∃ w b, program (.ofPtr esft (n + 1) a) ops = .ok w ∧ w.heap.blocks = [b] ∧
      b.inPlace = false ∧ w.heap.allocations = n + 2 ∧
      w.heap.deallocations =
        (if strongRefs 0 w.shared = 0 then 1 else 0) +
        (if strongRefs 0 w.shared = 0 ∧ weakRefs 0 w.weak = 0 then 1 else 0)) ∧
    (∃ w, program (.makeShared esft n) [.sharedDestroy 0] = .ok w ∧
      w.shared = [none] ∧ w.weak = [] ∧ w.heap.deallocations = 1) ∧
    (∃ w, program (.ofPtr esft (n + 1) a) [.sharedDestroy 0] = .ok w ∧
      w.shared = [none] ∧ w.weak = [] ∧ w.heap.deallocations = 2) := by
  have key1 : ∀ ops, ∃ w b, program (.makeShared esft n) ops = .ok w ∧ w.heap.blocks = [b] ∧
      b.inPlace = true ∧ w.heap.allocations = n + 1 ∧
      w.heap.deallocations =
        (if strongRefs 0 w.shared = 0 ∧ weakRefs 0 w.weak = 0 then 1 else 0) := by
    intro ops
    obtain ⟨w0, b0, w, b, h0, hb0, -, hp, hb, hin, hlen, hptr, hfr, hdel⟩ :=
      program_block (.makeShared esft n) ops
    obtain ⟨b0', hb0', hin0, hlen0⟩ := ofMakeShared_block h0
    rw [hb0] at hb0'
    cases hb0'
    rw [hin0] at hin
    refine ⟨w, b, hp, hb, hin, ?_, ?_⟩
    · simp [Heap.allocations, hb, hin, hlen, hlen0]
      omega
    · by_cases hc : strongRefs 0 w.shared = 0 ∧ weakRefs 0 w.weak = 0
      · simp [Heap.deallocations, hb, ControlBlock.deallocations, hin, hc, hfr.2 hc]
      · have : b.freed = false := by
          cases hf : b.freed
          · rfl
          · exact absurd (hfr.1 hf) hc
        simp [Heap.deallocations, hb, ControlBlock.deallocations, hin, hc, this]
  have key2 : ∀ ops, ∃ w b, program (.ofPtr esft (n + 1) a) ops = .ok w ∧ w.heap.blocks = [b] ∧
      b.inPlace = false ∧ w.heap.allocations = n + 2 ∧
      w.heap.deallocations =
        (if strongRefs 0 w.shared = 0 then 1 else 0) +
        (if strongRefs 0 w.shared = 0 ∧ weakRefs 0 w.weak = 0 then 1 else 0) := by
    intro ops
    obtain ⟨w0, b0, w, b, h0, hb0, -, hp, hb, hin, hlen, hptr, hfr, hdel⟩ :=
      program_block (.ofPtr esft (n + 1) a) ops
    obtain ⟨b0', hb0', hin0, hlen0⟩ := ofPtr_block h0
    rw [hb0] at hb0'
    cases hb0'
    rw [hin0] at hin
    refine ⟨w, b, hp, hb, hin, ?_, ?_⟩
    · simp [Heap.allocations, hb, hin, hlen, hlen0]
      omega
    · by_cases hc : strongRefs 0 w.shared = 0 ∧ weakRefs 0 w.weak = 0
      · simp [Heap.deallocations, hb, ControlBlock.deallocations, hin, hptr, hdel, hc,
          hfr.2 hc]
      · have : b.freed = false := by
          cases hf : b.freed
          · rfl
          · exact absurd (hfr.1 hf) hc
        simp [Heap.deallocations, hb, ControlBlock.deallocations, hin, hptr, hdel, hc, this]
  have tear : ∀ o : Origin, ∃ w, program o [.sharedDestroy 0] = .ok w ∧
      w.shared = [none] ∧ w.weak = [] := by
    intro o
    obtain ⟨objs, w0, h0, hi0, hsh, hwk⟩ := o.world_inv
    obtain ⟨w1, h1, -, -⟩ := step_inv hi0 (.sharedDestroy 0)
    have hs : w0.getShared 0 = some ⟨some o.addr, some 0⟩ := by
      simp [World.getShared, hsh]
    obtain ⟨e1, e2⟩ := step_sharedDestroy_slots hs h1
    refine ⟨w1, by simp only [program, h0, bind_ok, run, h1, pure_eq_ok], ?_, ?_⟩
    · rw [e1, hsh]
      rfl
    · rw [e2, hwk]
  refine ⟨by simp [Heap.allocations, Heap.fresh], rfl, key1 ops, key2 ops, ?_, ?_⟩
  · obtain ⟨w, hp, hs, hk⟩ := tear (.makeShared esft n)
    obtain ⟨w1, b, hp1, -, -, -, hd⟩ := key1 [.sharedDestroy 0]
    rw [hp] at hp1
    cases hp1
    refine ⟨w, hp, hs, hk, ?_⟩
    rw [hd, hs, hk]
    rfl
  · obtain ⟨w, hp, hs, hk⟩ := tear (.ofPtr esft (n + 1) a)
    obtain ⟨w1, b, hp1, -, -, -, hd⟩ := key2 [.sharedDestroy 0]
    rw [hp] at hp1
    cases hp1
    refine ⟨w, hp, hs, hk, ?_⟩
    rw [hd, hs, hk]
    rfl

/-! ## Handles and the blocks that manage their pointers -/

theorem bind_eq_ok {ε α β : Type} {x : Except ε α} {f : α → Except ε β} {b : β}
    (h : (x >>= f) = .ok b) : ∃ a, x = .ok a ∧ f a = .ok b := by
  cases x with
  | error e => cases h
  | ok a => exact ⟨a, rfl, h⟩

theorem same_refl (h : Heap) : Heap.Same h h := ⟨fun _ => rfl, rfl⟩

theorem same_trans {h h1 h2 : Heap} (a : Heap.Same h h1) (b : Heap.Same h1 h2) :
    Heap.Same h h2 :=
  ⟨fun i => (b.1 i).trans (a.1 i), b.2.trans a.2⟩

theorem modify_same {h h1 : Heap} {cb : BlockPtr} {f : ControlBlock → ControlBlock}
    (e : h.modify cb f = .ok h1) (hf : ∀ b, (f b).ptr_ = b.ptr_) : Heap.Same h h1 := by
  unfold Heap.modify at e
  cases cb with
  | none => cases e
  | some i =>
    cases hb : h.blocks[i]? with
    | none => simp [hb] at e
    | some b =>
      simp only [hb] at e
      split_ifs at e
      cases e
      refine ⟨fun j => ?_, rfl⟩
      simp only [Heap.ptrOf, List.getElem?_set]
      split_ifs with h1 h2
      · subst h1
        simp [hb, hf]
      · subst h1
        rw [List.getElem?_eq_none (by omega)]
      · rfl

theorem deleteBlock_same {h h1 : Heap} {cb : BlockPtr} (e : h.deleteBlock cb = .ok h1) :
    Heap.Same h h1 := by
  cases cb with
  | none =>
    cases e
    exact same_refl h
  | some i =>
    have e1 : h.modify (some i) (fun b => { b with freed := true }) = .ok h1 := e
    exact modify_same e1 (fun _ => rfl)

theorem weak_destroy_same {x : WeakPtr} {h h1 : Heap} (e : x.destroy h = .ok h1) :
    Heap.Same h h1 := by
  unfold WeakPtr.destroy at e
  split_ifs at e
  · obtain ⟨uc, -, e⟩ := bind_eq_ok e
    obtain ⟨wc, -, e⟩ := bind_eq_ok e
    split_ifs at e
    · obtain ⟨h2, e2, e⟩ := bind_eq_ok e
      exact same_trans (modify_same e2 (fun _ => rfl)) (deleteBlock_same e)
    · exact modify_same e (fun _ => rfl)
  · cases e
    exact same_refl h

theorem objectDelete_same {h h1 : Heap} {cb : BlockPtr} (e : h.ObjectDelete cb = .ok h1) :
    Heap.Same h h1 := by
  unfold Heap.ObjectDelete at e
  obtain ⟨b, -, e⟩ := bind_eq_ok e
  obtain ⟨h2, e2, e⟩ := bind_eq_ok e
  have s2 := modify_same e2 (fun _ => rfl)
  cases hp : b.ptr_ with
  | none =>
    simp only [hp] at e
    cases e
    exact s2
  | some a =>
    simp only [hp] at e
    cases ho : h2.objects[a]? with
    | none =>
      simp only [ho] at e
      cases e
      exact s2
    | some o =>
      simp only [ho] at e
      exact same_trans s2 (weak_destroy_same e)

theorem shared_destroy_same {s : SharedPtr} {h h1 : Heap} (e : s.destroy h = .ok h1) :
    Heap.Same h h1 := by
  unfold SharedPtr.destroy at e
  split_ifs at e
  · obtain ⟨uc, -, e⟩ := bind_eq_ok e
    obtain ⟨wc, -, e⟩ := bind_eq_ok e
    split_ifs at e
    · obtain ⟨h2, e2, e⟩ := bind_eq_ok e
      exact same_trans (objectDelete_same e2) (deleteBlock_same e)
    · obtain ⟨h2, e2, e⟩ := bind_eq_ok e
      obtain ⟨uc1, -, e⟩ := bind_eq_ok e
      have s2 := modify_same e2 (fun _ => rfl)
      split_ifs at e
      · exact same_trans s2 (objectDelete_same e)
      · cases e
        exact s2
  · cases e
    exact same_refl h

theorem shared_copy_same {h h1 : Heap} {o x : SharedPtr}
    (e : SharedPtr.copy h o = .ok (h1, x)) : Heap.Same h h1 ∧ x = o := by
  unfold SharedPtr.copy at e
  dsimp only at e
  split_ifs at e
  · obtain ⟨h2, e2, e⟩ := bind_eq_ok e
    cases e
    exact ⟨modify_same e2 (fun _ => rfl), rfl⟩
  · cases e
    exact ⟨same_refl h, rfl⟩

theorem shared_ofWeak_same {h h1 : Heap} {wk : WeakPtr} {x : SharedPtr}
    (e : SharedPtr.ofWeak h wk = .ok (h1, x)) :
    Heap.Same h h1 ∧ x = ⟨wk.stored_ptr_, wk.control_block_⟩ := by
  unfold SharedPtr.ofWeak at e
  obtain ⟨ex, -, e⟩ := bind_eq_ok e
  cases ex with
  | true => cases e
  | false =>
    obtain ⟨u, -, e⟩ := bind_eq_ok e
    dsimp only at e
    split_ifs at e
    · obtain ⟨h2, e2, e⟩ := bind_eq_ok e
      cases e
      exact ⟨modify_same e2 (fun _ => rfl), rfl⟩
    · cases e
      exact ⟨same_refl h, rfl⟩

theorem shared_assign_same {h h1 : Heap} {s o x : SharedPtr}
    (e : SharedPtr.assign h s o = .ok (h1, x)) : Heap.Same h h1 ∧ x = o := by
  unfold SharedPtr.assign at e
  obtain ⟨⟨h2, tmp⟩, e2, e5⟩ := bind_eq_ok e
  clear e
  obtain ⟨s2, rfl⟩ := shared_copy_same e2
  obtain ⟨h3, e3, e6⟩ := bind_eq_ok e5
  cases e6
  exact ⟨same_trans s2 (shared_destroy_same e3), rfl⟩

theorem shared_moveAssign_same {h h1 : Heap} {s o x o1 : SharedPtr}
    (e : SharedPtr.moveAssign h s o = .ok (h1, x, o1)) :
    Heap.Same h h1 ∧ x = o ∧ o1 = SharedPtr.null := by
  unfold SharedPtr.moveAssign at e
  obtain ⟨h3, e3, e⟩ := bind_eq_ok e
  cases e
  exact ⟨shared_destroy_same e3, rfl, rfl⟩

theorem shared_reset_same {h h1 : Heap} {s x : SharedPtr}
    (e : s.Reset h = .ok (h1, x)) : Heap.Same h h1 ∧ x = SharedPtr.null := by
  unfold SharedPtr.Reset at e
  obtain ⟨h3, e3, e⟩ := bind_eq_ok e
  cases e
  exact ⟨shared_destroy_same e3, rfl⟩

theorem weak_ofShared_same {h h1 : Heap} {s : SharedPtr} {x : WeakPtr}
    (e : WeakPtr.ofShared h s = .ok (h1, x)) :
    Heap.Same h h1 ∧ x = ⟨s.stored_ptr_, s.control_block_⟩ := by
  unfold WeakPtr.ofShared at e
  dsimp only at e
  split_ifs at e
  · obtain ⟨h2, e2, e⟩ := bind_eq_ok e
    cases e
    exact ⟨modify_same e2 (fun _ => rfl), rfl⟩
  · cases e
    exact ⟨same_refl h, rfl⟩

theorem weak_copy_same {h h1 : Heap} {o x : WeakPtr}
    (e : WeakPtr.copy h o = .ok (h1, x)) : Heap.Same h h1 ∧ x = o := by
  unfold WeakPtr.copy at e
  dsimp only at e
  split_ifs at e
  · obtain ⟨h2, e2, e⟩ := bind_eq_ok e
    cases e
    exact ⟨modify_same e2 (fun _ => rfl), rfl⟩
  · cases e
    exact ⟨same_refl h, rfl⟩

theorem weak_assign_same {h h1 : Heap} {s o x : WeakPtr}
    (e : WeakPtr.assign h s o = .ok (h1, x)) : Heap.Same h h1 ∧ x = o := by
  unfold WeakPtr.assign at e
  obtain ⟨⟨h2, tmp⟩, e2, e5⟩ := bind_eq_ok e
  clear e
  obtain ⟨s2, rfl⟩ := weak_copy_same e2
  obtain ⟨h3, e3, e6⟩ := bind_eq_ok e5
  cases e6
  exact ⟨same_trans s2 (weak_destroy_same e3), rfl⟩

theorem weak_moveAssign_same {h h1 : Heap} {s o x o1 : WeakPtr}
    (e : WeakPtr.moveAssign h s o = .ok (h1, x, o1)) :
    Heap.Same h h1 ∧ x = o ∧ o1 = WeakPtr.null := by
  unfold WeakPtr.moveAssign at e
  obtain ⟨h3, e3, e⟩ := bind_eq_ok e
  cases e
  exact ⟨weak_destroy_same e3, rfl, rfl⟩

theorem weak_assignShared_same {h h1 : Heap} {s x : WeakPtr} {o : SharedPtr}
    (e : WeakPtr.assignShared h s o = .ok (h1, x)) :
    Heap.Same h h1 ∧ x = ⟨o.stored_ptr_, o.control_block_⟩ := by
  unfold WeakPtr.assignShared at e
  obtain ⟨⟨h2, tmp⟩, e2, e5⟩ := bind_eq_ok e
  clear e
  obtain ⟨s2, rfl⟩ := weak_ofShared_same e2
  obtain ⟨⟨h3, x3, t3⟩, e3, e6⟩ := bind_eq_ok e5
  clear e5
  obtain ⟨s3, rfl, rfl⟩ := weak_moveAssign_same e3
  obtain ⟨h4, e4, e7⟩ := bind_eq_ok e6
  cases e7
  exact ⟨same_trans s2 (same_trans s3 (weak_destroy_same e4)), rfl⟩

theorem weak_reset_same {h h1 : Heap} {s x : WeakPtr}
    (e : s.Reset h = .ok (h1, x)) : Heap.Same h h1 ∧ x = WeakPtr.null := by
  rw [WeakPtr.Reset_eq_destroy] at e
  obtain ⟨h3, e3, e⟩ := bind_eq_ok e
  cases e
  exact ⟨weak_destroy_same e3, rfl⟩

theorem weak_lock_same {h h1 : Heap} {wk : WeakPtr} {x : SharedPtr}
    (e : wk.Lock h = .ok (h1, x)) :
    Heap.Same h h1 ∧ (x = SharedPtr.null ∨ x = ⟨wk.stored_ptr_, wk.control_block_⟩) := by
  unfold WeakPtr.Lock at e
  obtain ⟨ex, -, e⟩ := bind_eq_ok e
  cases ex with
  | true =>
    cases e
    exact ⟨same_refl h, Or.inl rfl⟩
  | false =>
    obtain ⟨s2, e2⟩ := shared_ofWeak_same e
    exact ⟨s2, Or.inr e2⟩

theorem initWeakThis_same {h h1 : Heap} {s : SharedPtr} {p : Ptr}
    (e : s.InitWeakThis h p = .ok h1) : Heap.Same h h1 := by
  unfold SharedPtr.InitWeakThis at e
  cases p with
  | none => cases e
  | some a =>
    dsimp only at e
    cases ho : h.objects[a]? with
    | none => simp [ho] at e
    | some o =>
      simp only [ho] at e
      obtain ⟨⟨h2, tmp⟩, e2, e5⟩ := bind_eq_ok e
      clear e
      obtain ⟨s2, rfl⟩ := weak_ofShared_same e2
      obtain ⟨⟨h3, x3, t3⟩, e3, e6⟩ := bind_eq_ok e5
      clear e5
      obtain ⟨s3, rfl, rfl⟩ := weak_moveAssign_same e3
      obtain ⟨h4, e4, e7⟩ := bind_eq_ok e6
      cases e7
      have s4 := same_trans s2 (same_trans s3 (weak_destroy_same e4))
      exact ⟨fun b => s4.1 b, by simpa using s4.2⟩

theorem manages_null (h : Heap) (cb : BlockPtr) : h.manages none cb := by
  intro a ha
  cases ha

theorem ptrOf_lt {h : Heap} {b : Nat} {p : Ptr} (e : h.ptrOf b = some p) :
    b < h.blocks.length := by
  rcases Nat.lt_or_ge b h.blocks.length with hlt | hge
  · exact hlt
  · simp [Heap.ptrOf, List.getElem?_eq_none hge] at e

theorem tidy_of_same {w : World} (ht : Tidy w) {h1 : Heap} (hs : Heap.Same w.heap h1)
    {sh : List (Option SharedPtr)} {wk : List (Option WeakPtr)}
    (hsh : ∀ s, some s ∈ sh → w.heap.manages s.stored_ptr_ s.control_block_)
    (hwk : ∀ x, some x ∈ wk → w.heap.manages x.stored_ptr_ x.control_block_) :
    Tidy { heap := h1, shared := sh, weak := wk } := by
  constructor
  · intro s hm a ha
    obtain ⟨b, hb, hp⟩ := hsh s hm a ha
    exact ⟨b, hb, (hs.1 b).trans hp⟩
  · intro x hm a ha
    obtain ⟨b, hb, hp⟩ := hwk x hm a ha
    exact ⟨b, hb, (hs.1 b).trans hp⟩
  · intro b1 b2 a e1 e2
    exact ht.inj b1 b2 a ((hs.1 b1).symm.trans e1) ((hs.1 b2).symm.trans e2)
  · intro b a e
    have := ht.bound b a ((hs.1 b).symm.trans e)
    show a < h1.objects.length
    rw [hs.2]
    exact this

theorem tidy_grow {w : World} (ht : Tidy w) {h1 h2 : Heap} {a : Nat}
    (hg : Heap.Grown w.heap h1 a) (hs : Heap.Same h1 h2)
    {sh : List (Option SharedPtr)} {wk : List (Option WeakPtr)}
    (hsh : ∀ s, some s ∈ sh → w.heap.manages s.stored_ptr_ s.control_block_ ∨
      s = ⟨some a, some w.heap.blocks.length⟩)
    (hwk : ∀ x, some x ∈ wk → w.heap.manages x.stored_ptr_ x.control_block_) :
    Tidy { heap := h2, shared := sh, weak := wk } := by
  obtain ⟨hp, hle, hlt⟩ := hg
  have old : ∀ b p, w.heap.ptrOf b = some p → h2.ptrOf b = some p := by
    intro b p e
    have hb := ptrOf_lt e
    rw [hs.1 b, hp b, if_neg (by omega), e]
  have cases2 : ∀ b x, h2.ptrOf b = some (some x) →
      (b = w.heap.blocks.length ∧ x = a) ∨ w.heap.ptrOf b = some (some x) := by
    intro b x e
    rw [hs.1 b, hp b] at e
    split_ifs at e with hb
    · left
      simp at e
      exact ⟨hb, e.symm⟩
    · exact Or.inr e
  constructor
  · intro s hm x hx
    rcases hsh s hm with h | rfl
    · obtain ⟨b, hb, hq⟩ := h x hx
      exact ⟨b, hb, old b _ hq⟩
    · simp at hx
      subst hx
      exact ⟨w.heap.blocks.length, rfl, by
        show h2.ptrOf _ = _
        rw [hs.1, hp, if_pos rfl]⟩
  · intro y hm x hx
    obtain ⟨b, hb, hq⟩ := hwk y hm x hx
    exact ⟨b, hb, old b _ hq⟩
  · intro b1 b2 x e1 e2
    rcases cases2 b1 x e1 with ⟨hb1, hx1⟩ | h1'
    · rcases cases2 b2 x e2 with ⟨hb2, -⟩ | h2'
      · rw [hb1, hb2]
      · have := ht.bound b2 x h2'
        omega
    · rcases cases2 b2 x e2 with ⟨hb2, hx2⟩ | h2'
      · have := ht.bound b1 x h1'
        omega
      · exact ht.inj b1 b2 x h1' h2'
  · intro b x e
    show x < h2.objects.length
    rw [hs.2]
    rcases cases2 b x e with ⟨-, hx⟩ | h'
    · omega
    · have := ht.bound b x h'
      omega

theorem ofPtr_grow {esft : Bool} {h h1 : Heap} {a : Nat} {s : SharedPtr}
    (e : SharedPtr.ofPtr esft h (some a) = .ok (h1, s)) :
    s = ⟨some a, some h.blocks.length⟩ ∧
    (∀ b, h1.ptrOf b = if b = h.blocks.length then some (some a) else h.ptrOf b) ∧
    h1.objects.length = h.objects.length := by
  have base : ∀ b, Heap.ptrOf { h with blocks := h.blocks ++ [PointerControlBlock (some a)] } b =
      if b = h.blocks.length then some (some a) else h.ptrOf b := by
    intro b
    simp only [Heap.ptrOf]
    split_ifs with hb
    · subst hb
      simp [PointerControlBlock]
    · rcases Nat.lt_or_ge b h.blocks.length with hlt | hge
      · rw [List.getElem?_append_left hlt]
      · rw [List.getElem?_eq_none (by simp; omega), List.getElem?_eq_none hge]
  unfold SharedPtr.ofPtr at e
  dsimp only at e
  cases esft
  · simp only [Bool.false_eq_true, if_false] at e
    cases e
    exact ⟨rfl, base, rfl⟩
  · simp only [if_true] at e
    obtain ⟨h2, e2, e3⟩ := bind_eq_ok e
    cases e3
    have s2 := initWeakThis_same e2
    exact ⟨rfl, fun b => (s2.1 b).trans (base b), s2.2⟩

theorem makeShared_grow {esft : Bool} {h h1 : Heap} {s : SharedPtr}
    (e : MakeShared esft h = .ok (h1, s)) :
    s = ⟨some h.objects.length, some h.blocks.length⟩ ∧
    (∀ b, h1.ptrOf b =
      if b = h.blocks.length then some (some h.objects.length) else h.ptrOf b) ∧
    h1.objects.length = h.objects.length + 1 := by
  have base : ∀ b, Heap.ptrOf ⟨h.blocks ++ [ObjectControlBlock h.objects.length],
        h.objects ++ [{ weak_this_ := WeakPtr.null }]⟩ b =
      if b = h.blocks.length then some (some h.objects.length) else h.ptrOf b := by
    intro b
    simp only [Heap.ptrOf]
    split_ifs with hb
    · subst hb
      simp [ObjectControlBlock]
    · rcases Nat.lt_or_ge b h.blocks.length with hlt | hge
      · rw [List.getElem?_append_left hlt]
      · rw [List.getElem?_eq_none (by simp; omega), List.getElem?_eq_none hge]
  unfold MakeShared at e
  dsimp only at e
  cases esft
  · simp only [Bool.false_eq_true, if_false] at e
    cases e
    exact ⟨rfl, base, by simp⟩
  · simp only [if_true] at e
    obtain ⟨h2, e2, e3⟩ := bind_eq_ok e
    cases e3
    have s2 := initWeakThis_same e2
    exact ⟨rfl, fun b => (s2.1 b).trans (base b), by rw [s2.2]; simp⟩

theorem shared_mem {w : World} {i : Nat} {s : SharedPtr} (h : w.getShared i = some s) :
    some s ∈ w.shared := List.getElem?_mem (World.getShared_eq h)

theorem weak_mem {w : World} {j : Nat} {x : WeakPtr} (h : w.getWeak j = some x) :
    some x ∈ w.weak := List.getElem?_mem (World.getWeak_eq h)

theorem step_tidy_shared {w w1 : World} (ht : Tidy w) (op : Op)
    (e : step w op = .ok w1) :
    (match op with
      | .sharedDefault | .sharedCopy _ | .sharedMove _ | .sharedOfWeak _ | .sharedAssign _ _
      | .sharedMoveAssign _ _ | .sharedReset _ | .sharedSwap _ _ | .sharedDestroy _ => Tidy w1
      | _ => True) := by
  cases op with
  | sharedDefault =>
    cases e
    exact tidy_of_same ht (same_refl _) (fam_append ht.shared (manages_null _ _)) ht.weak
  | sharedCopy i =>
    simp only [step] at e
    cases hgs : w.getShared i with
    | none =>
      simp only [hgs] at e
      cases e
      exact ht
    | some s =>
      simp only [hgs] at e
      obtain ⟨⟨h1, x⟩, e1, e2⟩ := bind_eq_ok e
      cases e2
      obtain ⟨hs, rfl⟩ := shared_copy_same e1
      exact tidy_of_same ht hs (fam_append ht.shared (ht.shared _ (shared_mem hgs))) ht.weak
  | sharedMove i =>
    simp only [step] at e
    cases hgs : w.getShared i with
    | none =>
      simp only [hgs] at e
      cases e
      exact ht
    | some s =>
      simp only [hgs] at e
      cases e
      exact tidy_of_same ht (same_refl _)
        (fam_append (fam_set i ht.shared (manages_null _ _)) (ht.shared _ (shared_mem hgs)))
        ht.weak
  | sharedOfWeak j =>
    simp only [step] at e
    cases hgw : w.getWeak j with
    | none =>
      simp only [hgw] at e
      cases e
      exact ht
    | some wk =>
      simp only [hgw] at e
      cases hr : SharedPtr.ofWeak w.heap wk with
      | ok r =>
        obtain ⟨h1, x⟩ := r
        simp only [hr] at e
        cases e
        obtain ⟨hs, rfl⟩ := shared_ofWeak_same hr
        exact tidy_of_same ht hs (fam_append ht.shared (ht.weak _ (weak_mem hgw))) ht.weak
      | error f =>
        cases f <;> simp only [hr] at e <;> cases e
        exact ht
  | sharedAssign i k =>
    simp only [step] at e
    split_ifs at e with hik
    · cases e
      exact ht
    · cases hgi : w.getShared i with
      | none =>
        simp only [hgi] at e
        cases e
        exact ht
      | some s =>
        cases hgk : w.getShared k with
        | none =>
          simp only [hgi, hgk] at e
          cases e
          exact ht
        | some o =>
          simp only [hgi, hgk] at e
          obtain ⟨⟨h1, x⟩, e1, e2⟩ := bind_eq_ok e
          cases e2
          obtain ⟨hs, rfl⟩ := shared_assign_same e1
          exact tidy_of_same ht hs (fam_set i ht.shared (ht.shared _ (shared_mem hgk))) ht.weak
  | sharedMoveAssign i k =>
    simp only [step] at e
    split_ifs at e with hik
    · cases e
      exact ht
    · cases hgi : w.getShared i with
      | none =>
        simp only [hgi] at e
        cases e
        exact ht
      | some s =>
        cases hgk : w.getShared k with
        | none =>
          simp only [hgi, hgk] at e
          cases e
          exact ht
        | some o =>
          simp only [hgi, hgk] at e
          obtain ⟨⟨h1, x, o1⟩, e1, e2⟩ := bind_eq_ok e
          cases e2
          obtain ⟨hs, rfl, rfl⟩ := shared_moveAssign_same e1
          exact tidy_of_same ht hs
            (fam_set k (fam_set i ht.shared (ht.shared _ (shared_mem hgk))) (manages_null _ _))
            ht.weak
  | sharedReset i =>
    simp only [step] at e
    cases hgs : w.getShared i with
    | none =>
      simp only [hgs] at e
      cases e
      exact ht
    | some s =>
      simp only [hgs] at e
      obtain ⟨⟨h1, x⟩, e1, e2⟩ := bind_eq_ok e
      cases e2
      obtain ⟨hs, rfl⟩ := shared_reset_same e1
      exact tidy_of_same ht hs (fam_set i ht.shared (manages_null _ _)) ht.weak
  | sharedSwap i k =>
    simp only [step] at e
    cases hgi : w.getShared i with
    | none =>
      simp only [hgi] at e
      cases e
      exact ht
    | some s =>
      cases hgk : w.getShared k with
      | none =>
        simp only [hgi, hgk] at e
        cases e
        exact ht
      | some o =>
        simp only [hgi, hgk] at e
        cases e
        exact tidy_of_same ht (same_refl _)
          (fam_set k (fam_set i ht.shared (ht.shared _ (shared_mem hgk)))
            (ht.shared _ (shared_mem hgi)))
          ht.weak
  | sharedDestroy i =>
    simp only [step] at e
    cases hgs : w.getShared i with
    | none =>
      simp only [hgs] at e
      cases e
      exact ht
    | some s =>
      simp only [hgs] at e
      obtain ⟨h1, e1, e2⟩ := bind_eq_ok e
      cases e2
      exact tidy_of_same ht (shared_destroy_same e1) (fam_set_none i ht.shared) ht.weak
  | _ => trivial

theorem step_tidy_weak {w w1 : World} (ht : Tidy w) (op : Op)
    (e : step w op = .ok w1) :
    (match op with
      | .weakDefault | .weakOfShared _ | .weakCopy _ | .weakMove _ | .weakAssign _ _
      | .weakMoveAssign _ _ | .weakAssignShared _ _ | .weakReset _ | .weakSwap _ _
      | .weakDestroy _ | .weakLock _ => Tidy w1
      | _ => True) := by
  cases op with
  | weakDefault =>
    cases e
    exact tidy_of_same ht (same_refl _) ht.shared (fam_append ht.weak (manages_null _ _))
  | weakOfShared i =>
    simp only [step] at e
    cases hgs : w.getShared i with
    | none =>
      simp only [hgs] at e
      cases e
      exact ht
    | some s =>
      simp only [hgs] at e
      obtain ⟨⟨h1, x⟩, e1, e2⟩ := bind_eq_ok e
      cases e2
      obtain ⟨hs, rfl⟩ := weak_ofShared_same e1
      exact tidy_of_same ht hs ht.shared (fam_append ht.weak (ht.shared _ (shared_mem hgs)))
  | weakCopy j =>
    simp only [step] at e
    cases hgw : w.getWeak j with
    | none =>
      simp only [hgw] at e
      cases e
      exact ht
    | some wk =>
      simp only [hgw] at e
      obtain ⟨⟨h1, x⟩, e1, e2⟩ := bind_eq_ok e
      cases e2
      obtain ⟨hs, rfl⟩ := weak_copy_same e1
      exact tidy_of_same ht hs ht.shared (fam_append ht.weak (ht.weak _ (weak_mem hgw)))
  | weakMove j =>
    simp only [step] at e
    cases hgw : w.getWeak j with
    | none =>
      simp only [hgw] at e
      cases e
      exact ht
    | some wk =>
      simp only [hgw] at e
      cases e
      exact tidy_of_same ht (same_refl _) ht.shared
        (fam_append (fam_set j ht.weak (manages_null _ _)) (ht.weak _ (weak_mem hgw)))
  | weakAssign j k =>
    simp only [step] at e
    split_ifs at e with hjk
    · cases e
      exact ht
    · cases hgj : w.getWeak j with
      | none =>
        simp only [hgj] at e
        cases e
        exact ht
      | some wk =>
        cases hgk : w.getWeak k with
        | none =>
          simp only [hgj, hgk] at e
          cases e
          exact ht
        | some o =>
          simp only [hgj, hgk] at e
          obtain ⟨⟨h1, x⟩, e1, e2⟩ := bind_eq_ok e
          cases e2
          obtain ⟨hs, rfl⟩ := weak_assign_same e1
          exact tidy_of_same ht hs ht.shared (fam_set j ht.weak (ht.weak _ (weak_mem hgk)))
  | weakMoveAssign j k =>
    simp only [step] at e
    split_ifs at e with hjk
    · cases e
      exact ht
    · cases hgj : w.getWeak j with
      | none =>
        simp only [hgj] at e
        cases e
        exact ht
      | some wk =>
        cases hgk : w.getWeak k with
        | none =>
          simp only [hgj, hgk] at e
          cases e
          exact ht
        | some o =>
          simp only [hgj, hgk] at e
          obtain ⟨⟨h1, x, o1⟩, e1, e2⟩ := bind_eq_ok e
          cases e2
          obtain ⟨hs, rfl, rfl⟩ := weak_moveAssign_same e1
          exact tidy_of_same ht hs ht.shared
            (fam_set k (fam_set j ht.weak (ht.weak _ (weak_mem hgk))) (manages_null _ _))
  | weakAssignShared j i =>
    simp only [step] at e
    cases hgj : w.getWeak j with
    | none =>
      simp only [hgj] at e
      cases e
      exact ht
    | some wk =>
      cases hgs : w.getShared i with
      | none =>
        simp only [hgj, hgs] at e
        cases e
        exact ht
      | some s =>
        simp only [hgj, hgs] at e
        obtain ⟨⟨h1, x⟩, e1, e2⟩ := bind_eq_ok e
        cases e2
        obtain ⟨hs, rfl⟩ := weak_assignShared_same e1
        exact tidy_of_same ht hs ht.shared (fam_set j ht.weak (ht.shared _ (shared_mem hgs)))
  | weakReset j =>
    simp only [step] at e
    cases hgw : w.getWeak j with
    | none =>
      simp only [hgw] at e
      cases e
      exact ht
    | some wk =>
      simp only [hgw] at e
      obtain ⟨⟨h1, x⟩, e1, e2⟩ := bind_eq_ok e
      cases e2
      obtain ⟨hs, rfl⟩ := weak_reset_same e1
      exact tidy_of_same ht hs ht.shared (fam_set j ht.weak (manages_null _ _))
  | weakSwap j k =>
    simp only [step] at e
    cases hgj : w.getWeak j with
    | none =>
      simp only [hgj] at e
      cases e
      exact ht
    | some wk =>
      cases hgk : w.getWeak k with
      | none =>
        simp only [hgj, hgk] at e
        cases e
        exact ht
      | some o =>
        simp only [hgj, hgk] at e
        cases e
        exact tidy_of_same ht (same_refl _) ht.shared
          (fam_set k (fam_set j ht.weak (ht.weak _ (weak_mem hgk)))
            (ht.weak _ (weak_mem hgj)))
  | weakDestroy j =>
    simp only [step] at e
    cases hgw : w.getWeak j with
    | none =>
      simp only [hgw] at e
      cases e
      exact ht
    | some wk =>
      simp only [hgw] at e
      obtain ⟨h1, e1, e2⟩ := bind_eq_ok e
      cases e2
      exact tidy_of_same ht (weak_destroy_same e1) ht.shared (fam_set_none j ht.weak)
  | weakLock j =>
    simp only [step] at e
    cases hgw : w.getWeak j with
    | none =>
      simp only [hgw] at e
      cases e
      exact ht
    | some wk =>
      simp only [hgw] at e
      obtain ⟨⟨h1, x⟩, e1, e2⟩ := bind_eq_ok e
      cases e2
      obtain ⟨hs, rfl | rfl⟩ := weak_lock_same e1
      · exact tidy_of_same ht hs (fam_append ht.shared (manages_null _ _)) ht.weak
      · exact tidy_of_same ht hs (fam_append ht.shared (ht.weak _ (weak_mem hgw))) ht.weak
  | _ => trivial

/-- A statement that does not use an aliasing constructor keeps every handle tied to
the block that manages its pointer. -/
theorem exec_tidy {w w1 : World} (ht : Tidy w) (st : Stmt) (hna : st.aliasing = false)
    (e : exec w st = .ok w1) : Tidy w1 := by
  cases st with
  | wrapNew esft =>
    simp only [exec] at e
    obtain ⟨⟨h1, s⟩, e1, e2⟩ := bind_eq_ok e
    cases e2
    obtain ⟨rfl, hp, hlen⟩ := ofPtr_grow e1
    refine tidy_grow ht (a := w.heap.objects.length) ⟨hp, Nat.le_refl _, ?_⟩ (same_refl h1)
      (fam_append (fun s hs => Or.inl (ht.shared s hs)) (Or.inr rfl)) ht.weak
    rw [hlen]
    simp
  | makeShared esft =>
    simp only [exec] at e
    obtain ⟨⟨h1, s⟩, e1, e2⟩ := bind_eq_ok e
    cases e2
    obtain ⟨rfl, hp, hlen⟩ := makeShared_grow e1
    refine tidy_grow ht (a := w.heap.objects.length) ⟨hp, Nat.le_refl _, ?_⟩ (same_refl h1)
      (fam_append (fun s hs => Or.inl (ht.shared s hs)) (Or.inr rfl)) ht.weak
    rw [hlen]
    omega
  | resetNew esft i =>
    simp only [exec] at e
    cases hgs : w.getShared i with
    | none =>
      simp only [hgs] at e
      cases e
      exact ht
    | some s =>
      simp only [hgs] at e
      obtain ⟨⟨h2, s1⟩, e1, e2⟩ := bind_eq_ok e
      cases e2
      unfold SharedPtr.ResetPtr at e1
      obtain ⟨⟨h1, tmp⟩, e3, e4⟩ := bind_eq_ok e1
      clear e1
      obtain ⟨rfl, hp, hlen⟩ := ofPtr_grow e3
      obtain ⟨h3, e5, e6⟩ := bind_eq_ok e4
      cases e6
      refine tidy_grow ht (a := w.heap.objects.length) ⟨hp, Nat.le_refl _, ?_⟩
        (shared_destroy_same e5)
        (fam_set i (fun s hs => Or.inl (ht.shared s hs)) (Or.inr rfl)) ht.weak
      rw [hlen]
      simp
  | op o =>
    have h1 := step_tidy_shared ht o e
    have h2 := step_tidy_weak ht o e
    cases o <;> first | exact h1 | exact h2 | (simp [Stmt.aliasing] at hna)

theorem execAll_tidy (sts : List Stmt) {w w1 : World} (ht : Tidy w)
    (hna : ∀ st ∈ sts, st.aliasing = false) (e : execAll w sts = .ok w1) : Tidy w1 := by
  induction sts generalizing w with
  | nil =>
    cases e
    exact ht
  | cons st sts ih =>
    simp only [execAll] at e
    obtain ⟨w2, e1, e2⟩ := bind_eq_ok e
    exact ih (exec_tidy ht st (hna st (List.mem_cons_self _ _)) e1)
      (fun s hs => hna s (List.mem_cons_of_mem _ hs)) e2

theorem empty_tidy : Tidy World.empty := by
  constructor
  · intro s hs
    simp [World.empty] at hs
  · intro x hx
    simp [World.empty] at hx
  · intro b1 b2 a e
    simp [World.empty, Heap.ptrOf] at e
  · intro b a e
    simp [World.empty, Heap.ptrOf] at e

/-- C14, as stated, fails: `SharedPtr<T> s(new T); SharedPtr<T> t(new T);` followed by
`SharedPtr<U> u(s, p); SharedPtr<U> v(t, p);` with one address `p` gives two non-empty
handles that compare equal and reference different control blocks. -/
theorem C14_equal_handles_on_different_blocks :
    ∃ w, execAll World.empty [.wrapNew false, .wrapNew false, .op (.sharedAlias 0 7),
        .op (.sharedAlias 1 7)] = .ok w ∧
      w.getShared 2 = some ⟨some 7, some 0⟩ ∧ w.getShared 3 = some ⟨some 7, some 1⟩ ∧
      (SharedPtr.mk (some 7) (some 0)).toBool = true ∧
      (SharedPtr.mk (some 7) (some 1)).toBool = true ∧
      (SharedPtr.mk (some 7) (some 0)).eq ⟨some 7, some 1⟩ = true ∧
      (SharedPtr.mk (some 7) (some 0)).control_block_ ≠
        (SharedPtr.mk (some 7) (some 1)).control_block_ :=
  ⟨_, rfl, rfl, rfl, rfl, rfl, rfl, by decide⟩

/-- C14 as amended: `operator==` is true exactly when the two `Get()` values are equal.
In a state reached by a program that creates any number of owners (each wrapping a
newly allocated object, or made by `MakeShared`) and uses none of the aliasing
constructors, two live non-empty handles that compare equal reference the same control
block.  Handles that share a block may compare unequal: `SharedPtr<T> s(new T);
SharedPtr<U> q(s, p);` gives two handles on one block with different pointers. -/
theorem C14_equality_compares_pointers (l r : SharedPtr) (sts : List Stmt) (w : World)
    (i k : Nat) (s t : SharedPtr) (hna : ∀ st ∈ sts, st.aliasing = false)
    (hw : execAll World.empty sts = .ok w) (hs : w.getShared i = some s)
    (ht : w.getShared k = some t) (hne : s.toBool = true) (heq : s.eq t = true) :
    (l.eq r = true ↔ l.Get = r.Get) ∧
    s.control_block_ = t.control_block_ ∧
    ∃ w1, program (.ofPtr false 1 0) [.sharedAlias 0 7] = .ok w1 ∧
      w1.getShared 0 = some ⟨some 0, some 0⟩ ∧ w1.getShared 1 = some ⟨some 7, some 0⟩ ∧
      (SharedPtr.mk (some 0) (some 0)).eq ⟨some 7, some 0⟩ = false ∧
      (SharedPtr.mk (some 0) (some 0)).control_block_ =
        (SharedPtr.mk (some 7) (some 0)).control_block_ := by
  refine ⟨by simp [SharedPtr.eq], ?_, _, rfl, rfl, rfl, rfl, rfl⟩
  have hT := execAll_tidy sts empty_tidy hna hw
  have h1 := hT.shared s (shared_mem hs)
  have h2 := hT.shared t (shared_mem ht)
  cases hp : s.stored_ptr_ with
  | none => simp [SharedPtr.toBool, SharedPtr.Get, hp] at hne
  | some a =>
    have hq : t.stored_ptr_ = some a := by
      simp [SharedPtr.eq, SharedPtr.Get, hp] at heq
      exact heq.symm
    obtain ⟨b1, hb1, hm1⟩ := h1 a hp
    obtain ⟨b2, hb2, hm2⟩ := h2 a hq
    rw [hb1, hb2, hT.inj b1 b2 a hm1 hm2]

/-- Witness for C14 as amended: `SharedPtr<T> s(new T); SharedPtr<T> t(new T);
SharedPtr<T> u(s);` and the handles `s` and `u`. -/
theorem C14_equality_compares_pointers_witness :
    execAll World.empty [.wrapNew false, .wrapNew false, .op (.sharedCopy 0)] =
      .ok exampleWorldOwners ∧
    exampleWorldOwners.getShared 0 = some ⟨some 0, some 0⟩ ∧
    exampleWorldOwners.getShared 2 = some ⟨some 0, some 0⟩ ∧
    (SharedPtr.mk (some 0) (some 0)).control_block_ =
      (SharedPtr.mk (some 0) (some 0)).control_block_ :=
  ⟨rfl, rfl, rfl,
    (C14_equality_compares_pointers ⟨none, none⟩ ⟨none, none⟩
      [.wrapNew false, .wrapNew false, .op (.sharedCopy 0)] exampleWorldOwners 0 2
      ⟨some 0, some 0⟩ ⟨some 0, some 0⟩ (by decide) rfl rfl rfl rfl rfl).2.1⟩

/-! ## The destructor and the unified release step -/

/-- The unified release step on a block that a shared handle references. -/
theorem unified_release_ref {objs a bound S W blk}
    (hg : Good objs a bound S W blk) (hS : 1 ≤ S) :
    ∃ blk1, unifiedRelease ⟨[blk], objs⟩ (some 0) = .ok ⟨[blk1], objs⟩ ∧
      Good objs a bound (S - 1) W blk1 ∧ Later blk blk1 := by
  have hf := hg.live (by omega)
  obtain ⟨hobj, hptr, hdel, hfr, hs, hw⟩ := hg
  have hs := hs hf
  have hw := hw hf
  have hm : min S 1 = 1 := by omega
  simp only [unifiedRelease, Heap.ObjectDelete,
    WeakPtr.destroy, WeakPtr.toBool, WeakPtr.UseCount, Heap.GetCount,
    Heap.GetWeakCount, Heap.deref, Heap.WeakDecrement, Heap.decrement, Heap.modify,
    Heap.deleteBlock]
  by_cases hS1 : S = 1
  · subst hS1
    by_cases hW : W = 0
    · subst hW
      cases bound <;> simp at hw hdel <;>
        simp [hf, hs, hw, hptr, hobj, selfWeak, WeakPtr.null] <;>
        refine ⟨?_, ?_⟩ <;> constructor <;> simp [*]
    · cases bound <;> simp at hw hdel <;>
        simp [hf, hs, hw, hptr, hobj, selfWeak, WeakPtr.null, hW] <;>
        refine ⟨?_, ?_⟩ <;> constructor <;> simp [hobj, hdel, hf, hW, selfWeak, WeakPtr.null]
  · have hS2 : (S : Int) - 1 ≠ 0 := by omega
    have hm2 : min (S - 1) 1 = 1 := by omega
    cases bound <;> simp [hm] at hw hdel <;>
      simp [hf, hs, hw, hptr, hobj, selfWeak, WeakPtr.null, hS2] <;>
      refine ⟨?_, ?_⟩ <;> constructor <;>
      simp [hobj, hdel, hf, hm2, hptr, hw, selfWeak, WeakPtr.null] <;> omega

/-- C21: let a live control block have strong counter at least 1 and weak counter at least
0, and let the `weak_this_` of the managed object be unbound, or bound to this block
and counted in the weak counter.  For every non-empty handle on the block the
destructor `~SharedPtr` and the unified release step both return, with the same number
of `ObjectDelete` calls (the object-destroyed flag), the same deallocated flag, the
same objects and, when the block survives, the same strong and weak counters. -/
theorem C21_destructor_refines_unified_release (blk : ControlBlock) (objs : List Object)
    (p a : Nat) (wt : WeakPtr) (hf : blk.freed = false) (hc : 1 ≤ blk.counter_)
    (hw : 0 ≤ blk.weak_counter_) (hptr : blk.ptr_ = some a)
    (hobj : objs[a]? = some { weak_this_ := wt })
    (hwt : wt = WeakPtr.null ∨ (wt.control_block_ = some 0 ∧ 1 ≤ blk.weak_counter_)) :
    ∃ b1 b2, SharedPtr.destroy ⟨some p, some 0⟩ ⟨[blk], objs⟩ = .ok ⟨[b1], objs⟩ ∧
      unifiedRelease ⟨[blk], objs⟩ (some 0) = .ok ⟨[b2], objs⟩ ∧
      b1.objectDeletes = b2.objectDeletes ∧ b1.freed = b2.freed ∧
      (b1.freed = false →
        b1.counter_ = b2.counter_ ∧ b1.weak_counter_ = b2.weak_counter_) := by
  obtain ⟨S, hS⟩ := Int.eq_ofNat_of_zero_le (show 0 ≤ blk.counter_ by omega)
  obtain ⟨W, hW⟩ := Int.eq_ofNat_of_zero_le hw
  have hS1 : 1 ≤ S := by omega
  by_cases h1 : S = 1
  · subst h1
    simp at hS
    simp only [SharedPtr.destroy, SharedPtr.toBool, SharedPtr.Get, SharedPtr.UseCount,
      SharedPtr.WeakCount, unifiedRelease, Heap.ObjectDelete,
      WeakPtr.destroy, WeakPtr.toBool, WeakPtr.UseCount, Heap.GetCount,
      Heap.GetWeakCount, Heap.deref, Heap.WeakDecrement, Heap.decrement, Heap.modify,
      Heap.deleteBlock]
    obtain ⟨wp, wcb⟩ := wt
    rcases hwt with hnull | ⟨hcb, hw1⟩
    · simp only [WeakPtr.null, WeakPtr.mk.injEq] at hnull
      obtain ⟨rfl, rfl⟩ := hnull
      by_cases h0 : W = 0
      · subst h0
        simp at hW
        simp [hf, hS, hW, hptr, hobj]
      · have h0' : (W : Int) ≠ 0 := by omega
        simp [hf, hS, hW, hptr, hobj, h0, h0']
    · simp only at hcb
      subst hcb
      have h0 : W ≠ 0 := by omega
      by_cases hW2 : W = 1
      · subst hW2
        simp at hW
        simp [hf, hS, hW, hptr, hobj]
      · have h3 : (W : Int) - 1 ≠ 0 := by omega
        simp [hf, hS, hW, hptr, hobj, h0, hW2, h3]
  · have h2 : (S : Int) - 1 ≠ 0 := by omega
    simp only [SharedPtr.destroy, SharedPtr.toBool, SharedPtr.Get, SharedPtr.UseCount,
      SharedPtr.WeakCount, unifiedRelease, Heap.GetCount,
      Heap.GetWeakCount, Heap.deref, Heap.decrement, Heap.modify]
    simp [hf, hS, hW, h1, h2]

/-- Witness for C21: the block right after `SharedPtr<T> s(new T)` (strong counter 1,
weak counter 0, `weak_this_` unbound), where the destructor takes its fast path. -/
theorem C21_destructor_refines_unified_release_witness :
    ∃ b1 b2,
      SharedPtr.destroy ⟨some 0, some 0⟩
        ⟨[PointerControlBlock (some 0)], [{ weak_this_ := WeakPtr.null }]⟩ =
          .ok ⟨[b1], [{ weak_this_ := WeakPtr.null }]⟩ ∧
      unifiedRelease ⟨[PointerControlBlock (some 0)], [{ weak_this_ := WeakPtr.null }]⟩
        (some 0) = .ok ⟨[b2], [{ weak_this_ := WeakPtr.null }]⟩ ∧
      b1.objectDeletes = b2.objectDeletes ∧ b1.freed = b2.freed ∧
      (b1.freed = false →
        b1.counter_ = b2.counter_ ∧ b1.weak_counter_ = b2.weak_counter_) :=
  C21_destructor_refines_unified_release (PointerControlBlock (some 0))
    [{ weak_this_ := WeakPtr.null }] 0 0 WeakPtr.null rfl (by decide) (by decide) rfl rfl
    (Or.inl rfl)

/-! ## Handles that store a null pointer, and handles without a control block -/

/-- C22: the code on the program `SharedPtr<T> s(new T); WeakPtr<T> w(s);
SharedPtr<U> q(s, nullptr); SharedPtr<U> r(std::move(q), x);` followed by the
destruction of `r` and of `s`: every operation returns, and at the end the control
block is still allocated with strong counter `-1`.  In the programs whose handles are
built from non-null pointers only, both counters of a block that is still allocated
are non-negative in every state. -/
theorem C22_alias_null_drives_strong_count_negative :
    exampleAliasNull =
      .ok ⟨[{ counter_ := -1, weak_counter_ := 1, ptr_ := some 0, inPlace := false,
              objectDeletes := 1, freed := false }],
           [{ weak_this_ := WeakPtr.null }]⟩ ∧
    (∃ h blk, exampleAliasNull = .ok h ∧ h.blocks = [blk] ∧ blk.freed = false ∧
      blk.counter_ < 0) ∧
    ∀ (o : Origin) (ops : List Op), ∃ w b, program o ops = .ok w ∧ w.heap.blocks = [b] ∧
      (b.freed = true ∨ (0 ≤ b.counter_ ∧ 0 ≤ b.weak_counter_)) := by
  refine ⟨rfl, ⟨_, _, rfl, rfl, rfl, by decide⟩, ?_⟩
  intro o ops
  obtain ⟨objs, w, hw, hinv⟩ := program_inv o ops
  obtain ⟨b, hheap, hg⟩ := hinv.heap
  refine ⟨w, b, hw, by rw [hheap], ?_⟩
  cases hf : b.freed
  · right
    have h1 := hg.strong hf
    have h2 := hg.weak hf
    omega
  · exact Or.inl rfl

/-- C25: the code on the aliasing constructors applied to an empty handle and a
non-null pointer `r`.  The copying form `SharedPtr<U> q(e, r)` calls `operator++`
through the null control block.  The moving form `SharedPtr<U> q(std::move(e), r)`
returns a handle with `Get() == r` and a null control block, on which `UseCount()` and
the destructor go through the null control block. -/
theorem C25_alias_of_empty_handle_null_deref (h : Heap) (r : Nat) :
    SharedPtr.alias h SharedPtr.null (some r) = .error Fault.nullDeref ∧
    (SharedPtr.aliasMove SharedPtr.null (some r)).1 = ⟨some r, none⟩ ∧
    (SharedPtr.mk (some r) none).toBool = true ∧
    (SharedPtr.mk (some r) none).UseCount h = .error Fault.nullDeref ∧
    (SharedPtr.mk (some r) none).destroy h = .error Fault.nullDeref :=
  ⟨rfl, rfl, rfl, rfl, rfl⟩

/-- C26: the code on a null raw pointer.  `SharedPtr<T> s(p)` with `p == nullptr`
allocates a `PointerControlBlock` and returns a handle with a null stored pointer; the
destructor and the copy constructor of every handle with a null stored pointer leave
the heap as it is, so after `{ SharedPtr<T> s(p); SharedPtr<T> t(s); }` the block is
still allocated and no deallocation has taken place.  `Reset(p)` on an empty handle
allocates the same block.  For a type that derives from `EnableSharedFromThis` the
constructor goes through the null pointer in `InitWeakThis`. -/
theorem C26_block_of_null_pointer_is_leaked (h : Heap) (s : SharedPtr) :
    SharedPtr.ofPtr false h none =
      .ok ({ h with blocks := h.blocks ++ [PointerControlBlock none] },
           ⟨none, some h.blocks.length⟩) ∧
    SharedPtr.ResetPtr false SharedPtr.null h none =
      .ok ({ h with blocks := h.blocks ++ [PointerControlBlock none] },
           ⟨none, some h.blocks.length⟩) ∧
    SharedPtr.destroy ⟨none, s.control_block_⟩ h = .ok h ∧
    SharedPtr.copy h ⟨none, s.control_block_⟩ = .ok (h, ⟨none, s.control_block_⟩) ∧
    exampleNullWrap = .ok ⟨[PointerControlBlock none], []⟩ ∧
    (PointerControlBlock none).freed = false ∧
    Heap.allocations ⟨[PointerControlBlock none], []⟩ = 1 ∧
    Heap.deallocations ⟨[PointerControlBlock none], []⟩ = 0 ∧
    SharedPtr.ofPtr true h none = .error Fault.nullDeref :=
  ⟨rfl, rfl, rfl, rfl, rfl, rfl, rfl, rfl, rfl⟩

/-! ## Construction of `WeakPtr` and the layout of `CompressedPair` -/

/-- C24, as stated, fails.  For `CompressedPair<E, E>` with one empty class `E` both
element types carry no state, yet the primary template with two fields is selected;
for `CompressedPair<B, A>` with empty classes `A` and `B : A` only `B` becomes a base;
for `CompressedPair<E, int>` with an empty class `E` declared `final` the first type
carries no state, yet the layout has two fields. -/
theorem C24_stateless_types_stored_as_fields :
    CompressedPair.select traitsSameEmpty = .twoFields ∧
    specLayout traitsSameEmpty.is_empty_F traitsSameEmpty.is_empty_S = .bothBases ∧
    CompressedPair.select traitsDerivedBase = .firstBase ∧
    specLayout traitsDerivedBase.is_empty_F traitsDerivedBase.is_empty_S = .bothBases ∧
    CompressedPair.select traitsFinalEmpty = .twoFields ∧
    specLayout traitsFinalEmpty.is_empty_F traitsFinalEmpty.is_empty_S = .firstBase ∧
    ¬ (∀ t : PairTraits, CompressedPair.select t = specLayout t.is_empty_F t.is_empty_S) := by
  refine ⟨rfl, rfl, rfl, rfl, rfl, rfl, ?_⟩
  intro hall
  have := hall traitsSameEmpty
  revert this
  decide

/-- C24 as amended: an element type can be an empty base when it carries no state, is
not `final`, and is neither the other element type nor a base class of it.  The layout
is selected from which of the two element types can be an empty base: neither gives
two fields, only the first gives the first as a base and the second as a field, only
the second gives the mirrored layout, both give both as bases.  In particular, for two
types that are not `final` and not related by inheritance the layout is selected from
which of them carry no state. -/
theorem C24_layout_selected_by_compressible_types (t : PairTraits) :
    CompressedPair.select t =
      specLayout (t.is_empty_F && !t.is_final_F && !t.is_base_of_F_S)
        (t.is_empty_S && !t.is_final_S && !t.is_base_of_S_F) ∧
    CompressedPair.select { t with is_final_F := false, is_final_S := false,
                                   is_base_of_S_F := false, is_base_of_F_S := false } =
      specLayout t.is_empty_F t.is_empty_S := by
  obtain ⟨a, b, c, d, e, f⟩ := t
  cases a <;> cases b <;> cases c <;> cases d <;> cases e <;> cases f <;> exact ⟨rfl, rfl⟩

/-! ## Weak handles that store a null pointer, and objects that are copies -/

/-- C4: the explicit construction `SharedPtr<U>(w)` from a `WeakPtr` that is not
expired and stores a null pointer.  After `SharedPtr<T> s(new T); SharedPtr<U> q(s,
nullptr); WeakPtr<U> w(q);` the handle `w` references the live block of `s`, whose
strong count is one, and `Expired()` returns `false`.  The construction raises nothing
and returns a handle with the stored pointer and the control block of `w`, but it leaves
the heap as it was: the strong count is not increased.  The same holds for every
`WeakPtr` that stores a null pointer and is not expired.  For the weak handles of a
program, which store non-null pointers, the construction raises `BadWeakPtr` exactly
when the handle is expired, leaving the state unchanged, and otherwise increases the
strong count by one. -/
theorem C4_promotion_of_null_weak_skips_increment :
    (∃ H b, exampleWeakOfNullAlias = .ok (H, ⟨none, some 0⟩, ⟨none, some 0⟩) ∧
      H.blocks = [b] ∧ b.freed = false ∧ b.counter_ = 1 ∧
      WeakPtr.Expired ⟨none, some 0⟩ H = .ok false ∧
      SharedPtr.ofWeak H ⟨none, some 0⟩ = .ok (H, ⟨none, some 0⟩)) ∧
    (∀ (h : Heap) (x : WeakPtr), x.stored_ptr_ = none → x.Expired h = .ok false →
      SharedPtr.ofWeak h x = .ok (h, ⟨none, x.control_block_⟩)) ∧
    (∀ (o : Origin) (ops : List Op),
      ∃ w b, program o ops = .ok w ∧ w.heap.blocks = [b] ∧
        ∀ j x, w.getWeak j = some x →
          ∃ e, x.Expired w.heap = .ok e ∧
            (e = true ↔ x.control_block_ = none ∨ b.counter_ = 0) ∧
            (e = true → SharedPtr.ofWeak w.heap x = .error .badWeakPtr ∧
              step w (.sharedOfWeak j) = .ok w) ∧
            (e = false → SharedPtr.ofWeak w.heap x =
              .ok ({ w.heap with blocks := [{ b with counter_ := b.counter_ + 1 }] },
                   ⟨x.stored_ptr_, x.control_block_⟩))) := by
  refine ⟨⟨_, _, rfl, rfl, rfl, rfl, rfl, rfl⟩, ?_, promotion_raises_iff_expired⟩
  intro h x hx he
  simp [SharedPtr.ofWeak, he, hx, SharedPtr.toBool, SharedPtr.Get]

/-- C5: `Lock()` on a `WeakPtr` that was created from a live `SharedPtr` which stores a
null pointer.  After `SharedPtr<T> s(new T); SharedPtr<U> q(s, nullptr); WeakPtr<U>
w(q);` the handle `w` is not expired, and `w.Lock()` returns without a fault a handle
that compares equal to `q` and has the control block of `q`, but the heap is unchanged:
the strong count of the block is not raised.  The same holds for every `WeakPtr` that
stores a null pointer and is not expired.  `Lock()` on a null `WeakPtr` returns an
empty handle and changes nothing.  For the weak handles of a program, which store
non-null pointers, `Lock()` returns without a fault, gives an empty handle and an
unchanged heap when the handle is expired, and otherwise a handle on the block with the
strong count raised by one; a `WeakPtr` created there from a live non-empty `SharedPtr`
`s` is not expired and its `Lock()` compares equal to `s`. -/
theorem C5_lock_of_null_weak_skips_increment :
    (∃ H b, exampleWeakOfNullAlias = .ok (H, ⟨none, some 0⟩, ⟨none, some 0⟩) ∧
      H.blocks = [b] ∧ b.freed = false ∧ b.counter_ = 1 ∧
      WeakPtr.Expired ⟨none, some 0⟩ H = .ok false ∧
      WeakPtr.Lock ⟨none, some 0⟩ H = .ok (H, ⟨none, some 0⟩) ∧
      (SharedPtr.mk none (some 0)).eq ⟨none, some 0⟩ = true) ∧
    (∀ (h : Heap) (x : WeakPtr), x.stored_ptr_ = none → x.Expired h = .ok false →
      x.Lock h = .ok (h, ⟨none, x.control_block_⟩)) ∧
    (∀ (h : Heap) (p : Ptr), WeakPtr.Lock ⟨p, none⟩ h = .ok (h, SharedPtr.null)) ∧
    (∀ (o : Origin) (ops : List Op),
      ∃ w b, program o ops = .ok w ∧ w.heap.blocks = [b] ∧
        (∀ j x, w.getWeak j = some x →
          ∃ e, x.Expired w.heap = .ok e ∧
            (e = true → x.Lock w.heap = .ok (w.heap, SharedPtr.null) ∧
              SharedPtr.null.Get = none ∧ SharedPtr.null.UseCount w.heap = .ok 0) ∧
            (e = false → x.Lock w.heap =
              .ok ({ w.heap with blocks := [{ b with counter_ := b.counter_ + 1 }] },
                   ⟨x.stored_ptr_, x.control_block_⟩))) ∧
        (∀ i s, w.getShared i = some s → s.toBool = true →
          ∃ w1 x b1 h2 t, step w (.weakOfShared i) = .ok w1 ∧
            w1.getWeak w.weak.length = some x ∧ w1.heap.blocks = [b1] ∧
            x.Expired w1.heap = .ok false ∧
            x.Lock w1.heap = .ok (h2, t) ∧ t.eq s = true ∧
            t.control_block_ = s.control_block_ ∧
            h2 = { w1.heap with blocks := [{ b1 with counter_ := b1.counter_ + 1 }] })) := by
  refine ⟨⟨_, _, rfl, rfl, rfl, rfl, rfl, rfl, rfl⟩, ?_, ?_, lock_total⟩
  · intro h x hx he
    simp [WeakPtr.Lock, SharedPtr.ofWeak, he, hx, SharedPtr.toBool, SharedPtr.Get]
  · intro h p
    simp [WeakPtr.Lock, WeakPtr.Expired, WeakPtr.toBool]

/-- C6: `SharedFromThis()` after the object was wrapped through a handle whose element
type does not convert to `ESFTBase*`, as in `struct B {}; struct D : B,
EnableSharedFromThis<D> {}; D* d = new D; SharedPtr<B> s(d);`.  The constructor tests
`std::is_convertible_v<B*, ESFTBase*>`, which is false, and leaves `weak_this_` of the
object unbound: in the state right after the construction and in every state that a
program reaches from it, `d->SharedFromThis()` raises `BadWeakPtr`, although the handle
`s` is alive and stores `d`.  A second case: after `T* p = new T; T* o = new T;
SharedPtr<T> sp(p); SharedPtr<T> s(o); *o = *p;` the implicit copy assignment has
replaced `weak_this_` of `*o` by that of `*p`, and `o->SharedFromThis()` returns a
handle on the block of `sp` that stores `p` and does not compare equal to `s`.  When
the test holds for the element type of the handle and the object is not assigned to,
after `SharedPtr<T> s(ptr)` and after `MakeShared<T>()`, `SharedFromThis()` returns
without a fault a handle that compares equal to `s` and has the control block of `s`,
and the heap changes by one increment of the strong count. -/
theorem C6_base_class_handle_leaves_weak_this_unbound :
    (program (.ofPtr false 1 0) [] =
        .ok ⟨⟨[PointerControlBlock (some 0)], [{ weak_this_ := WeakPtr.null }]⟩,
          [some ⟨some 0, some 0⟩], []⟩ ∧
      SharedFromThis ⟨[PointerControlBlock (some 0)], [{ weak_this_ := WeakPtr.null }]⟩
        (some 0) = .error .badWeakPtr) ∧
    (∀ (n : Nat) (a : Fin n) (ops : List Op),
      ∃ w, program (.ofPtr false n a) ops = .ok w ∧
        SharedFromThis w.heap (some a) = .error .badWeakPtr) ∧
    (∃ H h1 t, exampleAssignedObject = .ok (H, ⟨some 0, some 0⟩, ⟨some 1, some 1⟩) ∧
      SharedFromThis H (some 1) = .ok (h1, t) ∧ t = ⟨some 0, some 0⟩ ∧
      t.eq ⟨some 1, some 1⟩ = false) ∧
    (∀ (o : Origin), o.esft = true → ∀ (ops : List Op),
      ∃ w0 s b0 t0 w b, o.world = .ok w0 ∧ w0.shared = [some s] ∧ s.Get = some o.addr ∧
        w0.heap.blocks = [b0] ∧
        SharedFromThis w0.heap (some o.addr) =
          .ok ({ w0.heap with blocks := [{ b0 with counter_ := b0.counter_ + 1 }] }, t0) ∧
        t0.eq s = true ∧ t0.control_block_ = s.control_block_ ∧
        program o ops = .ok w ∧ w.heap.blocks = [b] ∧
        (1 ≤ strongRefs 0 w.shared →
          ∃ t, SharedFromThis w.heap (some o.addr) =
            .ok ({ w.heap with blocks := [{ b with counter_ := b.counter_ + 1 }] }, t) ∧
            t.eq s = true ∧ t.control_block_ = s.control_block_)) := by
  refine ⟨⟨rfl, rfl⟩, ?_, ⟨_, _, _, rfl, rfl, rfl, rfl⟩,
    fun o ho ops => shared_from_this_round_trip o ho ops⟩
  intro n a ops
  obtain ⟨objs, w, h, hinv⟩ := program_inv (.ofPtr false n a) ops
  refine ⟨w, h, ?_⟩
  have hwt := hinv.weak_this
  simp only [Origin.addr, Origin.esft] at hwt
  simp only [SharedFromThis, hwt, bind_ok]
  simp [selfWeak, SharedPtr.ofWeak, WeakPtr.Expired, WeakPtr.toBool, WeakPtr.null]
  rfl

/-- C9: `WeakFromThis()` on an object that is a copy of a wrapped object.  After `T* p =
new T; SharedPtr<T> sp(p); T* c = new T(*p);` no `SharedPtr` has wrapped `*c`, yet the
implicit copy constructor has copied `weak_this_` of `*p`: `c->WeakFromThis()` returns a
`WeakPtr` whose `Expired()` is `false` and whose `Lock().Get()` is `p`, not `c`.
`WeakFromThis()` raises nothing there.  On an object whose `weak_this_` is unbound
it returns a null `WeakPtr`, whose `Expired()` is `true`, and leaves the heap unchanged;
the objects allocated by `new T` are such.  After `SharedPtr<T> sptr(ptr)`, and after
any operations of the program for as long as a live handle references the block, it
returns a `WeakPtr` whose `Expired()` is `false` and whose `Lock().Get()` is `ptr`. -/
theorem C9_copied_object_is_not_expired :
    (∃ H h1 x h2 t, exampleCopiedObject = .ok (H, ⟨some 0, some 0⟩, 1) ∧
      H.blocks.length = 1 ∧ H.objects.length = 2 ∧
      WeakFromThis H (some 1) = .ok (h1, x) ∧ x.Expired h1 = .ok false ∧
      x.Lock h1 = .ok (h2, t) ∧ t.Get = some 0 ∧ t.Get ≠ some 1) ∧
    (∀ (h : Heap) (a : Nat) (obj : Object), h.objects[a]? = some obj →
      obj.weak_this_ = WeakPtr.null →
      WeakFromThis h (some a) = .ok (h, WeakPtr.null) ∧
        WeakPtr.null.Expired h = .ok true) ∧
    (∀ (n : Nat) (a : Fin n) (ops : List Op),
      (∃ x, WeakFromThis (Heap.fresh n) (some a) = .ok (Heap.fresh n, x) ∧
        x.Expired (Heap.fresh n) = .ok true) ∧
      ∃ w, program (.ofPtr true n a) ops = .ok w ∧
        (1 ≤ strongRefs 0 w.shared →
          ∃ h1 x h2 t, WeakFromThis w.heap (some a) = .ok (h1, x) ∧
            x.Expired h1 = .ok false ∧ x.Lock h1 = .ok (h2, t) ∧ t.Get = some a.val)) := by
  refine ⟨⟨_, _, _, _, _, rfl, rfl, rfl, rfl, rfl, rfl, rfl, by decide⟩, ?_,
    weak_from_this_total⟩
  intro h a obj ho hn
  simp [WeakFromThis, Heap.weak_this_, ho, hn, WeakPtr.copy, WeakPtr.toBool, WeakPtr.null,
    WeakPtr.Expired]

/-! ## Values of a 32-bit `int` -/

theorem wrapInt_of_range {c : Int} (h1 : -(2 ^ 31) ≤ c) (h2 : c < 2 ^ 31) : wrapInt c = c := by
  unfold wrapInt
  omega

theorem wrapInt_range (c : Int) : -(2 ^ 31) ≤ wrapInt c ∧ wrapInt c < 2 ^ 31 := by
  unfold wrapInt
  omega

theorem wrapInt_add (c d : Int) : wrapInt (wrapInt c + d) = wrapInt (c + d) := by
  unfold wrapInt
  omega

/-! ## Releasing a reference in a heap with several blocks -/

theorem getElem?_lt {α : Type} {L : List α} {i : Nat} {x : α} (h : L[i]? = some x) :
    i < L.length := by
  rcases Nat.lt_or_ge i L.length with h1 | h1
  · exact h1
  · rw [List.getElem?_eq_none h1] at h
    cases h

/-- The destructor of a non-empty handle on a live block acts on this block alone: there
is a state of the block such that in every heap that holds the block at index `ia`
the destructor returns and puts this state at index `ia`, leaving the other blocks and
the objects as they were. -/
theorem shared_destroy_at (blkA : ControlBlock) (objs : List Object) (ia pa oa : Nat)
    (wt : WeakPtr) (hf : blkA.freed = false) (hc : 1 ≤ blkA.counter_)
    (hw : 0 ≤ blkA.weak_counter_) (hptr : blkA.ptr_ = some oa)
    (hobj : objs[oa]? = some { weak_this_ := wt })
    (hwt : wt = WeakPtr.null ∨ (wt.control_block_ = some ia ∧ 1 ≤ blkA.weak_counter_)) :
    ∃ blkA1, ∀ L : List ControlBlock, L[ia]? = some blkA →
      SharedPtr.destroy ⟨some pa, some ia⟩ ⟨L, objs⟩ = .ok ⟨L.set ia blkA1, objs⟩ := by
  obtain ⟨S, hS⟩ := Int.eq_ofNat_of_zero_le (show 0 ≤ blkA.counter_ by omega)
  obtain ⟨W, hW⟩ := Int.eq_ofNat_of_zero_le hw
  have hS1 : 1 ≤ S := by omega
  by_cases h1 : S = 1
  · subst h1
    simp at hS
    obtain ⟨wp, wcb⟩ := wt
    rcases hwt with hnull | ⟨hcb, hw1⟩
    · simp only [WeakPtr.null, WeakPtr.mk.injEq] at hnull
      obtain ⟨rfl, rfl⟩ := hnull
      by_cases h0 : W = 0
      · subst h0
        simp at hW
        refine ⟨{ blkA with objectDeletes := blkA.objectDeletes + 1, freed := true },
          fun L hL => ?_⟩
        have hlt := getElem?_lt hL
        simp only [SharedPtr.destroy, SharedPtr.toBool, SharedPtr.Get, SharedPtr.UseCount,
          SharedPtr.WeakCount, Heap.ObjectDelete,
          WeakPtr.destroy, WeakPtr.toBool, WeakPtr.UseCount, Heap.GetCount,
          Heap.GetWeakCount, Heap.deref, Heap.WeakDecrement, Heap.decrement, Heap.modify,
          Heap.deleteBlock]
        simp [hL, hlt, hf, hS, hW, hptr, hobj]
      · have h0' : (W : Int) ≠ 0 := by omega
        refine ⟨{ blkA with counter_ := blkA.counter_ - 1,
                            objectDeletes := blkA.objectDeletes + 1 }, fun L hL => ?_⟩
        have hlt := getElem?_lt hL
        simp only [SharedPtr.destroy, SharedPtr.toBool, SharedPtr.Get, SharedPtr.UseCount,
          SharedPtr.WeakCount, Heap.ObjectDelete,
          WeakPtr.destroy, WeakPtr.toBool, WeakPtr.UseCount, Heap.GetCount,
          Heap.GetWeakCount, Heap.deref, Heap.WeakDecrement, Heap.decrement, Heap.modify,
          Heap.deleteBlock]
        simp [hL, hlt, hf, hS, hW, hptr, hobj, h0, h0']
    · simp only at hcb
      subst hcb
      have h0 : W ≠ 0 := by omega
      by_cases hW2 : W = 1
      · subst hW2
        simp at hW
        refine ⟨{ blkA with counter_ := blkA.counter_ - 1,
                            objectDeletes := blkA.objectDeletes + 1,
                            weak_counter_ := blkA.weak_counter_ - 1, freed := true },
          fun L hL => ?_⟩
        have hlt := getElem?_lt hL
        simp only [SharedPtr.destroy, SharedPtr.toBool, SharedPtr.Get, SharedPtr.UseCount,
          SharedPtr.WeakCount, Heap.ObjectDelete,
          WeakPtr.destroy, WeakPtr.toBool, WeakPtr.UseCount, Heap.GetCount,
          Heap.GetWeakCount, Heap.deref, Heap.WeakDecrement, Heap.decrement, Heap.modify,
          Heap.deleteBlock]
        simp [hL, hlt, hf, hS, hW, hptr, hobj]
      · have h3 : (W : Int) - 1 ≠ 0 := by omega
        refine ⟨{ blkA with counter_ := blkA.counter_ - 1,
                            objectDeletes := blkA.objectDeletes + 1,
                            weak_counter_ := blkA.weak_counter_ - 1 }, fun L hL => ?_⟩
        have hlt := getElem?_lt hL
        simp only [SharedPtr.destroy, SharedPtr.toBool, SharedPtr.Get, SharedPtr.UseCount,
          SharedPtr.WeakCount, Heap.ObjectDelete,
          WeakPtr.destroy, WeakPtr.toBool, WeakPtr.UseCount, Heap.GetCount,
          Heap.GetWeakCount, Heap.deref, Heap.WeakDecrement, Heap.decrement, Heap.modify,
          Heap.deleteBlock]
        simp [hL, hlt, hf, hS, hW, hptr, hobj, h0, hW2, h3]
  · have h2 : (S : Int) - 1 ≠ 0 := by omega
    refine ⟨{ blkA with counter_ := blkA.counter_ - 1 }, fun L hL => ?_⟩
    have hlt := getElem?_lt hL
    simp only [SharedPtr.destroy, SharedPtr.toBool, SharedPtr.Get, SharedPtr.UseCount,
      SharedPtr.WeakCount, Heap.GetCount,
      Heap.GetWeakCount, Heap.deref, Heap.decrement, Heap.modify]
    simp [hL, hlt, hf, hS, hW, h1, h2]

/-- C12: move construction returns a handle with the pointer and the control block of
the source and leaves the source empty (`Get()` null, `UseCount()` zero); the heap, and
with it every counter, is unchanged.  Let `a` and `b` be non-empty handles in two
distinct variables that reference two different live blocks, the block of `a` with
strong counter at least 1 and with the `weak_this_` of its object unbound, or bound to
this block and counted.  Move assignment `a = std::move(b)` returns without a fault: the
variable of `a` then holds the pointer and the block of `b`, the variable of `b` is
empty, the block of `b` is as before, and the block of `a` is in the state in which the
destructor of `a` leaves it.  In every heap and for all handles the effect of the move
assignment on the heap is that of the destructor of the old `a`.  Move-assigning a
variable to itself changes nothing.  For two variables of one family, where `a` or `b`
may be empty or both reference the same block, the same holds in every state reached by
a program. -/
theorem C12_shared_move_transfers (w : World) (i k ia ib pa pb oa : Nat)
    (blkA blkB : ControlBlock) (wt : WeakPtr)
    (ha : w.getShared i = some ⟨some pa, some ia⟩)
    (hb : w.getShared k = some ⟨some pb, some ib⟩) (hik : i ≠ k) (hab : ia ≠ ib)
    (hA : w.heap.blocks[ia]? = some blkA) (hB : w.heap.blocks[ib]? = some blkB)
    (hfA : blkA.freed = false) (hcA : 1 ≤ blkA.counter_) (hwA : 0 ≤ blkA.weak_counter_)
    (hptr : blkA.ptr_ = some oa) (hobj : w.heap.objects[oa]? = some { weak_this_ := wt })
    (hwt : wt = WeakPtr.null ∨ (wt.control_block_ = some ia ∧ 1 ≤ blkA.weak_counter_)) :
    (∀ b : SharedPtr, (SharedPtr.move b).1 = b ∧ (SharedPtr.move b).2.Get = none ∧
      ∀ h, (SharedPtr.move b).2.UseCount h = .ok 0) ∧
    (∃ blkA1 w1 w2,
      step w (.sharedMove k) = .ok w1 ∧ w1.heap = w.heap ∧
      w1.shared = w.shared.set k (some SharedPtr.null) ++ [some ⟨some pb, some ib⟩] ∧
      w1.weak = w.weak ∧
      SharedPtr.destroy ⟨some pa, some ia⟩ w.heap =
        .ok ⟨w.heap.blocks.set ia blkA1, w.heap.objects⟩ ∧
      step w (.sharedMoveAssign i k) = .ok w2 ∧
      w2.heap = ⟨w.heap.blocks.set ia blkA1, w.heap.objects⟩ ∧
      w2.shared = (w.shared.set i (some ⟨some pb, some ib⟩)).set k (some SharedPtr.null) ∧
      w2.weak = w.weak ∧
      w2.getShared i = some ⟨some pb, some ib⟩ ∧ w2.getShared k = some SharedPtr.null ∧
      w2.heap.blocks[ib]? = some blkB ∧ w2.heap.blocks[ia]? = some blkA1) ∧
    (∀ (h : Heap) (a b : SharedPtr),
      SharedPtr.moveAssign h a b =
        (a.destroy h >>= fun h1 => pure (h1, b, SharedPtr.null))) ∧
    (∀ (v : World) (j : Nat), step v (.sharedMoveAssign j j) = .ok v) ∧
    (∀ (o : Origin) (pre : List Op) (v : World) (j l : Nat) (a b : SharedPtr),
      program o pre = .ok v → v.getShared j = some a → v.getShared l = some b → j ≠ l →
      ∃ v1 v2, step v (.sharedMove l) = .ok v1 ∧ v1.heap = v.heap ∧
        v1.shared = v.shared.set l (some (SharedPtr.move b).2) ++ [some b] ∧
        v1.weak = v.weak ∧
        step v (.sharedMoveAssign j l) = .ok v2 ∧
        v2.getShared j = some b ∧ v2.getShared l = some (SharedPtr.move b).2 ∧
        v2.weak = v.weak ∧
        a.destroy v.heap = .ok v2.heap ∧
        step v (.sharedMoveAssign j j) = .ok v) := by
  have hltA := getElem?_lt hA
  have hltB := getElem?_lt hB
  have hk := getElem?_lt (World.getShared_eq hb)
  obtain ⟨blkA1, hd⟩ := shared_destroy_at blkA w.heap.objects ia pa oa wt hfA hcA hwA hptr
    hobj hwt
  have hd0 := hd w.heap.blocks hA
  have hma : SharedPtr.moveAssign w.heap ⟨some pa, some ia⟩ ⟨some pb, some ib⟩ =
      .ok (⟨w.heap.blocks.set ia blkA1, w.heap.objects⟩, ⟨some pb, some ib⟩,
        SharedPtr.null) := by
    simp only [SharedPtr.moveAssign, SharedPtr.move, SharedPtr.Swap, SharedPtr.Get, hd0,
      bind_ok, pure_eq_ok]
    rfl
  refine ⟨fun b => ⟨rfl, rfl, fun h => rfl⟩, ⟨blkA1,
    { w with shared := w.shared.set k (some SharedPtr.null) ++ [some ⟨some pb, some ib⟩] },
    ⟨⟨w.heap.blocks.set ia blkA1, w.heap.objects⟩,
      (w.shared.set i (some ⟨some pb, some ib⟩)).set k (some SharedPtr.null), w.weak⟩,
    ?_, rfl, rfl, rfl, hd0, ?_, rfl, rfl, rfl, ?_, ?_, ?_, ?_⟩, ?_, ?_, ?_⟩
  · simp only [step, hb, pure_eq_ok]
    rfl
  · simp only [step, hik, if_false, ha, hb, hma, bind_ok, pure_eq_ok]
  · have h1 : World.getShared { w with shared := w.shared.set i (some ⟨some pb, some ib⟩) }
        i = some ⟨some pb, some ib⟩ := getShared_set_same _ _ _ ha
    have h2 := getShared_set_other
      (w := { w with shared := w.shared.set i (some ⟨some pb, some ib⟩) })
      (some SharedPtr.null) w.weak ⟨w.heap.blocks.set ia blkA1, w.heap.objects⟩ (Ne.symm hik)
    exact h2.trans h1
  · simp [World.getShared, hk]
  · simp only [List.getElem?_set_ne hab]
    exact hB
  · simp [hltA]
  · intro h a b
    rfl
  · intro v j
    simp [step]
  · intro o pre v j l a b hv hja hlb hjl
    exact (shared_move_in_family o pre v j l a b hv hja hlb hjl).2.2.2

/-- C12 at the state after `SharedPtr<T> s(new T); SharedPtr<T> t(new T); SharedPtr<T>
u(s);` and the assignment `t = std::move(s)`: the handle `t` is the only one on its
block, so the assignment destroys the second object and frees the second block; the
first block keeps its strong counter 2, and `s` is empty. -/
theorem C12_shared_move_transfers_witness :
    execAll World.empty [.wrapNew false, .wrapNew false, .op (.sharedCopy 0)] =
      .ok exampleWorldOwners ∧
    step exampleWorldOwners (.sharedMoveAssign 1 0) =
      .ok { heap :=
              { blocks := [{ counter_ := 2, weak_counter_ := 0, ptr_ := some 0,
                             inPlace := false, objectDeletes := 0, freed := false },
                           { counter_ := 1, weak_counter_ := 0, ptr_ := some 1,
                             inPlace := false, objectDeletes := 1, freed := true }],
                objects := exampleWorldOwners.heap.objects },
            shared := [some ⟨none, none⟩, some ⟨some 0, some 0⟩, some ⟨some 0, some 0⟩],
            weak := [] } ∧
    ∃ blkA1 w2,
      SharedPtr.destroy ⟨some 1, some 1⟩ exampleWorldOwners.heap =
        .ok ⟨exampleWorldOwners.heap.blocks.set 1 blkA1, exampleWorldOwners.heap.objects⟩ ∧
      step exampleWorldOwners (.sharedMoveAssign 1 0) = .ok w2 ∧
      w2.getShared 1 = some ⟨some 0, some 0⟩ ∧ w2.getShared 0 = some SharedPtr.null ∧
      w2.heap.blocks[0]? = some { (PointerControlBlock (some 0)) with counter_ := 2 } ∧
      w2.heap.blocks[1]? = some blkA1 :=
  have h := (C12_shared_move_transfers exampleWorldOwners 1 0 1 0 1 0 1
    (PointerControlBlock (some 1)) { (PointerControlBlock (some 0)) with counter_ := 2 }
    WeakPtr.null rfl rfl (by decide) (by decide) rfl rfl rfl (by decide) (by decide) rfl rfl
    (Or.inl rfl)).2.1
  ⟨rfl, rfl, by
    obtain ⟨blkA1, w1, w2, -, -, -, -, h5, h6, -, -, -, h10, h11, h12, h13⟩ := h
    exact ⟨blkA1, w2, h5, h6, h10, h11, h12, h13⟩⟩

/-! ## The strong counter at `INT_MAX` -/

/-- Copy constructions from a handle on a live block with the 32-bit counter: after `n`
of them the strong counter holds the value that a 32-bit `int` holds for `c + n`. -/
theorem copies32_counter (p : Nat) (objs : List Object) (n : Nat) :
    ∀ (blk : ControlBlock), blk.freed = false → -(2 ^ 31) ≤ blk.counter_ →
      blk.counter_ < 2 ^ 31 →
      copies32 ⟨some p, some 0⟩ n ⟨[blk], objs⟩ =
        .ok (⟨[{ blk with counter_ := wrapInt (blk.counter_ + n) }], objs⟩,
          List.replicate n ⟨some p, some 0⟩) := by
  induction n with
  | zero =>
    intro blk hf h1 h2
    simp [copies32, wrapInt_of_range h1 h2]
  | succ n ih =>
    intro blk hf h1 h2
    have hr := wrapInt_range (blk.counter_ + 1)
    have e1 : SharedPtr.copy32 ⟨[blk], objs⟩ ⟨some p, some 0⟩ =
        .ok (⟨[{ blk with counter_ := wrapInt (blk.counter_ + 1) }], objs⟩,
          ⟨some p, some 0⟩) := by
      simp [SharedPtr.copy32, SharedPtr.toBool, SharedPtr.Get, Heap.increment32,
        Heap.modify, hf]
    have e2 := ih { blk with counter_ := wrapInt (blk.counter_ + 1) } hf hr.1 hr.2
    simp only [copies32, e1, bind_ok, e2, pure_eq_ok]
    simp only [wrapInt_add, List.replicate_succ, Nat.cast_add, Nat.cast_one]
    have e3 : blk.counter_ + 1 + (n : Int) = blk.counter_ + ((n : Int) + 1) := by omega
    rw [e3]

/-- C1, as stated, fails: the strong counter is an `int`.  After `SharedPtr<T> s(new
T)` and `2^31 - 1` copy constructions from `s` there are `2^31` live handles on the
block, all non-empty.  The last increment takes the counter from `INT_MAX` to
`-2^31` on a target where the overflow of a 32-bit `int` wraps around, and `UseCount()`,
which converts the counter to `size_t`, returns `2^64 - 2^31`, not `2^31`. -/
theorem C1_use_count_wraps_at_int_max :
    program (.ofPtr false 1 0) [] =
      .ok ⟨⟨[PointerControlBlock (some 0)], [{ weak_this_ := WeakPtr.null }]⟩,
        [some ⟨some 0, some 0⟩], []⟩ ∧
    ∃ h cs,
      copies32 ⟨some 0, some 0⟩ (2 ^ 31 - 1)
        ⟨[PointerControlBlock (some 0)], [{ weak_this_ := WeakPtr.null }]⟩ = .ok (h, cs) ∧
      cs.length + 1 = 2 ^ 31 ∧ (∀ c ∈ cs, c = (⟨some 0, some 0⟩ : SharedPtr)) ∧
      h.blocks = [{ PointerControlBlock (some 0) with counter_ := -(2 ^ 31) }] ∧
      (SharedPtr.mk (some 0) (some 0)).UseCount h = .ok (2 ^ 64 - 2 ^ 31) ∧
      (2 ^ 64 - 2 ^ 31 : Nat) ≠ cs.length + 1 := by
  refine ⟨rfl, ?_⟩
  have e := copies32_counter 0 [{ weak_this_ := WeakPtr.null }] (2 ^ 31 - 1)
    (PointerControlBlock (some 0)) rfl (by decide) (by decide)
  have e4 : wrapInt ((PointerControlBlock (some 0)).counter_ + ((2 ^ 31 - 1 : Nat) : Int)) =
      -(2 ^ 31) := by
    decide
  rw [e4] at e
  refine ⟨_, _, e, ?_, ?_, rfl, ?_, ?_⟩
  · rw [List.length_replicate]
    decide
  · intro c hc
    exact List.eq_of_mem_replicate hc
  · simp [SharedPtr.UseCount, SharedPtr.toBool, SharedPtr.Get, Heap.GetCount, Heap.deref,
      PointerControlBlock]
    decide
  · rw [List.length_replicate]
    decide

/-- C1 as amended: a program creates its first handle by `SharedPtr<T> s(ptr)` from a
non-null pointer or by `MakeShared`, and then performs any finite sequence of operations
on the handles of the family (among them copy construction, copy assignment, move
construction, move assignment, `Reset()` and destruction) such that in every state on
the way fewer than `INT_MAX` live `SharedPtr` variables and fewer than `INT_MAX - 1`
live `WeakPtr` variables reference the block.  The program reaches every state on the
way, and its final state, without a fault; there both counters of the block, if it is
still allocated, are non-negative and below `INT_MAX`, so that a further increment of a
32-bit `int` does not overflow; `UseCount()` of every live non-empty handle references
the control block of the family and returns the number of live `SharedPtr` variables
that reference this block; and copy construction with the 32-bit counter is copy
construction with the counter as a number. -/
theorem C1_use_count_below_int_max (o : Origin) (ops : List Op)
    (hb : ∀ k w1, program o (ops.take k) = .ok w1 →
      strongRefs 0 w1.shared < 2 ^ 31 - 1 ∧ weakRefs 0 w1.weak < 2 ^ 31 - 2) :
    (∀ k, ∃ w1 b1, program o (ops.take k) = .ok w1 ∧ w1.heap.blocks = [b1] ∧
      (b1.freed = false →
        0 ≤ b1.counter_ ∧ b1.counter_ < 2 ^ 31 - 1 ∧
        0 ≤ b1.weak_counter_ ∧ b1.weak_counter_ < 2 ^ 31 - 1)) ∧
    ∃ w b, program o ops = .ok w ∧ w.heap.blocks = [b] ∧
      (b.freed = false →
        0 ≤ b.counter_ ∧ b.counter_ < 2 ^ 31 - 1 ∧
        0 ≤ b.weak_counter_ ∧ b.weak_counter_ < 2 ^ 31 - 1 ∧
        wrapInt (b.counter_ + 1) = b.counter_ + 1) ∧
      ∀ i s, w.getShared i = some s → s.toBool = true →
        s.control_block_ = some 0 ∧ s.UseCount w.heap = .ok (strongRefs 0 w.shared) ∧
        strongRefs 0 w.shared < 2 ^ 31 - 1 ∧
        SharedPtr.copy32 w.heap s = SharedPtr.copy w.heap s := by
  have key : ∀ ops1 : List Op, (∀ w1, program o ops1 = .ok w1 →
      strongRefs 0 w1.shared < 2 ^ 31 - 1 ∧ weakRefs 0 w1.weak < 2 ^ 31 - 2) →
      ∃ objs w b, program o ops1 = .ok w ∧ Inv objs o.addr o.esft w ∧
        w.heap = ⟨[b], objs⟩ ∧
        strongRefs 0 w.shared < 2 ^ 31 - 1 ∧
        (b.freed = false →
          b.counter_ = strongRefs 0 w.shared ∧
          0 ≤ b.counter_ ∧ b.counter_ < 2 ^ 31 - 1 ∧
          0 ≤ b.weak_counter_ ∧ b.weak_counter_ < 2 ^ 31 - 1 ∧
          wrapInt (b.counter_ + 1) = b.counter_ + 1) := by
    intro ops1 hb1
    obtain ⟨objs, w, h, hinv⟩ := program_inv o ops1
    obtain ⟨hS, hW⟩ := hb1 w h
    obtain ⟨blk, hheap, hg⟩ := hinv.heap
    refine ⟨objs, w, blk, h, hinv, hheap, hS, fun hf => ?_⟩
    have hc := hg.strong hf
    have hw := hg.weak hf
    have hm : (if o.esft = true then min (strongRefs 0 w.shared) 1 else 0) ≤ 1 := by
      split <;> omega
    have h1 : (0 : Int) ≤ blk.counter_ := by omega
    have h2 : blk.counter_ < 2 ^ 31 - 1 := by omega
    refine ⟨hc, h1, h2, by omega, by omega, ?_⟩
    exact wrapInt_of_range (by omega) (by omega)
  refine ⟨fun k => ?_, ?_⟩
  · obtain ⟨objs, w, b, h, -, hheap, -, hr⟩ := key (ops.take k) (hb k)
    refine ⟨w, b, h, by rw [hheap], fun hf => ?_⟩
    obtain ⟨-, h1, h2, h3, h4, -⟩ := hr hf
    exact ⟨h1, h2, h3, h4⟩
  · have hall : ∀ w1, program o ops = .ok w1 →
        strongRefs 0 w1.shared < 2 ^ 31 - 1 ∧ weakRefs 0 w1.weak < 2 ^ 31 - 2 := by
      intro w1 h1
      apply hb ops.length
      rw [List.take_length]
      exact h1
    obtain ⟨objs, w, b, h, hinv, hheap, hS, hr⟩ := key ops hall
    refine ⟨w, b, h, by rw [hheap], fun hf => ?_, fun i s hs hne => ?_⟩
    · obtain ⟨-, h1, h2, h3, h4, h5⟩ := hr hf
      exact ⟨h1, h2, h3, h4, h5⟩
    · obtain ⟨hcb, huc⟩ := hinv.useCount hs hne
      refine ⟨hcb, huc, hS, ?_⟩
      obtain ⟨blk, hheap1, hg⟩ := hinv.heap
      obtain ⟨-, hfam, hle⟩ := hinv.shared_slot hs
      rcases shared_inFamily_cases hfam with rfl | ⟨p, rfl⟩
      · simp [SharedPtr.toBool, SharedPtr.Get, SharedPtr.null] at hne
      · simp at hle
        have hf := hg.live (by omega)
        have hbb : blk = b := by
          rw [hheap1] at hheap
          simpa using hheap
        subst hbb
        obtain ⟨-, -, -, -, -, h5⟩ := hr hf
        simp [SharedPtr.copy32, SharedPtr.copy, Heap.increment32, Heap.increment, h5,
          Heap.modify, hheap, hf, SharedPtr.toBool, SharedPtr.Get]

/-- C1 as amended, at the program `SharedPtr<T> s(new T); SharedPtr<T> t(s);`, in
whose states one handle and then two handles reference the block. -/
theorem C1_use_count_below_int_max_witness :
    ∃ w b, program (.ofPtr false 1 0) [.sharedCopy 0] = .ok w ∧ w.heap.blocks = [b] ∧
      (b.freed = false →
        0 ≤ b.counter_ ∧ b.counter_ < 2 ^ 31 - 1 ∧
        0 ≤ b.weak_counter_ ∧ b.weak_counter_ < 2 ^ 31 - 1 ∧
        wrapInt (b.counter_ + 1) = b.counter_ + 1) ∧
      ∀ i s, w.getShared i = some s → s.toBool = true →
        s.control_block_ = some 0 ∧ s.UseCount w.heap = .ok (strongRefs 0 w.shared) ∧
        strongRefs 0 w.shared < 2 ^ 31 - 1 ∧
        SharedPtr.copy32 w.heap s = SharedPtr.copy w.heap s :=
  (C1_use_count_below_int_max (.ofPtr false 1 0) [.sharedCopy 0] (by
    intro k w1 h
    match k, h with
    | 0, h =>
      have e : program (.ofPtr false 1 0) (List.take 0 [Op.sharedCopy 0]) =
          .ok ⟨⟨[PointerControlBlock (some 0)], [{ weak_this_ := WeakPtr.null }]⟩,
            [some ⟨some 0, some 0⟩], []⟩ := rfl
      rw [e] at h
      cases h
      decide
    | k + 1, h =>
      have e : program (.ofPtr false 1 0) (List.take (k + 1) [Op.sharedCopy 0]) =
          .ok ⟨⟨[{ PointerControlBlock (some 0) with counter_ := 2 }],
              [{ weak_this_ := WeakPtr.null }]⟩,
            [some ⟨some 0, some 0⟩, some ⟨some 0, some 0⟩], []⟩ := by
        simp only [List.take_succ_cons, List.take_nil]
        rfl
      rw [e] at h
      cases h
      decide)).2

end SmartPointers
